import Mathlib

/-!
# Bar chart race: ranking, colouring and axis planning

A shallow embedding of `source/utils/common.h`, `source/models/barChart.h`,
`source/models/dataset.h` and the loader `get_data` of `source/models/fileHandler.h`,
followed by theorems about it.

Conventions of the embedding.

* `int` is `Int`; an operation whose C++ behaviour is undefined (signed overflow, a
  floating value converted to an integer type that cannot hold it, `%` by zero,
  `pop_back` on an empty vector, `bars[0]` of an empty vector) makes the embedded
  function return `none`.
* `float` is `F32`, the value set of IEEE-754 binary32 with round-to-nearest-even
  arithmetic (see below).
* `std::vector` is `List`, `std::map< string, T >` is a key-sorted association list with
  unique keys, `std::stringstream` is the `String` written so far.
* `std::sort` is library code: it is a parameter `stdSort` of the embedding, constrained by
  the contract `SortsByCmpBar`. Where a claim depends on more than the contract (the order
  of bars of equal value), `std_sort` is the implementation of libstdc++.
* A file is the list of its lines; an exception that nothing catches (`std::stoi`) ends the
  call without a result, like undefined behaviour.
-/

namespace BarChartRace

/-! ## The C++ `float` -/

/-- Values of the C++ type `float` (IEEE-754 binary32). Every finite binary32 value is an
integer multiple of `2^-149`; `fin z` is the value `z * 2^-149`. The sign of a zero is not
represented: the program never divides by a negative zero. -/
inductive F32 where
  | nan : F32
  | inf (neg : Bool) : F32
  | fin (z : Int) : F32
deriving DecidableEq, Repr

namespace F32

/-- Floor of the binary logarithm (`0` for `0` and `1`), by repeated halving. -/
def ilog2 : Nat → Nat → Nat
  | 0, _ => 0
  | fuel + 1, n => if n < 2 then 0 else ilog2 fuel (n / 2) + 1

/-- Round the non-negative rational `N / D`, counted in units of `2^-149`, to the nearest
point of the binary32 grid, ties to the even significand. The grid spacing at a value with
integer part `q` is `2^(log2 q - 23)` units (`1` unit below `2^24` units, which covers the
subnormal numbers and the first normal binade). -/
def roundMag (N D : Nat) : Nat :=
  let s := ilog2 (N / D) (N / D) - 23
  let k := N / (D * 2 ^ s)
  let r := N % (D * 2 ^ s)
  if 2 * r < D * 2 ^ s then k * 2 ^ s
  else if D * 2 ^ s < 2 * r then (k + 1) * 2 ^ s
  else (k + k % 2) * 2 ^ s

/-- Rounding with sign and overflow: a rounded magnitude of `2^128` or more is infinite. -/
def round (neg : Bool) (N D : Nat) : F32 :=
  if 2 ^ 128 * 2 ^ 149 ≤ roundMag N D then inf neg
  else if neg then fin (-(roundMag N D : Int)) else fin (roundMag N D)

/-- The conversion `( float ) i` of an `int`. -/
def ofInt (i : Int) : F32 := round (decide (i < 0)) (i.natAbs * 2 ^ 149) 1

/-- The binary32 quotient `a / b`. -/
def div : F32 → F32 → F32
  | fin a, fin b =>
      if b = 0 then (if a = 0 then nan else inf (decide (a < 0)))
      else round (decide (a < 0) != decide (b < 0)) (a.natAbs * 2 ^ 149) b.natAbs
  | fin _, inf _ => fin 0
  | inf n, fin b => inf (n != decide (b < 0))
  | _, _ => nan

/-- The binary32 product `a * b`. -/
def mul : F32 → F32 → F32
  | fin a, fin b => round (decide (a < 0) != decide (b < 0)) (a.natAbs * b.natAbs) (2 ^ 149)
  | fin a, inf n => if a = 0 then nan else inf (decide (a < 0) != n)
  | inf n, fin b => if b = 0 then nan else inf (n != decide (b < 0))
  | inf n, inf m => inf (n != m)
  | _, _ => nan

/-- The conversion of a `float` to `int`: truncation toward zero; undefined (`none`) when the
truncated value is not representable in a 32-bit `int`, and for infinities and NaN. -/
def toInt : F32 → Option Int
  | fin z =>
      if -(2 ^ 31 : Int) ≤ z.tdiv (2 ^ 149) ∧ z.tdiv (2 ^ 149) < 2 ^ 31 then
        some (z.tdiv (2 ^ 149))
      else none
  | _ => none

end F32

/-! ## `common.h` -/

/-- The struct `Bar`. -/
structure Bar where
  label : String
  category : String
  value : Int
  width : F32
deriving DecidableEq, Repr

/-- The comparator `cmp_bar`: true iff `a.value > b.value`. -/
def cmp_bar (a b : Bar) : Bool := decide (a.value > b.value)

/-- The contract of `std::sort( first, last, cmp_bar )`: the range is rearranged (a
permutation) so that no element is ordered by `cmp_bar` before an element preceding it. -/
def SortsByCmpBar (stdSort : List Bar → List Bar) : Prop :=
  ∀ l : List Bar, (stdSort l).Perm l ∧ (stdSort l).Pairwise (fun a b => cmp_bar b a = false)

/-- Insertion of one bar into a range ordered by `cmp_bar`: the bar goes in front of the
first element that `cmp_bar` does not order before it. -/
def linear_insert (x : Bar) : List Bar → List Bar
  | [] => [x]
  | y :: ys => if cmp_bar y x then y :: linear_insert x ys else x :: y :: ys

/-- One implementation admitted by the contract: insertion sort. -/
def insertion_sort : List Bar → List Bar
  | [] => []
  | x :: xs => linear_insert x (insertion_sort xs)

/-! ## `std::map< string, T >` -/

/-- The member `std::map::insert( { k, v } )` on a key-sorted association list: the pair is
added at its place in key order when the key is absent (second component `true`), and the
map is left as it is when the key is present (second component `false`). Keys are compared
as `std::string` compares them, character by character. -/
def mapInsert {β : Type} : List (String × β) → String → β → List (String × β) × Bool
  | [], k, v => ([(k, v)], true)
  | (k', v') :: rest, k, v =>
      if k.data < k'.data then ((k, v) :: (k', v') :: rest, true)
      else if k = k' then ((k', v') :: rest, false)
      else ((k', v') :: (mapInsert rest k v).1, (mapInsert rest k v).2)

/-- Lookup of a key (`std::map::find`). -/
def mapFind {β : Type} : List (String × β) → String → Option β
  | [], _ => none
  | (k', v') :: rest, k => if k = k' then some v' else mapFind rest k

/-! ## `barChart.h`: ranking -/

/-- The class `BarChart`. -/
structure BarChart where
  bars : List Bar
  timestamp : String
  n_bars : Nat
deriving DecidableEq, Repr

/-- The method `BarChart::push_a_bar`. -/
def push_a_bar (c : BarChart) (bar : Bar) : BarChart := { c with bars := c.bars ++ [bar] }

/-- The method `BarChart::sort_bars`. -/
def sort_bars (stdSort : List Bar → List Bar) (c : BarChart) : BarChart :=
  { c with bars := stdSort c.bars }

/-- The loop of `BarChart::purge_bars`: while the size differs from `n_bars`, `pop_back`.
Popping an empty vector is undefined. -/
def purge_loop : Nat → BarChart → Option BarChart
  | 0, _ => none
  | fuel + 1, c =>
      if c.bars.length ≠ c.n_bars then
        (if c.bars.isEmpty then none else purge_loop fuel { c with bars := c.bars.dropLast })
      else some c

/-- The method `BarChart::purge_bars`; the loop runs at most `size + 1` tests. -/
def purge_bars (c : BarChart) : Option BarChart := purge_loop (c.bars.length + 1) c

/-- The width expression of `set_widths`: `150 * ( ( float ) value / ( float ) max )`. -/
def bar_width (value max : Int) : F32 :=
  F32.mul (F32.ofInt 150) (F32.div (F32.ofInt value) (F32.ofInt max))

/-- The method `BarChart::set_widths`; `bars[0]` of an empty vector is undefined. -/
def set_widths (c : BarChart) : Option BarChart :=
  match c.bars with
  | [] => none
  | b0 :: _ =>
      some { c with bars := c.bars.map (fun bar => { bar with width := bar_width bar.value b0.value }) }

/-! ## `dataset.h` -/

/-- The class `Dataset`. -/
structure Dataset where
  charts : List (String × BarChart)
  categories : List (String × Int)
  single_colored : Bool
  color : Int
  title : String
  label : String
  source : String
deriving DecidableEq, Repr

/-- A freshly constructed `Dataset` (the default member initialisers). -/
def Dataset.new : Dataset :=
  { charts := [], categories := [], single_colored := false, color := 31,
    title := "", label := "", source := "" }

/-- The method `Dataset::push_a_chart`. The chart is passed by pointer and ranked in place,
so the ranked chart is returned next to the new dataset. -/
def push_a_chart (stdSort : List Bar → List Bar) (ds : Dataset) (chart : BarChart) :
    Option (Dataset × BarChart) :=
  match purge_bars (sort_bars stdSort chart) with
  | none => none
  | some purged =>
      match set_widths purged with
      | none => none
      | some ranked =>
          some ({ ds with charts := (mapInsert ds.charts ranked.timestamp ranked).1 }, ranked)


/-- The method `Dataset::push_a_category`. -/
def push_a_category (ds : Dataset) (category : String) : Dataset :=
  let ds1 : Dataset := if ds.categories.length > 14 then { ds with single_colored := true } else ds
  let ins := mapInsert ds1.categories category ds1.color
  let ds2 : Dataset := { ds1 with categories := ins.1 }
  if ins.2 then
    if !ds2.single_colored then
      { ds2 with color := if ds2.color + 1 = 38 then 90 else ds2.color + 1 }
    else ds2
  else ds2

/-- The method `Dataset::get_color`. The constant `Color::RED` is declared in
`utils/text_color.h`, which is not among the sources: it is the parameter `RED`. The
subscript `categories[category]` inserts a value-initialised entry (colour `0`) when the
category is absent, so the dataset after the call is returned as well. -/
def get_color (RED : Int) (ds : Dataset) (category : String) : Int × Dataset :=
  if ds.single_colored then (RED, ds)
  else
    match mapFind ds.categories category with
    | some c => (c, ds)
    | none => (0, { ds with categories := (mapInsert ds.categories category 0).1 })

/-! ## `barChart.h`: the footer -/

/-- The largest `int`. -/
def INT_MAX : Int := 2147483647

/-- Integer part of the decimal logarithm of `n >= 1`, by repeated division by ten. -/
def ilog10 : Nat → Nat → Nat
  | 0, _ => 0
  | fuel + 1, n => if n < 10 then 0 else ilog10 fuel (n / 10) + 1

/-- The conversion to an integer type of `std::log10( v )` for an `int` argument `v`: the
integer part of the decimal logarithm when `v >= 1` (the library result is taken to have
the integer part of the real logarithm). For `v == 0` the logarithm is minus infinity and
for `v < 0` it is NaN, and so is that value plus one; converting either to an integer type
is undefined. -/
def log10_int (v : Int) : Option Int :=
  if v ≤ 0 then none else some (ilog10 v.toNat v.toNat)

/-- The expression `( int ) ( std::pow( 10, k ) + 0.5 )`: for `k < 0` the power is at most
`0.1`, the sum is below one and truncates to `0`; for `k >= 0` it is `10^k`, which must fit
an `int`. -/
def pow10_int (k : Int) : Option Int :=
  if k < 0 then some 0
  else if (10 : Int) ^ k.toNat ≤ INT_MAX then some (10 ^ k.toNat) else none

/-- The first part of `print_footer` (the lines from `int max` to `int step`): the rounded
minimum, the rounded maximum and the step. The operators `%` and `/` of C++ truncate toward
zero; `%` by zero and signed overflow are undefined. -/
def axis_params (c : BarChart) : Option (Int × Int × Int) :=
  match c.bars.head?, c.bars.getLast? with
  | some first, some last =>
      match log10_int first.value, log10_int last.value with
      | some lmax, some lmin =>
          match pow10_int (lmax + 1 - 2), pow10_int (lmin + 1 - 1) with
          | some maxpow, some minpow =>
              if minpow = 0 ∨ maxpow = 0 then none
              else if INT_MAX < first.value + (maxpow - first.value.tmod maxpow) then none
              else
                some (last.value - last.value.tmod minpow,
                      first.value + (maxpow - first.value.tmod maxpow),
                      ((first.value + (maxpow - first.value.tmod maxpow)) -
                        (last.value - last.value.tmod minpow)).tdiv 5)
          | _, _ => none
      | _, _ => none
  | _, _ => none

/-- The column expression of `print_footer`:
`int width = 150 * ( ( float ) i / ( float ) max )`. -/
def tick_width (i max : Int) : Option Int :=
  F32.toInt (F32.mul (F32.ofInt 150) (F32.div (F32.ofInt i) (F32.ofInt max)))

/-- The loop `for ( int i = min; i <= max; i += step )` of `print_footer`, which fills the
vectors `sequence` and `widths`. -/
def tick_loop (max step : Int) : Nat → Int → List Int × List Int → Option (List Int × List Int)
  | 0, _, _ => none
  | fuel + 1, i, (sequence, widths) =>
      if i ≤ max then
        (tick_width i max).bind fun width =>
          if INT_MAX < i + step then none
          else tick_loop max step fuel (i + step) (sequence ++ [i], widths ++ [width])
      else some (sequence, widths)

/-- The local state of the drawing loop of `print_footer`. -/
structure DrawState where
  axis : String
  points : String
  count : Nat
  lw : Int
deriving DecidableEq, Repr

/-- One iteration of the loop `for ( int i = 0; i <= *( widths.end() - 1 ); i++ )`. The call
`sequence.at( count )` throws when `count` is out of range. -/
def draw_step (sequence widths : List Int) (state : Option DrawState) (i : Nat) :
    Option DrawState :=
  match state with
  | none => none
  | some st =>
      if widths.contains (i : Int) then
        match sequence[st.count]? with
        | none => none
        | some v =>
            match log10_int v with
            | none => none
            | some l =>
                some { axis := st.axis ++ "+", points := st.points ++ toString v,
                       count := st.count + 1, lw := l }
      else if st.lw ≠ 0 then some { st with axis := st.axis ++ "-", lw := st.lw - 1 }
      else some { st with axis := st.axis ++ "-", points := st.points ++ " " }

/-- One iteration of the loop `for ( int i = 0; i <= 150; i++ )` of the branch `step == 0`.
The `if` governs only the statement `axis << "+", points << max;`. -/
def flat_step (max : Int) (st : String × String) (i : Nat) : String × String :=
  let st1 := if i = 150 then (st.1 ++ "+", st.2 ++ toString max) else st
  (st1.1 ++ "-", st1.2 ++ " ")

/-- What `print_footer` has built when it reaches its output statements: the streams `axis`
and `points` and the vectors `sequence` and `widths`. -/
structure Footer where
  axis : String
  points : String
  sequence : List Int
  widths : List Int
deriving DecidableEq, Repr

/-- The method `BarChart::print_footer`, up to its output statements (which send the two
streams, the label and the source through `Color::tcolor` to `std::cout`). -/
def print_footer (c : BarChart) : Option Footer :=
  match axis_params c with
  | none => none
  | some (min, max, step) =>
      if step = 0 then
        some { axis := ((List.range 151).foldl (flat_step max) ("+", "0")).1 ++
                 "----------------------------->",
               points := ((List.range 151).foldl (flat_step max) ("+", "0")).2,
               sequence := [], widths := [] }
      else
        match tick_loop max step ((max - min).toNat + 2) min ([], []) with
        | none => none
        | some (sequence, widths) =>
            match widths.getLast? with
            | none => none
            | some last =>
                match (List.range (last + 1).toNat).foldl (draw_step sequence widths)
                    (some { axis := "+", points := "0", count := 0, lw := 0 }) with
                | none => none
                | some st =>
                    some { axis := st.axis ++ "----------------------------->",
                           points := st.points, sequence := sequence, widths := widths }


/-! ## Sample inputs -/

/-- A chart with three bars and limit two, with widths not yet set. -/
def demoChart : BarChart :=
  { bars := [⟨"a", "x", 5, F32.nan⟩, ⟨"b", "y", 9, F32.nan⟩, ⟨"c", "x", 5, F32.nan⟩],
    timestamp := "t", n_bars := 2 }

/-- The chart `demoChart` after ranking. -/
def demoRanked : BarChart :=
  { bars := [⟨"b", "y", 9, bar_width 9 9⟩, ⟨"a", "x", 5, bar_width 5 9⟩],
    timestamp := "t", n_bars := 2 }

/-- A chart as `get_data` builds it from one group of bar lines with the given values, in
file order, before ranking (the widths are not yet set); the limit is the number of bars. -/
def raw_chart (values : List Int) : BarChart :=
  { bars := values.map (fun v => ⟨"bar", "cat", v, F32.nan⟩),
    timestamp := "t", n_bars := values.length }

/-- The ranked chart whose bars carry the given values, already in descending order. -/
def ranked_chart (values : List Int) : BarChart :=
  { bars := values.map (fun v => ⟨"bar", "cat", v, bar_width v (values.headD 0)⟩),
    timestamp := "t", n_bars := values.length }

/-- A run of `n` copies of the glyph `c`. -/
def glyphs (n : Nat) (c : Char) : String := String.mk (List.replicate n c)

/-! ## The rounded ends of the axis -/

/-- The value that `min -= ( min % minpow )` leaves in `min` when the last bar has value
`v >= 1`: `v` rounded down to a multiple of `10^(digits - 1)`. -/
def rounded_min (v : Int) : Int := v - v % 10 ^ ilog10 v.toNat v.toNat

/-- The value that `max += ( maxpow - ( max % maxpow ) )` leaves in `max` when the first bar
has value `v >= 10`: the next multiple of `10^(digits - 2)` above `v`. -/
def rounded_max (v : Int) : Int :=
  v + (10 ^ (ilog10 v.toNat v.toNat - 1) - v % 10 ^ (ilog10 v.toNat v.toNat - 1))

/-- The footer of the branch `step == 0` for a rounded maximum `max`. -/
def flat_footer (max : Int) : Footer :=
  { axis := "+" ++ glyphs 150 '-' ++ "+-" ++ "----------------------------->",
    points := "0" ++ glyphs 150 ' ' ++ toString max ++ " ",
    sequence := [], widths := [] }

/-- Fifteen pairwise distinct category names. -/
def fifteen_categories : List String :=
  ["c01", "c02", "c03", "c04", "c05", "c06", "c07", "c08", "c09", "c10",
   "c11", "c12", "c13", "c14", "c15"]

/-- The dataset after `push_a_category` has been called once for each of the fifteen
categories, in order, on a fresh dataset. -/
def fifteen_pushed : Dataset := fifteen_categories.foldl push_a_category Dataset.new

/-! ## Runs of calls on the colour map -/

/-- The method `push_a_category` called for each category of a list in turn. -/
def push_all (ds : Dataset) (cats : List String) : Dataset := cats.foldl push_a_category ds

/-- The number of distinct categories among the entries of a list. -/
def distinct_count (cats : List String) : Nat := cats.dedup.length

/-- The fixed sequence of colours `31, ..., 37, 90, 91, ...`, counted from zero. -/
def palette (k : Nat) : Int := if k < 7 then 31 + k else 83 + k

/-- A call of one of the two methods that touch the colour state. -/
inductive ColourCall where
  | push (category : String) : ColourCall
  | get (category : String) : ColourCall
deriving DecidableEq, Repr

/-- The dataset after one call. -/
def apply_call (RED : Int) (ds : Dataset) : ColourCall → Dataset
  | ColourCall.push category => push_a_category ds category
  | ColourCall.get category => (get_color RED ds category).2

/-- The keys of a map are in strictly increasing order. -/
def KeysSorted {β : Type} (m : List (String × β)) : Prop :=
  m.Pairwise (fun a b => a.1.data < b.1.data)

/-- What holds of the colour state after `push_a_category` has been called, on a fresh
dataset, for the categories of `P` in turn: the map has sorted keys, which are the
categories of `P`; the flag is set only if fifteen distinct categories were pushed; and
while the flag is not set, the next colour is the palette entry after those in use and
each category has the palette entry numbered by the distinct categories pushed before
its first push. -/
def ColourInv (P : List String) (ds : Dataset) : Prop :=
  KeysSorted ds.categories ∧
  (∀ c, mapFind ds.categories c ≠ none ↔ c ∈ P) ∧
  ds.categories.length = distinct_count P ∧
  (ds.single_colored = true → 15 ≤ distinct_count P) ∧
  (ds.single_colored = false →
    ds.color = palette (distinct_count P) ∧
    ∀ p c s, P = p ++ c :: s → c ∉ p →
      mapFind ds.categories c = some (palette (distinct_count p)))

/-! ## Auxiliary notions for the binary32 model -/

namespace F32

/-- The quotient `N / E` rounded to the nearest integer, ties to the even one. -/
def rne (N E : Nat) : Nat :=
  if 2 * (N % E) < E then N / E
  else if E < 2 * (N % E) then N / E + 1
  else N / E + N / E % 2

/-- The binary exponent of the grid spacing at a value with integer part `q`. -/
def gridExp (q : Nat) : Nat := ilog2 q q - 23

/-- The comparison `a <= b` of two `float` values; it is false when either is NaN. -/
def le : F32 → F32 → Bool
  | fin a, fin b => decide (a ≤ b)
  | fin _, inf neg => !neg
  | inf neg, fin _ => neg
  | inf n, inf m => n || !m
  | _, _ => false

end F32

/-! ## `std::sort` as libstdc++ implements it

The functions below follow `bits/stl_algo.h` and `bits/stl_heap.h` of libstdc++ (GCC), with
`cmp_bar` as the comparator: `std::sort` is an introsort (quicksort on ranges of more than
16 elements, heap sort once the depth limit is used up) followed by an insertion sort. A
range is a list and positions in it; loops run on a counter that is never exhausted. The
unguarded loops of the library stop inside the range because of an element that acts as a
sentinel; here they also stop at the ends of the list. -/

/-- The value `cmp_bar( *i, *j )` for two positions of the range. -/
def comp_at (l : List Bar) (i j : Nat) : Bool :=
  match l[i]?, l[j]? with
  | some x, some y => cmp_bar x y
  | _, _ => false

/-- The call `std::iter_swap( i, j )` on two positions of the range. -/
def iter_swap (l : List Bar) (i j : Nat) : List Bar :=
  match l[i]?, l[j]? with
  | some x, some y => (l.set i y).set j x
  | _, _ => l

/-- The loop of `std::__unguarded_linear_insert`, on the elements before the position, the
nearest first: the value moves toward the front past every element that `cmp_bar` orders
after it. -/
def std_linear_insert_loop (val : Bar) : List Bar → List Bar
  | [] => [val]
  | next :: before =>
      if cmp_bar val next then next :: std_linear_insert_loop val before
      else val :: next :: before

/-- The function `std::__unguarded_linear_insert`: `sorted` is the range before the position
and `val` the element at the position. -/
def std_unguarded_linear_insert (sorted : List Bar) (val : Bar) : List Bar :=
  (std_linear_insert_loop val sorted.reverse).reverse

/-- One iteration of the loop of `std::__insertion_sort`: an element that `cmp_bar` orders
before the first one is moved to the front, any other is inserted by
`std::__unguarded_linear_insert`. -/
def std_insertion_step (sorted : List Bar) (val : Bar) : List Bar :=
  match sorted with
  | [] => [val]
  | first :: _ => if cmp_bar val first then val :: sorted
                  else std_unguarded_linear_insert sorted val

/-- The function `std::__insertion_sort`. -/
def std_insertion_sort (l : List Bar) : List Bar := l.foldl std_insertion_step []

/-- The function `std::__unguarded_insertion_sort` on the range `rest`, which follows the
range `sorted`. -/
def std_unguarded_insertion_sort (sorted rest : List Bar) : List Bar :=
  rest.foldl std_unguarded_linear_insert sorted

/-- The function `std::__final_insertion_sort` (`_S_threshold` is 16). -/
def std_final_insertion_sort (l : List Bar) : List Bar :=
  if l.length > 16 then
    std_unguarded_insertion_sort (std_insertion_sort (l.take 16)) (l.drop 16)
  else std_insertion_sort l

/-- The function `std::__move_median_to_first`. -/
def std_move_median_to_first (l : List Bar) (result a b c : Nat) : List Bar :=
  if comp_at l a b then
    (if comp_at l b c then iter_swap l result b
     else if comp_at l a c then iter_swap l result c
     else iter_swap l result a)
  else if comp_at l a c then iter_swap l result a
  else if comp_at l b c then iter_swap l result c
  else iter_swap l result b

/-- The loop `while ( comp( first, pivot ) ) ++first;`. -/
def std_scan_up (l : List Bar) (pivot : Nat) : Nat → Nat → Nat
  | 0, first => first
  | fuel + 1, first =>
      if comp_at l first pivot then std_scan_up l pivot fuel (first + 1) else first

/-- The loop `while ( comp( pivot, last ) ) --last;`. -/
def std_scan_down (l : List Bar) (pivot : Nat) : Nat → Nat → Nat
  | 0, last => last
  | fuel + 1, last =>
      if comp_at l pivot last then std_scan_down l pivot fuel (last - 1) else last

/-- The function `std::__unguarded_partition`: the range after it, and the position
returned. -/
def std_unguarded_partition : Nat → List Bar → Nat → Nat → Nat → List Bar × Nat
  | 0, l, first, _, _ => (l, first)
  | fuel + 1, l, first, last, pivot =>
      if std_scan_up l pivot l.length first <
          std_scan_down l pivot l.length (last - 1) then
        std_unguarded_partition fuel
          (iter_swap l (std_scan_up l pivot l.length first)
            (std_scan_down l pivot l.length (last - 1)))
          (std_scan_up l pivot l.length first + 1)
          (std_scan_down l pivot l.length (last - 1)) pivot
      else (l, std_scan_up l pivot l.length first)

/-- The function `std::__unguarded_partition_pivot`. -/
def std_unguarded_partition_pivot (l : List Bar) (first last : Nat) : List Bar × Nat :=
  std_unguarded_partition l.length
    (std_move_median_to_first l first (first + 1) (first + (last - first) / 2) (last - 1))
    (first + 1) last first

/-- The function `std::__push_heap` on a heap that starts at position 0. -/
def std_push_heap : Nat → List Bar → Nat → Nat → Bar → List Bar
  | 0, l, holeIndex, _, value => l.set holeIndex value
  | fuel + 1, l, holeIndex, topIndex, value =>
      match l[(holeIndex - 1) / 2]? with
      | some parent =>
          if holeIndex > topIndex ∧ cmp_bar parent value = true then
            std_push_heap fuel (l.set holeIndex parent) ((holeIndex - 1) / 2) topIndex value
          else l.set holeIndex value
      | none => l.set holeIndex value

/-- The first loop of `std::__adjust_heap`: the range, the hole and `secondChild` after
it. -/
def std_adjust_heap_loop : Nat → List Bar → Nat → Nat → Nat → List Bar × Nat × Nat
  | 0, l, holeIndex, secondChild, _ => (l, holeIndex, secondChild)
  | fuel + 1, l, holeIndex, secondChild, len =>
      if secondChild < (len - 1) / 2 then
        match l[if comp_at l (2 * (secondChild + 1)) (2 * (secondChild + 1) - 1)
                then 2 * (secondChild + 1) - 1 else 2 * (secondChild + 1)]? with
        | some child =>
            std_adjust_heap_loop fuel (l.set holeIndex child)
              (if comp_at l (2 * (secondChild + 1)) (2 * (secondChild + 1) - 1)
               then 2 * (secondChild + 1) - 1 else 2 * (secondChild + 1))
              (if comp_at l (2 * (secondChild + 1)) (2 * (secondChild + 1) - 1)
               then 2 * (secondChild + 1) - 1 else 2 * (secondChild + 1))
              len
        | none => (l, holeIndex, secondChild)
      else (l, holeIndex, secondChild)

/-- The function `std::__adjust_heap` on a heap that starts at position 0. -/
def std_adjust_heap (l : List Bar) (holeIndex len : Nat) (value : Bar) : List Bar :=
  match std_adjust_heap_loop len l holeIndex holeIndex len with
  | (l1, hole1, secondChild) =>
      if len % 2 = 0 ∧ secondChild = (len - 2) / 2 then
        match l1[2 * (secondChild + 1) - 1]? with
        | some child =>
            std_push_heap len (l1.set hole1 child) (2 * (secondChild + 1) - 1) holeIndex value
        | none => std_push_heap len l1 hole1 holeIndex value
      else std_push_heap len l1 hole1 holeIndex value

/-- The loop of `std::__make_heap`, from the position `parent` down to 0. -/
def std_make_heap_loop (len : Nat) : Nat → List Bar → List Bar
  | 0, l =>
      match l[0]? with
      | some value => std_adjust_heap l 0 len value
      | none => l
  | parent + 1, l =>
      match l[parent + 1]? with
      | some value => std_make_heap_loop len parent (std_adjust_heap l (parent + 1) len value)
      | none => l

/-- The function `std::__make_heap`. -/
def std_make_heap (l : List Bar) : List Bar :=
  if l.length < 2 then l else std_make_heap_loop l.length ((l.length - 2) / 2) l

/-- The loop of `std::__sort_heap` with `std::__pop_heap( first, last, last )` in it; the
counter is `last - first`. -/
def std_sort_heap : Nat → List Bar → List Bar
  | 0, l => l
  | last + 1, l =>
      if last + 1 > 1 then
        match l[last]?, l[0]? with
        | some value, some top => std_sort_heap last (std_adjust_heap (l.set last top) 0 last value)
        | _, _ => l
      else l

/-- The call `std::__partial_sort( first, last, last )` of `std::__introsort_loop`: the
range between the two positions is made a heap and the heap is sorted. -/
def std_partial_sort (l : List Bar) (first last : Nat) : List Bar :=
  l.take first ++
    std_sort_heap (last - first) (std_make_heap ((l.take last).drop first)) ++
    l.drop last

/-- The function `std::__introsort_loop`; the recursion is on `depth_limit`, which every
iteration of its loop decrements. -/
def std_introsort_loop : Nat → List Bar → Nat → Nat → List Bar
  | 0, l, first, last => if last - first > 16 then std_partial_sort l first last else l
  | depth_limit + 1, l, first, last =>
      if last - first > 16 then
        std_introsort_loop depth_limit
          (std_introsort_loop depth_limit (std_unguarded_partition_pivot l first last).1
            (std_unguarded_partition_pivot l first last).2 last)
          first (std_unguarded_partition_pivot l first last).2
      else l

/-- The function `std::__lg`: the floor of the binary logarithm. -/
def std_lg (n : Nat) : Nat := F32.ilog2 n n

/-- The function `std::sort( first, last, cmp_bar )` of libstdc++. -/
def std_sort (l : List Bar) : List Bar :=
  if l.isEmpty then l
  else std_final_insertion_sort (std_introsort_loop (std_lg l.length * 2) l 0 l.length)

/-- The bar lines of a group of 17 bars that all have the value 5, with the labels `a` to
`q` in the order of the file. -/
def seventeen_lines : List String :=
  ["a", "b", "c", "d", "e", "f", "g", "h", "i", "j", "k", "l", "m", "n", "o", "p", "q"].map
    (fun label => "2000," ++ label ++ ",x,5,cat")

/-- The chart that `get_data` builds from `seventeen_lines` with the limit 15. -/
def seventeen_equal : BarChart :=
  { bars := ["a", "b", "c", "d", "e", "f", "g", "h", "i", "j", "k", "l", "m", "n", "o", "p",
             "q"].map (fun label => ⟨label, "cat", 5, F32.nan⟩),
    timestamp := "2000", n_bars := 15 }

/-! ## `fileHandler.h` -/

/-- The tokens that the loop `while ( std::getline( ss, str, ',' ) )` reads from a line:
the text between commas; a token that ends at the end of the line is read only when it is
not empty. The second argument is the token being read. -/
def split_fields : List Char → List Char → List String
  | [], cur => if cur.isEmpty then [] else [String.mk cur]
  | c :: cs, cur =>
      if c = ',' then String.mk cur :: split_fields cs [] else split_fields cs (cur ++ [c])

/-- The characters that `std::isspace` accepts in the C locale. -/
def is_space (c : Char) : Bool :=
  c = ' ' || c = Char.ofNat 9 || c = Char.ofNat 10 || c = Char.ofNat 11 ||
  c = Char.ofNat 12 || c = Char.ofNat 13

/-- The value of a decimal digit. -/
def digit_value (c : Char) : Option Nat :=
  if 48 ≤ c.toNat ∧ c.toNat ≤ 57 then some (c.toNat - 48) else none

/-- The number written by the leading decimal digits of a text, after the digits already
read with value `acc`. -/
def read_digits : List Char → Nat → Nat
  | [], acc => acc
  | c :: cs, acc =>
      match digit_value c with
      | some d => read_digits cs (acc * 10 + d)
      | none => acc

/-- The digits of `std::stoi` after the sign: at least one digit is required
(`std::invalid_argument` otherwise) and the signed value must fit an `int`
(`std::out_of_range` otherwise). An exception is `none`. -/
def stoi_digits (neg : Bool) (cs : List Char) : Option Int :=
  match cs with
  | [] => none
  | c :: _ =>
      if (digit_value c).isNone then none
      else if neg then
        (if read_digits cs 0 ≤ 2147483648 then some (-(read_digits cs 0 : Int)) else none)
      else
        (if read_digits cs 0 ≤ 2147483647 then some (read_digits cs 0 : Int) else none)

/-- The function `std::stoi( str )`: leading white space is skipped, a sign may follow, then
the leading decimal digits are read; what follows them is ignored. -/
def stoi (str : String) : Option Int :=
  match str.data.dropWhile is_space with
  | [] => none
  | c :: cs =>
      if c = '-' then stoi_digits true cs
      else if c = '+' then stoi_digits false cs
      else stoi_digits false (c :: cs)

/-- One case of the `switch ( pos++ )` of `get_data`, for the token `str` at position
`pos`. -/
def read_field (pos : Nat) (str : String) (st : Dataset × BarChart × Bar) :
    Option (Dataset × BarChart × Bar) :=
  if pos = 0 then some (st.1, { st.2.1 with timestamp := str }, st.2.2)
  else if pos = 1 then some (st.1, st.2.1, { st.2.2 with label := str })
  else if pos = 3 then (stoi str).map (fun v => (st.1, st.2.1, { st.2.2 with value := v }))
  else if pos = 4 then some (push_a_category st.1 str, st.2.1, { st.2.2 with category := str })
  else some st

/-- The loop over the tokens of one bar line. -/
def read_fields : List String → Nat → Dataset × BarChart × Bar →
    Option (Dataset × BarChart × Bar)
  | [], _, st => some st
  | str :: rest, pos, st => (read_field pos str st).bind (read_fields rest (pos + 1))

/-- The first loop of `get_data`: the lines up to and including the first empty line are
skipped. -/
def skip_header : List String → List String
  | [] => []
  | line :: rest => if line = "" then rest else skip_header rest

/-- What a call of `get_data` leaves behind. The field `outcome` is the value returned, or
`none` when the call does not return (an exception of `std::stoi`, or undefined behaviour);
`ds` is the dataset; `handed` lists, in order, the charts as they were when they were
passed to `push_a_chart` (it is not part of the program state). -/
structure LoadResult where
  outcome : Option Bool
  ds : Dataset
  handed : List BarChart
deriving DecidableEq, Repr

/-- The conversion of an `int` to `unsigned int`. -/
def to_unsigned (n : Int) : Nat := (n % 4294967296).toNat

/-- The change that a map of pointers sees when the object stored under the key `k` is
modified in place and becomes `v`; a map without the key is left as it is. -/
def mapAssign {β : Type} : List (String × β) → String → β → List (String × β)
  | [], _, _ => []
  | (k', v') :: rest, k, v =>
      if k = k' then (k', v) :: rest else (k', v') :: mapAssign rest k v

/-- The second loop of `get_data`, over the remaining lines. The state is the dataset, the
pointer `chart` (`none` for `nullptr`) and the counter `n_bars`. `Bar bar;` leaves `value`
and `width` indeterminate: they are the parameter `junk`. The map `charts` holds pointers,
and the pointer `chart` is handed to `push_a_chart` a second time when it has not been
reset: the flag `stored` tells that the object behind `chart` is the one the map holds
under its timestamp, so that ranking it again in place changes the chart in the map. -/
def get_data_loop (stdSort : List Bar → List Bar) (junk : Int × F32) (max_bar : Nat) :
    List String → Dataset → Option BarChart → Bool → Int → List BarChart → LoadResult
  | [], ds, _, _, _, handed => { outcome := some true, ds := ds, handed := handed }
  | line :: rest, ds, chart, stored, n_bars, handed =>
      if line = "" ∧ n_bars > 0 then { outcome := some false, ds := ds, handed := handed }
      else if line = "" ∧ chart = none then
        get_data_loop stdSort junk max_bar rest ds chart stored n_bars handed
      else if n_bars = 0 then
        match chart with
        | none =>
            if line = "" then
              get_data_loop stdSort junk max_bar rest ds none stored n_bars handed
            else
              match stoi line with
              | none => { outcome := none, ds := ds, handed := handed }
              | some n =>
                  get_data_loop stdSort junk max_bar rest ds
                    (some { bars := [], timestamp := "",
                            n_bars := if max_bar > to_unsigned n then to_unsigned n
                                      else max_bar })
                    false n handed
        | some c =>
            match push_a_chart stdSort ds c with
            | none => { outcome := none, ds := ds, handed := handed ++ [c] }
            | some (ds1, ranked) =>
                if line = "" then
                  get_data_loop stdSort junk max_bar rest
                    (if stored then
                      { ds1 with charts := mapAssign ds1.charts ranked.timestamp ranked }
                     else ds1)
                    (some ranked)
                    (stored || (mapInsert ds.charts ranked.timestamp ranked).2)
                    n_bars (handed ++ [c])
                else
                  match stoi line with
                  | none =>
                      { outcome := none,
                        ds := if stored then
                                { ds1 with
                                  charts := mapAssign ds1.charts ranked.timestamp ranked }
                              else ds1,
                        handed := handed ++ [c] }
                  | some n =>
                      get_data_loop stdSort junk max_bar rest
                        (if stored then
                          { ds1 with charts := mapAssign ds1.charts ranked.timestamp ranked }
                         else ds1)
                        (some { bars := [], timestamp := "",
                                n_bars := if max_bar > to_unsigned n then to_unsigned n
                                          else max_bar })
                        false n (handed ++ [c])
      else
        match chart with
        | none => { outcome := none, ds := ds, handed := handed }
        | some c =>
            match read_fields (split_fields line.data []) 0
                (ds, c, { label := "", category := "", value := junk.1, width := junk.2 }) with
            | none => { outcome := none, ds := ds, handed := handed }
            | some (ds1, c1, bar) =>
                if n_bars - 1 < -2147483648 then
                  { outcome := none, ds := ds1, handed := handed }
                else
                  get_data_loop stdSort junk max_bar rest ds1 (some (push_a_bar c1 bar))
                    stored (n_bars - 1) handed

/-- The method `FileHandler::get_data`, on the lines of the file. -/
def get_data (stdSort : List Bar → List Bar) (junk : Int × F32) (ds : Dataset)
    (max_bar : Nat) (lines : List String) : LoadResult :=
  get_data_loop stdSort junk max_bar (skip_header lines) ds none false 0 []

/-- The member `Options::tune_options` on the field `max_bar`. -/
def tune_max_bar (max_bar : Nat) : Nat := if max_bar > 15 then 15 else max_bar

/-- The three header lines and the empty line that ends the header. -/
def header_lines : List String := ["Title", "Label", "Source", ""]

/-! ## The rounding of the minimum on its own -/

/-- The lines of `print_footer` that round the minimum (`int dmin`, `int minpow` and
`min -= ( min % minpow )`), for a last bar of value `min`. -/
def round_down_min (min : Int) : Option Int :=
  (log10_int min).bind fun lmin =>
    (pow10_int (lmin + 1 - 1)).bind fun minpow =>
      if minpow = 0 then none else some (min - min.tmod minpow)


/-! ## Ranking: `sort_bars`, `purge_bars`, `set_widths` -/

theorem cmp_bar_false_iff (a b : Bar) : cmp_bar b a = false ↔ b.value ≤ a.value := by
  unfold cmp_bar
  simp only [gt_iff_lt, decide_eq_false_iff_not, not_lt]

theorem linear_insert_perm (x : Bar) : ∀ l : List Bar, (linear_insert x l).Perm (x :: l)
  | [] => List.Perm.refl _
  | y :: ys => by
      unfold linear_insert
      by_cases h : cmp_bar y x = true
      · rw [if_pos h]
        exact ((linear_insert_perm x ys).cons y).trans (List.Perm.swap x y ys)
      · rw [if_neg h]

theorem linear_insert_sorted (x : Bar) : ∀ l : List Bar,
    l.Pairwise (fun a b => b.value ≤ a.value) →
    (linear_insert x l).Pairwise (fun a b => b.value ≤ a.value)
  | [], _ => List.pairwise_singleton _ _
  | y :: ys, h => by
      unfold linear_insert
      have hy := List.pairwise_cons.mp h
      by_cases hc : cmp_bar y x = true
      · rw [if_pos hc]
        refine List.pairwise_cons.mpr ⟨?_, linear_insert_sorted x ys hy.2⟩
        intro b hb
        rcases List.mem_cons.mp ((linear_insert_perm x ys).subset hb) with rfl | hmem
        · have : y.value > b.value := by simpa [cmp_bar] using hc
          omega
        · exact hy.1 b hmem
      · rw [if_neg hc]
        have hxy : y.value ≤ x.value := by
          have : ¬ y.value > x.value := by simpa [cmp_bar] using hc
          omega
        refine List.pairwise_cons.mpr ⟨?_, h⟩
        intro b hb
        rcases List.mem_cons.mp hb with rfl | hmem
        · exact hxy
        · exact le_trans (hy.1 b hmem) hxy

theorem insertion_sort_perm : ∀ l : List Bar, (insertion_sort l).Perm l
  | [] => List.Perm.refl _
  | x :: xs => (linear_insert_perm x _).trans ((insertion_sort_perm xs).cons x)

theorem insertion_sort_sorted : ∀ l : List Bar,
    (insertion_sort l).Pairwise (fun a b => b.value ≤ a.value)
  | [] => List.Pairwise.nil
  | x :: xs => linear_insert_sorted x _ (insertion_sort_sorted xs)

/-- Insertion sort meets the contract of `std::sort` with `cmp_bar`. -/
theorem insertion_sort_contract : SortsByCmpBar insertion_sort := by
  intro l
  refine ⟨insertion_sort_perm l, ?_⟩
  exact (insertion_sort_sorted l).imp (fun {a b} h => (cmp_bar_false_iff a b).mpr h)

theorem purge_loop_eq (fuel : Nat) : ∀ c : BarChart, c.bars.length < fuel →
    purge_loop fuel c =
      if c.n_bars ≤ c.bars.length then some { c with bars := c.bars.take c.n_bars } else none := by
  induction fuel with
  | zero => intro c h; omega
  | succ fuel ih =>
      rintro ⟨bars, ts, n⟩ h
      simp only at h ⊢
      unfold purge_loop
      simp only
      by_cases hne : bars.length ≠ n
      · rw [if_pos hne]
        cases bars with
        | nil =>
            simp only [List.length_nil] at hne
            simp only [List.isEmpty_nil, if_true, List.length_nil]
            rw [if_neg (by omega)]
        | cons x xs =>
            simp only [List.isEmpty_cons, Bool.false_eq_true, if_false]
            simp only [List.length_cons] at hne h
            rw [ih _ (by simp only [List.length_dropLast, List.length_cons, Nat.add_sub_cancel]; omega)]
            simp only [List.length_dropLast, List.length_cons, Nat.add_sub_cancel]
            by_cases hle : n ≤ xs.length
            · rw [if_pos hle, if_pos (by omega)]
              congr 2
              rw [List.dropLast_eq_take, List.take_take]
              simp only [List.length_cons, Nat.add_sub_cancel]
              rw [Nat.min_eq_left hle]
            · rw [if_neg hle, if_neg (by omega)]
      · have heq : bars.length = n := by omega
        rw [if_neg hne, if_pos (by omega)]
        subst heq
        rw [List.take_length]

/-- The method `purge_bars` keeps the first `n_bars` bars, and is undefined when there are
fewer than `n_bars` bars. -/
theorem purge_bars_eq (c : BarChart) :
    purge_bars c =
      if c.n_bars ≤ c.bars.length then some { c with bars := c.bars.take c.n_bars } else none :=
  purge_loop_eq _ c (Nat.lt_succ_self _)

/-- What `push_a_chart` does to the chart: the ranked chart holds the first `n_bars` bars of
the sorted vector, each with its width set against the first bar of the vector. -/
theorem push_a_chart_some (stdSort : List Bar → List Bar) (ds ds1 : Dataset)
    (chart ranked : BarChart) (h : push_a_chart stdSort ds chart = some (ds1, ranked)) :
    chart.n_bars ≤ (stdSort chart.bars).length ∧
    ∃ b0 rest, (stdSort chart.bars).take chart.n_bars = b0 :: rest ∧
      ranked = { bars := (b0 :: rest).map
                   (fun bar => { bar with width := bar_width bar.value b0.value }),
                 timestamp := chart.timestamp, n_bars := chart.n_bars } := by
  unfold push_a_chart at h
  rw [purge_bars_eq] at h
  simp only [sort_bars] at h
  by_cases hle : chart.n_bars ≤ (stdSort chart.bars).length
  · rw [if_pos hle] at h
    refine ⟨hle, ?_⟩
    simp only [set_widths] at h
    cases htk : (stdSort chart.bars).take chart.n_bars with
    | nil => rw [htk] at h; simp at h
    | cons b0 rest =>
        rw [htk] at h
        simp only [Option.some.injEq, Prod.mk.injEq] at h
        exact ⟨b0, rest, rfl, h.2.symm⟩
  · rw [if_neg hle] at h
    simp at h

/-- The method `push_a_chart` completes on every chart whose limit is at least one and at
most the number of bars pushed into it. -/
theorem push_a_chart_total (stdSort : List Bar → List Bar) (hs : SortsByCmpBar stdSort)
    (ds : Dataset) (chart : BarChart) (h0 : 0 < chart.n_bars)
    (hn : chart.n_bars ≤ chart.bars.length) :
    ∃ r, push_a_chart stdSort ds chart = some r := by
  have hlen : (stdSort chart.bars).length = chart.bars.length := (hs chart.bars).1.length_eq
  unfold push_a_chart
  rw [purge_bars_eq]
  simp only [sort_bars]
  rw [if_pos (by omega)]
  simp only [set_widths]
  cases htk : (stdSort chart.bars).take chart.n_bars with
  | nil =>
      have := congrArg List.length htk
      simp only [List.length_take, List.length_nil] at this
      omega
  | cons b0 rest => exact ⟨_, rfl⟩

/-- The bars of a ranked chart are in non-increasing order of value. -/
theorem ranked_pairwise (stdSort : List Bar → List Bar) (hs : SortsByCmpBar stdSort)
    (ds ds1 : Dataset) (chart ranked : BarChart)
    (h : push_a_chart stdSort ds chart = some (ds1, ranked)) :
    ranked.bars.Pairwise (fun a b => b.value ≤ a.value) := by
  obtain ⟨_, b0, rest, htk, hr⟩ := push_a_chart_some stdSort ds ds1 chart ranked h
  have hsorted : (stdSort chart.bars).Pairwise (fun a b => b.value ≤ a.value) :=
    (hs chart.bars).2.imp (fun {a b} hab => (cmp_bar_false_iff a b).mp hab)
  have htake : (b0 :: rest).Pairwise (fun a b => b.value ≤ a.value) := by
    rw [← htk]; exact hsorted.take
  rw [hr]
  exact htake.map _ (fun a b hab => hab)

/-- C1: after `push_a_chart` has ranked a chart (`sort_bars`, `purge_bars`, `set_widths`),
its bars are sorted non-increasing by value: for all indices `i < j` of the ranked chart,
`bars[i].value >= bars[j].value`. -/
theorem ranked_bars_sorted (stdSort : List Bar → List Bar) (hs : SortsByCmpBar stdSort)
    (ds ds1 : Dataset) (chart ranked : BarChart)
    (h : push_a_chart stdSort ds chart = some (ds1, ranked))
    (i j : Nat) (a b : Bar) (hij : i < j)
    (ha : ranked.bars[i]? = some a) (hb : ranked.bars[j]? = some b) :
    a.value ≥ b.value := by
  have hp := ranked_pairwise stdSort hs ds ds1 chart ranked h
  obtain ⟨hi, rfl⟩ := List.getElem?_eq_some_iff.mp ha
  obtain ⟨hj, rfl⟩ := List.getElem?_eq_some_iff.mp hb
  exact List.pairwise_iff_getElem.mp hp i j hi hj hij

/-- Ranking `demoChart` with insertion sort yields `demoRanked`, stored under its timestamp. -/
theorem push_demoChart :
    push_a_chart insertion_sort Dataset.new demoChart =
      some ({ Dataset.new with charts := [("t", demoRanked)] }, demoRanked) := by
  rfl

/-- Instance of `ranked_bars_sorted`: the ranked `demoChart` has value 9 at index 0 and value
5 at index 1. -/
theorem ranked_bars_sorted_witness :
    SortsByCmpBar insertion_sort ∧
    push_a_chart insertion_sort Dataset.new demoChart =
      some ({ Dataset.new with charts := [("t", demoRanked)] }, demoRanked) ∧
    (⟨"b", "y", 9, bar_width 9 9⟩ : Bar).value ≥ (⟨"a", "x", 5, bar_width 5 9⟩ : Bar).value :=
  ⟨insertion_sort_contract, push_demoChart,
    ranked_bars_sorted insertion_sort insertion_sort_contract Dataset.new _ demoChart demoRanked
      push_demoChart 0 1 _ _ (by decide) rfl rfl⟩

/-- C2: for a chart with limit `n_bars` and original bar sequence `B`, ranking completes
exactly when `1 <= n_bars <= |B|`, and after ranking the bars are exactly the first
`min(n_bars, |B|)` elements of `B` sorted by value descending (widths apart), so that
`len(bars) == min(limit, originalCount)`, and every dropped bar has a value no greater than
every kept bar. -/
theorem ranked_bars_are_top (stdSort : List Bar → List Bar) (hs : SortsByCmpBar stdSort)
    (ds : Dataset) (chart : BarChart) :
    ((∃ r, push_a_chart stdSort ds chart = some r) ↔
      (0 < chart.n_bars ∧ chart.n_bars ≤ chart.bars.length)) ∧
    (∀ ds1 ranked, push_a_chart stdSort ds chart = some (ds1, ranked) →
      ∃ sorted : List Bar,
        sorted.Perm chart.bars ∧
        sorted.Pairwise (fun a b => a.value ≥ b.value) ∧
        ranked.bars.map (fun b => (b.label, b.category, b.value)) =
          (sorted.take (min chart.n_bars chart.bars.length)).map
            (fun b => (b.label, b.category, b.value)) ∧
        ranked.bars.length = min chart.n_bars chart.bars.length ∧
        (∀ a ∈ ranked.bars, ∀ b ∈ sorted.drop (min chart.n_bars chart.bars.length),
          b.value ≤ a.value)) := by
  have hlen : (stdSort chart.bars).length = chart.bars.length := (hs chart.bars).1.length_eq
  have hsorted : (stdSort chart.bars).Pairwise (fun a b => a.value ≥ b.value) :=
    (hs chart.bars).2.imp (fun {a b} hab => (cmp_bar_false_iff a b).mp hab)
  refine ⟨⟨?_, fun h => push_a_chart_total stdSort hs ds chart h.1 h.2⟩, ?_⟩
  · rintro ⟨⟨ds1, ranked⟩, h⟩
    obtain ⟨hle, b0, rest, htk, _⟩ := push_a_chart_some stdSort ds ds1 chart ranked h
    refine ⟨?_, by omega⟩
    rcases Nat.eq_zero_or_pos chart.n_bars with h0 | h0
    · rw [h0] at htk; simp at htk
    · exact h0
  · intro ds1 ranked h
    obtain ⟨hle, b0, rest, htk, hr⟩ := push_a_chart_some stdSort ds ds1 chart ranked h
    have hmin : min chart.n_bars chart.bars.length = chart.n_bars := by
      rw [Nat.min_eq_left]; omega
    refine ⟨stdSort chart.bars, (hs chart.bars).1, hsorted, ?_, ?_, ?_⟩
    · rw [hmin, htk, hr]
      simp only [List.map_map]
      rfl
    · rw [hmin, hr]
      simp only [List.length_map]
      rw [← htk, List.length_take]
      omega
    · rw [hmin]
      intro a ha b hb
      have happ : ((stdSort chart.bars).take chart.n_bars ++
          (stdSort chart.bars).drop chart.n_bars).Pairwise (fun a b => a.value ≥ b.value) := by
        rw [List.take_append_drop]; exact hsorted
      rw [hr] at ha
      simp only [List.mem_map] at ha
      obtain ⟨a0, ha0, rfl⟩ := ha
      rw [← htk] at ha0
      exact (List.pairwise_append.mp happ).2.2 a0 ha0 b hb

/-- Instance of `ranked_bars_are_top`: ranking `demoChart` (three bars, limit two) keeps the
two highest bars. -/
theorem ranked_bars_are_top_witness :
    SortsByCmpBar insertion_sort ∧
    ∃ sorted : List Bar,
      sorted.Perm demoChart.bars ∧
      sorted.Pairwise (fun a b => a.value ≥ b.value) ∧
      demoRanked.bars.map (fun b => (b.label, b.category, b.value)) =
        (sorted.take (min demoChart.n_bars demoChart.bars.length)).map
          (fun b => (b.label, b.category, b.value)) ∧
      demoRanked.bars.length = min demoChart.n_bars demoChart.bars.length ∧
      (∀ a ∈ demoRanked.bars, ∀ b ∈ sorted.drop (min demoChart.n_bars demoChart.bars.length),
        b.value ≤ a.value) :=
  ⟨insertion_sort_contract,
    (ranked_bars_are_top insertion_sort insertion_sort_contract Dataset.new demoChart).2
      _ demoRanked push_demoChart⟩

/-! ## Digit counts and the rounded ends of the axis -/

theorem ilog10_spec (fuel : Nat) : ∀ n : Nat, n ≤ fuel → 1 ≤ n →
    10 ^ ilog10 fuel n ≤ n ∧ n < 10 ^ (ilog10 fuel n + 1) := by
  induction fuel with
  | zero => intro n h1 h2; omega
  | succ fuel ih =>
      intro n hfuel hn
      unfold ilog10
      by_cases h : n < 10
      · rw [if_pos h]
        simp only [pow_zero, zero_add, pow_one]
        omega
      · rw [if_neg h]
        have hih := ih (n / 10) (by omega) (by omega)
        constructor
        · rw [pow_succ]
          calc 10 ^ ilog10 fuel (n / 10) * 10 ≤ n / 10 * 10 := Nat.mul_le_mul_right _ hih.1
            _ ≤ n := Nat.div_mul_le_self n 10
        · rw [pow_succ]
          have := hih.2
          omega

theorem ilog10_pos (n : Nat) (h : 10 ≤ n) : 1 ≤ ilog10 n n := by
  cases n with
  | zero => omega
  | succ m => unfold ilog10; rw [if_neg (by omega)]; omega

/-- For `v >= 1` the power `10^(digits - 1)` is at most `v`, as integers. -/
theorem pow_ilog10_le (v : Int) (h : 1 ≤ v) :
    (10 : Int) ^ ilog10 v.toNat v.toNat ≤ v ∧ v < (10 : Int) ^ (ilog10 v.toNat v.toNat + 1) := by
  have hs := ilog10_spec v.toNat v.toNat (le_refl _) (by omega)
  have hv : ((v.toNat : Nat) : Int) = v := Int.toNat_of_nonneg (by omega)
  constructor
  · calc (10 : Int) ^ ilog10 v.toNat v.toNat
        = ((10 ^ ilog10 v.toNat v.toNat : Nat) : Int) := by push_cast; rfl
      _ ≤ ((v.toNat : Nat) : Int) := Int.ofNat_le.mpr hs.1
      _ = v := hv
  · calc v = ((v.toNat : Nat) : Int) := hv.symm
      _ < ((10 ^ (ilog10 v.toNat v.toNat + 1) : Nat) : Int) := Int.ofNat_lt.mpr hs.2
      _ = (10 : Int) ^ (ilog10 v.toNat v.toNat + 1) := by push_cast; rfl

theorem log10_int_pos (v : Int) (h : 1 ≤ v) :
    log10_int v = some ((ilog10 v.toNat v.toNat : Nat) : Int) := by
  unfold log10_int
  rw [if_neg (by omega)]

theorem pow10_int_nat (k : Nat) (h : (10 : Int) ^ k ≤ INT_MAX) :
    pow10_int (k : Int) = some (10 ^ k) := by
  unfold pow10_int
  rw [if_neg (by omega)]
  simp only [Int.toNat_ofNat]
  rw [if_pos h]

theorem emod_le_self (a b : Int) (ha : 0 ≤ a) (hb : 0 < b) : a % b ≤ a := by
  have h1 := Int.emod_add_ediv a b
  have h2 : 0 ≤ b * (a / b) := Int.mul_nonneg (le_of_lt hb) (Int.ediv_nonneg ha (le_of_lt hb))
  omega

/-- The first part of `print_footer` on a chart whose first value is at least ten and whose
last value is at least one: it is undefined when the rounded maximum overflows, and otherwise
yields the rounded minimum, the rounded maximum and a fifth of their distance. -/
theorem axis_params_eq (c : BarChart) (first last : Bar)
    (hf : c.bars.head? = some first) (hl : c.bars.getLast? = some last)
    (hmin : 1 ≤ last.value) (hle : last.value ≤ first.value) (h10 : 10 ≤ first.value)
    (hint : first.value ≤ INT_MAX) :
    axis_params c =
      if INT_MAX < rounded_max first.value then none
      else some (rounded_min last.value, rounded_max first.value,
                 (rounded_max first.value - rounded_min last.value) / 5) := by
  have hLx : 1 ≤ ilog10 first.value.toNat first.value.toNat := ilog10_pos _ (by omega)
  have hpx := pow_ilog10_le first.value (by omega)
  have hpn := pow_ilog10_le last.value hmin
  have hk : ((ilog10 first.value.toNat first.value.toNat : Nat) : Int) + 1 - 2 =
      ((ilog10 first.value.toNat first.value.toNat - 1 : Nat) : Int) := by omega
  have hk2 : ((ilog10 last.value.toNat last.value.toNat : Nat) : Int) + 1 - 1 =
      ((ilog10 last.value.toNat last.value.toNat : Nat) : Int) := by omega
  have hpx1 : (10 : Int) ^ (ilog10 first.value.toNat first.value.toNat - 1) ≤
      (10 : Int) ^ ilog10 first.value.toNat first.value.toNat :=
    pow_le_pow_right₀ (by norm_num) (Nat.sub_le _ _)
  have hposx : (0 : Int) < 10 ^ (ilog10 first.value.toNat first.value.toNat - 1) := by positivity
  have hposn : (0 : Int) < 10 ^ ilog10 last.value.toNat last.value.toNat := by positivity
  unfold axis_params
  rw [hf, hl]
  simp only
  rw [log10_int_pos first.value (by omega), log10_int_pos last.value hmin]
  simp only
  rw [hk, hk2, pow10_int_nat _ (by omega), pow10_int_nat _ (by omega)]
  simp only
  rw [if_neg (by omega)]
  rw [Int.tmod_eq_emod (by omega) (by omega), Int.tmod_eq_emod (by omega) (by omega)]
  unfold rounded_max rounded_min
  by_cases hov : INT_MAX < first.value + (10 ^ (ilog10 first.value.toNat first.value.toNat - 1) -
      first.value % 10 ^ (ilog10 first.value.toNat first.value.toNat - 1))
  · rw [if_pos hov, if_pos hov]
  · rw [if_neg hov, if_neg hov]
    have h1 := Int.emod_nonneg last.value (ne_of_gt hposn)
    have h2 := Int.emod_lt_of_pos first.value hposx
    have h3 := Int.emod_nonneg first.value (ne_of_gt hposx)
    have h4 : last.value % 10 ^ ilog10 last.value.toNat last.value.toNat ≤ last.value :=
      emod_le_self last.value _ (by omega) hposn
    rw [Int.tdiv_eq_ediv (by omega) (by norm_num)]

/-! ## The branch `step == 0` -/

set_option maxRecDepth 100000 in
/-- The loop of the branch `step == 0` writes 150 fill glyphs, the tick with the rounded
maximum under it, and one more fill glyph, after the tick and the `0` of the origin. -/
theorem flat_loop_eq (max : Int) :
    (List.range 151).foldl (flat_step max) ("+", "0") =
      ("+" ++ glyphs 150 '-' ++ "+-", "0" ++ glyphs 150 ' ' ++ toString max ++ " ") := by
  rfl

theorem print_footer_flat (c : BarChart) (mn mx : Int)
    (h : axis_params c = some (mn, mx, 0)) : print_footer c = some (flat_footer mx) := by
  unfold print_footer
  rw [h]
  simp only [if_true]
  rw [flat_loop_eq]
  rfl

/-- What the tick loop appends: the two vectors grow by as many entries, the first new
value is the loop variable when the loop body runs at all, and every new column is
`tick_width` of the value at the same index. -/
theorem tick_loop_spec (max step : Int) (fuel : Nat) :
    ∀ (i : Int) (acc r : List Int × List Int), tick_loop max step fuel i acc = some r →
      ∃ s w, r = (acc.1 ++ s, acc.2 ++ w) ∧ s.length = w.length ∧
        (i ≤ max → s.head? = some i) ∧
        (∀ (k : Nat) (t : Int), s[k]? = some t →
          ∃ col, w[k]? = some col ∧ tick_width t max = some col) := by
  induction fuel with
  | zero => intro i acc r h; simp [tick_loop] at h
  | succ fuel ih =>
      rintro i ⟨sq, wd⟩ r h
      unfold tick_loop at h
      by_cases hi : i ≤ max
      · rw [if_pos hi] at h
        cases hw : tick_width i max with
        | none => rw [hw] at h; simp at h
        | some width =>
            rw [hw] at h
            simp only [Option.some_bind] at h
            by_cases hov : INT_MAX < i + step
            · rw [if_pos hov] at h; simp at h
            · rw [if_neg hov] at h
              obtain ⟨s, w, hr, hlen, _, hcol⟩ := ih _ _ _ h
              refine ⟨i :: s, width :: w, ?_, ?_, ?_, ?_⟩
              · rw [hr]; simp
              · simp [hlen]
              · intro _; rfl
              · intro k t hk
                cases k with
                | zero =>
                    simp only [List.getElem?_cons_zero, Option.some.injEq] at hk
                    subst hk
                    exact ⟨width, by simp, hw⟩
                | succ k =>
                    simp only [List.getElem?_cons_succ] at hk ⊢
                    exact hcol k t hk
      · rw [if_neg hi] at h
        simp only [Option.some.injEq] at h
        subst h
        exact ⟨[], [], by simp, rfl, fun h => absurd h hi, by simp⟩

/-- In the branch `step != 0` the vectors of the footer are those of the tick loop. -/
theorem print_footer_ticks (c : BarChart) (mn mx step : Int) (f : Footer)
    (h : axis_params c = some (mn, mx, step)) (hstep : step ≠ 0)
    (hf : print_footer c = some f) :
    tick_loop mx step ((mx - mn).toNat + 2) mn ([], []) = some (f.sequence, f.widths) := by
  unfold print_footer at hf
  rw [h] at hf
  simp only [if_neg hstep] at hf
  cases ht : tick_loop mx step ((mx - mn).toNat + 2) mn ([], []) with
  | none => rw [ht] at hf; simp at hf
  | some r =>
      obtain ⟨sq, wd⟩ := r
      rw [ht] at hf
      simp only at hf
      cases hl : wd.getLast? with
      | none => rw [hl] at hf; simp at hf
      | some last =>
          rw [hl] at hf
          simp only at hf
          cases hd : (List.range (last + 1).toNat).foldl (draw_step sq wd)
              (some { axis := "+", points := "0", count := 0, lw := 0 }) with
          | none => rw [hd] at hf; simp at hf
          | some st =>
              rw [hd] at hf
              simp only [Option.some.injEq] at hf
              subst hf
              rfl

theorem ilog10_two_digits (n : Nat) (h1 : 10 ≤ n) (h2 : n < 100) : ilog10 n n = 1 := by
  have hs := ilog10_spec n n (le_refl _) (by omega)
  have hp := ilog10_pos n h1
  rcases Nat.lt_or_ge (ilog10 n n) 2 with hlt | hge
  · omega
  · have : 10 ^ 2 ≤ 10 ^ ilog10 n n := Nat.pow_le_pow_right (by norm_num) hge
    omega

theorem ilog10_le_nine (n : Nat) (h1 : 1 ≤ n) (h2 : n < 10 ^ 10) : ilog10 n n ≤ 9 := by
  have hs := ilog10_spec n n (le_refl _) h1
  rcases Nat.lt_or_ge (ilog10 n n) 10 with hlt | hge
  · omega
  · have : 10 ^ 10 ≤ 10 ^ ilog10 n n := Nat.pow_le_pow_right (by norm_num) hge
    omega

/-- For an axis whose two ends are the same value `v` with `10 <= v < 2100000000`, the
rounded maximum fits an `int`, the rounded minimum is at most the rounded maximum, and
their distance is below five exactly when `v` has two digits and a last digit of at most
three. -/
theorem equal_ends_rounding (v : Int) (h10 : 10 ≤ v) (hmax : v < 2100000000) :
    rounded_max v ≤ INT_MAX ∧ rounded_min v ≤ rounded_max v ∧
    ((rounded_max v - rounded_min v) / 5 = 0 ↔ (v < 100 ∧ v % 10 ≤ 3)) := by
  have hp := pow_ilog10_le v (by omega)
  have hL1 : 1 ≤ ilog10 v.toNat v.toNat := ilog10_pos _ (by omega)
  have hL9 : ilog10 v.toNat v.toNat ≤ 9 := by
    apply ilog10_le_nine _ (by omega)
    have : (v.toNat : Int) < ((10 ^ 10 : Nat) : Int) := by
      rw [Int.toNat_of_nonneg (by omega)]; norm_num; omega
    exact Int.ofNat_lt.mp this
  unfold rounded_max rounded_min INT_MAX
  generalize ilog10 v.toNat v.toNat = L at hp hL1 hL9
  interval_cases L <;> norm_num at hp ⊢ <;> omega

/-- C3 (amended): for a chart whose first and last bars carry the same value `v`, with
`10 <= v < 2100000000`, the first part of `print_footer` completes, and the branch
`step == 0` (the flat axis, with no ticks computed) is taken exactly when `v < 100` and
`v mod 10 <= 3`; in every other case `step != 0` and the tick loop runs, its first tick
being the rounded minimum. -/
theorem equal_ends_flat_iff (c : BarChart) (first last : Bar) (v : Int)
    (hf : c.bars.head? = some first) (hl : c.bars.getLast? = some last)
    (hfv : first.value = v) (hlv : last.value = v)
    (h10 : 10 ≤ v) (hmax : v < 2100000000) :
    ∃ mn mx step, axis_params c = some (mn, mx, step) ∧
      (step = 0 ↔ (v < 100 ∧ v % 10 ≤ 3)) ∧
      (step = 0 → print_footer c = some (flat_footer mx)) ∧
      (step ≠ 0 → ∀ f, print_footer c = some f → f.sequence.head? = some mn) := by
  obtain ⟨hfit, hle, hiff⟩ := equal_ends_rounding v h10 hmax
  have hp := axis_params_eq c first last hf hl (by omega) (by omega) (by omega)
    (by unfold INT_MAX; omega)
  rw [hfv, hlv, if_neg (by omega)] at hp
  refine ⟨_, _, _, hp, hiff, ?_, ?_⟩
  · intro h0
    rw [h0] at hp
    exact print_footer_flat c _ _ hp
  · intro hne f hpf
    have ht := print_footer_ticks c _ _ _ f hp hne hpf
    obtain ⟨s, w, hr, _, hhead, _⟩ := tick_loop_spec _ _ _ _ _ _ ht
    simp only [List.nil_append, Prod.mk.injEq] at hr
    rw [hr.1]
    exact hhead hle

set_option maxRecDepth 100000 in
/-- Instance of `equal_ends_flat_iff` at the one-bar chart of value 42. -/
theorem equal_ends_flat_iff_witness :
    ∃ mn mx step, axis_params (ranked_chart [42]) = some (mn, mx, step) ∧
      (step = 0 ↔ ((42 : Int) < 100 ∧ (42 : Int) % 10 ≤ 3)) ∧
      (step = 0 → print_footer (ranked_chart [42]) = some (flat_footer mx)) ∧
      (step ≠ 0 → ∀ f, print_footer (ranked_chart [42]) = some f →
        f.sequence.head? = some mn) :=
  equal_ends_flat_iff (ranked_chart [42]) ⟨"bar", "cat", 42, bar_width 42 42⟩
    ⟨"bar", "cat", 42, bar_width 42 42⟩ 42 rfl rfl rfl rfl (by decide) (by decide)

set_option maxRecDepth 100000 in
/-- C3 (counterexample): the chart with the single bar of value 15 is what ranking makes of
the one-bar group; its minimum equals its maximum, and `print_footer` computes and draws the
seven ticks 10, 11, ..., 16 for it instead of the flat axis. -/
theorem single_bar_fifteen_has_ticks :
    push_a_chart insertion_sort Dataset.new (raw_chart [15]) =
      some ({ Dataset.new with charts := [("t", ranked_chart [15])] }, ranked_chart [15]) ∧
    print_footer (ranked_chart [15]) =
      some { axis := "+" ++ glyphs 93 '-' ++ "+" ++ glyphs 9 '-' ++ "+" ++ glyphs 8 '-' ++ "+" ++
                 glyphs 8 '-' ++ "+" ++ glyphs 9 '-' ++ "+" ++ glyphs 8 '-' ++ "+" ++
                 glyphs 9 '-' ++ "+" ++ "----------------------------->",
             points := "0" ++ glyphs 93 ' ' ++ "10" ++ glyphs 8 ' ' ++ "11" ++ glyphs 7 ' ' ++
                 "12" ++ glyphs 7 ' ' ++ "13" ++ glyphs 8 ' ' ++ "14" ++ glyphs 7 ' ' ++ "15" ++
                 glyphs 8 ' ' ++ "16",
             sequence := [10, 11, 12, 13, 14, 15, 16],
             widths := [93, 103, 112, 121, 131, 140, 150] } :=
  ⟨by rfl, by decide⟩

/-- C4 (amended): whenever `print_footer` takes the branch `step == 0`, the axis line is the
tick of the origin, a run of 150 fill glyphs ending in a single tick, one more fill glyph
and the arrow; the label line is the `0` of the origin, 150 blanks, the decimal text of the
rounded maximum and a blank; no tick value and no column is computed. -/
theorem flat_axis_layout (c : BarChart) (mn mx : Int)
    (h : axis_params c = some (mn, mx, 0)) :
    ∃ f, print_footer c = some f ∧
      f.axis = "+" ++ glyphs 150 '-' ++ "+" ++ "-" ++ "----------------------------->" ∧
      f.points = "0" ++ glyphs 150 ' ' ++ toString mx ++ " " ∧
      f.sequence = [] ∧ f.widths = [] :=
  ⟨flat_footer mx, print_footer_flat c mn mx h, rfl, rfl, rfl, rfl⟩

set_option maxRecDepth 100000 in
/-- Instance of `flat_axis_layout` at the one-bar chart of value 42, whose rounded ends are
40 and 43. -/
theorem flat_axis_layout_witness :
    axis_params (ranked_chart [42]) = some (40, 43, 0) ∧
    ∃ f, print_footer (ranked_chart [42]) = some f ∧
      f.axis = "+" ++ glyphs 150 '-' ++ "+" ++ "-" ++ "----------------------------->" ∧
      f.points = "0" ++ glyphs 150 ' ' ++ toString (43 : Int) ++ " " ∧
      f.sequence = [] ∧ f.widths = [] :=
  ⟨by decide, flat_axis_layout (ranked_chart [42]) 40 43 (by decide)⟩

set_option maxRecDepth 100000 in
/-- C4 (counterexample): for the one-bar chart of value 42 the axis line starts with a tick
glyph at the origin, the label line starts with the label `0` of the origin, and the labels
written are `0` and `43`: the label `42` does not occur. -/
theorem flat_axis_forty_two :
    push_a_chart insertion_sort Dataset.new (raw_chart [42]) =
      some ({ Dataset.new with charts := [("t", ranked_chart [42])] }, ranked_chart [42]) ∧
    print_footer (ranked_chart [42]) = some (flat_footer 43) ∧
    (flat_footer 43).axis.toList.head? = some '+' ∧
    (flat_footer 43).points.toList.head? = some '0' ∧
    (flat_footer 43).points.toList.filter (fun ch => ch != ' ') = ['0', '4', '3'] :=
  ⟨by rfl, by decide, by decide, by decide, by decide⟩

/-! ## The branch `step != 0` -/

set_option maxRecDepth 100000 in
/-- C5 (failing input): for the ranked chart with values 18 and 11 the rounded ends are 10
and 19, the step is `9 div 5 = 1`, and the tick loop stores ten values, 10 to 19. -/
theorem ten_ticks_for_eighteen_eleven :
    push_a_chart insertion_sort Dataset.new (raw_chart [18, 11]) =
      some ({ Dataset.new with charts := [("t", ranked_chart [18, 11])] },
            ranked_chart [18, 11]) ∧
    axis_params (ranked_chart [18, 11]) = some (10, 19, 1) ∧
    (print_footer (ranked_chart [18, 11])).map (fun f => (f.sequence, f.widths)) =
      some ([10, 11, 12, 13, 14, 15, 16, 17, 18, 19],
            [78, 86, 94, 102, 110, 118, 126, 134, 142, 150]) ∧
    (print_footer (ranked_chart [18, 11])).map (fun f => f.sequence.length) = some 10 :=
  ⟨by rfl, by decide, by decide, by decide⟩

set_option maxRecDepth 100000 in
/-- C6 (failing input): for the ranked chart with values 57 and 12 the rounded ends are 10
and 58 and the step is `48 div 5 = 9`; the last tick stored is 55, not the rounded maximum
58, and its column is 142, not 150. -/
theorem last_tick_short_of_rounded_max :
    push_a_chart insertion_sort Dataset.new (raw_chart [57, 12]) =
      some ({ Dataset.new with charts := [("t", ranked_chart [57, 12])] },
            ranked_chart [57, 12]) ∧
    axis_params (ranked_chart [57, 12]) = some (10, 58, 9) ∧
    (print_footer (ranked_chart [57, 12])).map (fun f => (f.sequence, f.widths)) =
      some ([10, 19, 28, 37, 46, 55], [25, 49, 72, 95, 118, 142]) ∧
    (print_footer (ranked_chart [57, 12])).map (fun f => (f.sequence.getLast?, f.widths.getLast?)) =
      some (some 55, some 142) :=
  ⟨by rfl, by decide, by decide, by decide⟩

set_option maxRecDepth 100000 in
/-- C7 (failing input): for the ranked chart with values 905 and 900 six ticks are computed,
with columns 148, 148, 149, 149, 149, 150. Only three tick glyphs are drawn (columns 148,
149, 150) and the labels under them are 900, 902, 904: the label 902 stands at column 149
and 904 at column 150, which are not their computed columns, and 906, 908, 910 are never
written. -/
theorem shared_columns_misplace_labels :
    push_a_chart insertion_sort Dataset.new (raw_chart [905, 900]) =
      some ({ Dataset.new with charts := [("t", ranked_chart [905, 900])] },
            ranked_chart [905, 900]) ∧
    print_footer (ranked_chart [905, 900]) =
      some { axis := "+" ++ glyphs 148 '-' ++ "+++" ++ "----------------------------->",
             points := "0" ++ glyphs 148 ' ' ++ "900902904",
             sequence := [900, 902, 904, 906, 908, 910],
             widths := [148, 148, 149, 149, 149, 150] } :=
  ⟨by rfl, by decide⟩

/-! ## The scale of the axis -/

/-- The method `set_widths` gives every bar the width `bar_width` of its value against the
value of the first bar. -/
theorem set_widths_width (c ranked : BarChart) (b0 : Bar) (h0 : c.bars.head? = some b0)
    (h : set_widths c = some ranked) :
    ranked.bars = c.bars.map (fun bar => { bar with width := bar_width bar.value b0.value }) := by
  unfold set_widths at h
  cases hb : c.bars with
  | nil => rw [hb] at h0; simp at h0
  | cons x xs =>
      rw [hb] at h h0
      simp only [List.head?_cons, Option.some.injEq] at h0
      simp only [Option.some.injEq] at h
      rw [← h, h0]

/-- The rounded maximum is strictly above the value it rounds. -/
theorem lt_rounded_max (v : Int) : v < rounded_max v := by
  unfold rounded_max
  have hpos : (0 : Int) < 10 ^ (ilog10 v.toNat v.toNat - 1) := by positivity
  have := Int.emod_lt_of_pos v hpos
  omega

/-- C8 (amended): the axis has its own scale. For a ranked chart (first value at least ten,
last value at least one) whose footer is printed, the rounded maximum `mx` is strictly
greater than the maximum value of the chart, and the column of every tick value `t` is the
integer part of `bar_width t mx`, the width with which `set_widths` draws a bar of value `t`
in a chart whose first bar has value `mx` (not the maximum value of the chart). -/
theorem tick_columns_scale (c : BarChart) (first last : Bar) (f : Footer)
    (hf : c.bars.head? = some first) (hl : c.bars.getLast? = some last)
    (hmin : 1 ≤ last.value) (hle : last.value ≤ first.value) (h10 : 10 ≤ first.value)
    (hint : first.value ≤ INT_MAX) (hpf : print_footer c = some f) :
    ∃ mn mx step, axis_params c = some (mn, mx, step) ∧ first.value < mx ∧
      f.sequence.length = f.widths.length ∧
      ∀ (k : Nat) (t : Int), f.sequence[k]? = some t →
        ∃ col, f.widths[k]? = some col ∧ F32.toInt (bar_width t mx) = some col := by
  have hp := axis_params_eq c first last hf hl hmin hle h10 hint
  by_cases hov : INT_MAX < rounded_max first.value
  · rw [if_pos hov] at hp
    unfold print_footer at hpf
    rw [hp] at hpf
    simp at hpf
  · rw [if_neg hov] at hp
    refine ⟨_, _, _, hp, lt_rounded_max first.value, ?_⟩
    by_cases hstep : (rounded_max first.value - rounded_min last.value) / 5 = 0
    · rw [hstep] at hp
      have := print_footer_flat c _ _ hp
      rw [this] at hpf
      simp only [Option.some.injEq] at hpf
      subst hpf
      exact ⟨rfl, by intro k t hk; simp [flat_footer] at hk⟩
    · have ht := print_footer_ticks c _ _ _ f hp hstep hpf
      obtain ⟨s, w, hr, hlen, _, hcol⟩ := tick_loop_spec _ _ _ _ _ _ ht
      simp only [List.nil_append, Prod.mk.injEq] at hr
      rw [hr.1, hr.2]
      exact ⟨hlen, hcol⟩

set_option maxRecDepth 100000 in
/-- The footer of the ranked chart with values 980 and 120. -/
theorem footer_980_120 :
    print_footer (ranked_chart [980, 120]) =
      some { axis := "+" ++ glyphs 15 '-' ++ "+" ++ glyphs 26 '-' ++ "+" ++ glyphs 26 '-' ++
                 "+" ++ glyphs 26 '-' ++ "+" ++ glyphs 26 '-' ++ "+" ++ glyphs 26 '-' ++ "+" ++
                 "----------------------------->",
             points := "0" ++ glyphs 15 ' ' ++ "100" ++ glyphs 24 ' ' ++ "278" ++
                 glyphs 24 ' ' ++ "456" ++ glyphs 24 ' ' ++ "634" ++ glyphs 24 ' ' ++ "812" ++
                 glyphs 24 ' ' ++ "990",
             sequence := [100, 278, 456, 634, 812, 990],
             widths := [15, 42, 69, 96, 123, 150] } := by
  decide

/-- Instance of `tick_columns_scale` at the ranked chart with values 980 and 120. -/
theorem tick_columns_scale_witness :
    ∃ mn mx step, axis_params (ranked_chart [980, 120]) = some (mn, mx, step) ∧
      (980 : Int) < mx ∧
      ([100, 278, 456, 634, 812, 990] : List Int).length =
        ([15, 42, 69, 96, 123, 150] : List Int).length ∧
      ∀ (k : Nat) (t : Int), ([100, 278, 456, 634, 812, 990] : List Int)[k]? = some t →
        ∃ col, ([15, 42, 69, 96, 123, 150] : List Int)[k]? = some col ∧
          F32.toInt (bar_width t mx) = some col :=
  tick_columns_scale (ranked_chart [980, 120]) ⟨"bar", "cat", 980, bar_width 980 980⟩
    ⟨"bar", "cat", 120, bar_width 120 980⟩ _ rfl rfl (by decide) (by decide) (by decide)
    (by decide) footer_980_120

set_option maxRecDepth 100000 in
/-- C8 (counterexample): in the ranked chart with values 980 and 120 the top bar has width
150; the ticks 990 and 100 stand at columns 150 and 15, while `set_widths` would give bars of
these values the widths `150 * 990 / 980` (integer part 151) and `150 * 100 / 980` (not the
integer 15). -/
theorem tick_column_differs_from_bar_width :
    push_a_chart insertion_sort Dataset.new (raw_chart [980, 120]) =
      some ({ Dataset.new with charts := [("t", ranked_chart [980, 120])] },
            ranked_chart [980, 120]) ∧
    bar_width 980 980 = F32.ofInt 150 ∧
    (print_footer (ranked_chart [980, 120])).map (fun f => (f.sequence, f.widths)) =
      some ([100, 278, 456, 634, 812, 990], [15, 42, 69, 96, 123, 150]) ∧
    F32.toInt (bar_width 990 980) = some 151 ∧
    bar_width 990 980 ≠ F32.ofInt 150 ∧
    bar_width 100 980 ≠ F32.ofInt 15 :=
  ⟨by rfl, by decide, by decide, by decide, by decide, by decide⟩

/-! ## Values below one -/

set_option maxRecDepth 100000 in
/-- C9 (failing input): for the ranked chart with values 100 and 0 the conversion of
`std::log10( 0 ) + 1` to `int` is undefined, so the first part of `print_footer` has no
defined result and no tick is planned. -/
theorem zero_minimum_is_undefined :
    push_a_chart insertion_sort Dataset.new (raw_chart [100, 0]) =
      some ({ Dataset.new with charts := [("t", ranked_chart [100, 0])] },
            ranked_chart [100, 0]) ∧
    log10_int 0 = none ∧
    axis_params (ranked_chart [100, 0]) = none ∧
    print_footer (ranked_chart [100, 0]) = none :=
  ⟨by rfl, by decide, by decide, by decide⟩

/-! ## The colours of the categories -/

/-- C10 (failing input): after fifteen pairwise distinct categories have been pushed, the
flag `single_colored` is still false, the fifteen categories keep fifteen distinct colours
and `get_color` returns them (31 for the first, 32 for the second, 97 for the fifteenth),
whatever the overflow colour is; only one more call of `push_a_category`, even for a known
category, sets the flag. -/
theorem fifteenth_category_does_not_set_flag (RED : Int) :
    fifteen_pushed.single_colored = false ∧
    fifteen_pushed.categories.length = 15 ∧
    (fifteen_pushed.categories.map Prod.snd).Nodup ∧
    (get_color RED fifteen_pushed "c01").1 = 31 ∧
    (get_color RED fifteen_pushed "c02").1 = 32 ∧
    (get_color RED fifteen_pushed "c15").1 = 97 ∧
    (push_a_category fifteen_pushed "c01").single_colored = true ∧
    (get_color RED (push_a_category fifteen_pushed "c01") "c02").1 = RED :=
  ⟨by decide, by decide, by decide, by rfl, by rfl, by rfl, by decide, by rfl⟩

/-! ## The colour map -/

theorem mapFind_mapInsert_ne {β : Type} (k k2 : String) (v : β) (h : k2 ≠ k) :
    ∀ m : List (String × β), mapFind (mapInsert m k v).1 k2 = mapFind m k2
  | [] => by simp [mapInsert, mapFind, h]
  | (k1, v1) :: rest => by
      unfold mapInsert
      by_cases h1 : k.data < k1.data
      · rw [if_pos h1]
        simp only [mapFind, if_neg h]
      · rw [if_neg h1]
        by_cases h2 : k = k1
        · rw [if_pos h2]
        · rw [if_neg h2]
          simp only [mapFind]
          rw [mapFind_mapInsert_ne k k2 v h rest]

theorem mapFind_mapInsert_self {β : Type} (k : String) (v : β) :
    ∀ m : List (String × β),
      mapFind (mapInsert m k v).1 k = if (mapInsert m k v).2 then some v else mapFind m k
  | [] => by simp [mapInsert, mapFind]
  | (k1, v1) :: rest => by
      unfold mapInsert
      by_cases h1 : k.data < k1.data
      · rw [if_pos h1]
        simp [mapFind]
      · rw [if_neg h1]
        by_cases h2 : k = k1
        · rw [if_pos h2]
          simp
        · rw [if_neg h2]
          simp only [mapFind, if_neg h2]
          exact mapFind_mapInsert_self k v rest

theorem mapInsert_length {β : Type} (k : String) (v : β) :
    ∀ m : List (String × β),
      (mapInsert m k v).1.length = m.length + (if (mapInsert m k v).2 then 1 else 0)
  | [] => by simp [mapInsert]
  | (k1, v1) :: rest => by
      unfold mapInsert
      by_cases h1 : k.data < k1.data
      · rw [if_pos h1]; simp
      · rw [if_neg h1]
        by_cases h2 : k = k1
        · rw [if_pos h2]; simp
        · rw [if_neg h2]
          simp only [List.length_cons]
          rw [mapInsert_length k v rest]
          omega

theorem mapInsert_keys {β : Type} (k : String) (v : β) :
    ∀ (m : List (String × β)) (e : String × β), e ∈ (mapInsert m k v).1 → e ∈ m ∨ e.1 = k
  | [], e => by
      intro he
      simp only [mapInsert, List.mem_singleton] at he
      right; rw [he]
  | (k1, v1) :: rest, e => by
      intro he
      unfold mapInsert at he
      by_cases h1 : k.data < k1.data
      · rw [if_pos h1] at he
        rcases List.mem_cons.mp he with h | h
        · right; rw [h]
        · left; exact h
      · rw [if_neg h1] at he
        by_cases h2 : k = k1
        · rw [if_pos h2] at he; left; exact he
        · rw [if_neg h2] at he
          rcases List.mem_cons.mp he with h | h
          · left; rw [h]; exact List.mem_cons_self _ _
          · rcases mapInsert_keys k v rest e h with h3 | h3
            · left; exact List.mem_cons_of_mem _ h3
            · right; exact h3

theorem data_lt_irrefl (a : String) : ¬ a.data < a.data := lt_irrefl a.data

theorem data_lt_trans {a b c : String} (h1 : a.data < b.data) (h2 : b.data < c.data) :
    a.data < c.data := lt_trans h1 h2

theorem data_lt_of_not {a b : String} (h1 : ¬ a.data < b.data) (h2 : a ≠ b) :
    b.data < a.data := by
  rcases lt_trichotomy a.data b.data with h | h | h
  · exact absurd h h1
  · exact absurd (String.ext h) h2
  · exact h

theorem mapInsert_sorted {β : Type} (k : String) (v : β) :
    ∀ m : List (String × β), KeysSorted m → KeysSorted (mapInsert m k v).1
  | [], _ => by simp [mapInsert, KeysSorted]
  | (k1, v1) :: rest, hs => by
      unfold KeysSorted at hs ⊢
      have hc := List.pairwise_cons.mp hs
      unfold mapInsert
      by_cases h1 : k.data < k1.data
      · rw [if_pos h1]
        refine List.pairwise_cons.mpr ⟨?_, hs⟩
        intro e he
        rcases List.mem_cons.mp he with h | h
        · rw [h]; exact h1
        · exact data_lt_trans h1 (hc.1 e h)
      · rw [if_neg h1]
        by_cases h2 : k = k1
        · rw [if_pos h2]; exact hs
        · rw [if_neg h2]
          refine List.pairwise_cons.mpr ⟨?_, mapInsert_sorted k v rest hc.2⟩
          intro e he
          rcases mapInsert_keys k v rest e he with h | h
          · exact hc.1 e h
          · rw [h]; exact data_lt_of_not h1 h2

theorem mapFind_none_of_lt {β : Type} (k : String) :
    ∀ m : List (String × β), (∀ e ∈ m, k.data < e.1.data) → mapFind m k = none
  | [], _ => rfl
  | (k1, v1) :: rest, h => by
      have h1 := h (k1, v1) (List.mem_cons_self _ _)
      have hne : k ≠ k1 := by
        intro heq; rw [heq] at h1; exact data_lt_irrefl k1 h1
      simp only [mapFind, if_neg hne]
      exact mapFind_none_of_lt k rest (fun e he => h e (List.mem_cons_of_mem _ he))

/-- In a map with sorted keys, `insert` reports `true` exactly when the key was absent. -/
theorem mapInsert_inserted_iff {β : Type} (k : String) (v : β) :
    ∀ m : List (String × β), KeysSorted m →
      ((mapInsert m k v).2 = true ↔ mapFind m k = none)
  | [], _ => by simp [mapInsert, mapFind]
  | (k1, v1) :: rest, hs => by
      unfold KeysSorted at hs
      have hc := List.pairwise_cons.mp hs
      unfold mapInsert
      by_cases h1 : k.data < k1.data
      · rw [if_pos h1]
        simp only [true_iff]
        apply mapFind_none_of_lt
        intro e he
        rcases List.mem_cons.mp he with h | h
        · rw [h]; exact h1
        · exact data_lt_trans h1 (hc.1 e h)
      · rw [if_neg h1]
        by_cases h2 : k = k1
        · rw [if_pos h2]
          simp [mapFind, h2]
        · rw [if_neg h2]
          simp only [mapFind, if_neg h2]
          exact mapInsert_inserted_iff k v rest hc.2

theorem push_a_category_categories (ds : Dataset) (c : String) :
    (push_a_category ds c).categories = (mapInsert ds.categories c ds.color).1 := by
  unfold push_a_category
  by_cases h1 : ds.categories.length > 14 <;> by_cases h2 : ds.single_colored = true <;>
    cases h3 : (mapInsert ds.categories c ds.color).2 <;> simp [h1, h2, h3]

theorem push_a_category_flag (ds : Dataset) (c : String) :
    (push_a_category ds c).single_colored =
      (ds.single_colored || decide (ds.categories.length > 14)) := by
  unfold push_a_category
  by_cases h1 : ds.categories.length > 14 <;> by_cases h2 : ds.single_colored = true <;>
    cases h3 : (mapInsert ds.categories c ds.color).2 <;> simp [h1, h2, h3]

theorem push_a_category_color (ds : Dataset) (c : String) :
    (push_a_category ds c).color =
      if (mapInsert ds.categories c ds.color).2 = true ∧
          (ds.single_colored || decide (ds.categories.length > 14)) = false then
        (if ds.color + 1 = 38 then 90 else ds.color + 1)
      else ds.color := by
  unfold push_a_category
  by_cases h1 : ds.categories.length > 14 <;> by_cases h2 : ds.single_colored = true <;>
    cases h3 : (mapInsert ds.categories c ds.color).2 <;> simp [h1, h2, h3]

theorem palette_succ (n : Nat) :
    (if palette n + 1 = 38 then 90 else palette n + 1) = palette (n + 1) := by
  unfold palette
  by_cases h1 : n < 7
  · by_cases h2 : n + 1 < 7
    · rw [if_pos h1, if_pos h2, if_neg (by omega)]; push_cast; ring
    · rw [if_pos h1, if_neg h2]
      have : n = 6 := by omega
      subst this
      norm_num
  · rw [if_neg h1, if_neg (by omega), if_neg (by omega)]; push_cast; ring

theorem palette_injective (m n : Nat) (h : palette m = palette n) : m = n := by
  unfold palette at h
  by_cases h1 : m < 7 <;> by_cases h2 : n < 7
  · rw [if_pos h1, if_pos h2] at h; omega
  · rw [if_pos h1, if_neg h2] at h; omega
  · rw [if_neg h1, if_pos h2] at h; omega
  · rw [if_neg h1, if_neg h2] at h; omega

theorem distinct_count_snoc (P : List String) (c : String) :
    distinct_count (P ++ [c]) = if c ∈ P then distinct_count P else distinct_count P + 1 := by
  unfold distinct_count
  rw [← List.card_toFinset, ← List.card_toFinset, List.toFinset_append]
  by_cases h : c ∈ P
  · rw [if_pos h]
    congr 1
    ext x
    simp only [List.toFinset_cons, List.toFinset_nil, insert_emptyc_eq, Finset.mem_union,
      List.mem_toFinset, Finset.mem_singleton]
    constructor
    · rintro (hx | hx)
      · exact hx
      · rw [hx]; exact h
    · intro hx; left; exact hx
  · rw [if_neg h]
    simp only [List.toFinset_cons, List.toFinset_nil, insert_emptyc_eq]
    rw [Finset.union_comm, ← Finset.insert_eq, Finset.card_insert_of_not_mem]
    simpa using h

theorem distinct_count_le_append (p s : List String) :
    distinct_count p ≤ distinct_count (p ++ s) := by
  unfold distinct_count
  rw [← List.card_toFinset, ← List.card_toFinset, List.toFinset_append]
  exact Finset.card_le_card Finset.subset_union_left

theorem colour_inv_new : ColourInv [] Dataset.new := by
  refine ⟨List.Pairwise.nil, ?_, rfl, ?_, ?_⟩
  · intro c; simp [Dataset.new, mapFind]
  · intro h; simp [Dataset.new] at h
  · intro _
    refine ⟨rfl, ?_⟩
    intro p c s h
    simp at h

theorem colour_inv_push (P : List String) (ds : Dataset) (c : String)
    (h : ColourInv P ds) : ColourInv (P ++ [c]) (push_a_category ds c) := by
  obtain ⟨hsorted, hkeys, hlen, hflag, hcol⟩ := h
  have hins : (mapInsert ds.categories c ds.color).2 = true ↔ c ∉ P := by
    rw [mapInsert_inserted_iff c ds.color ds.categories hsorted]
    constructor
    · intro h1 h2; exact (hkeys c).mpr h2 h1
    · intro h1
      by_contra h2
      exact h1 ((hkeys c).mp h2)
  refine ⟨?_, ?_, ?_, ?_, ?_⟩
  · rw [push_a_category_categories]
    exact mapInsert_sorted c ds.color ds.categories hsorted
  · intro c2
    rw [push_a_category_categories]
    by_cases hc : c2 = c
    · subst hc
      rw [mapFind_mapInsert_self]
      constructor
      · intro _; simp
      · intro _
        by_cases hb : (mapInsert ds.categories c2 ds.color).2 = true
        · rw [if_pos hb]; simp
        · rw [if_neg hb]
          have : ¬ c2 ∉ P := fun hn => hb (hins.mpr hn)
          exact (hkeys c2).mpr (not_not.mp this)
    · rw [mapFind_mapInsert_ne c c2 ds.color hc]
      rw [hkeys c2]
      simp [hc]
  · rw [push_a_category_categories, mapInsert_length, distinct_count_snoc, hlen]
    by_cases hc : c ∈ P
    · have hb : ¬ (mapInsert ds.categories c ds.color).2 = true := fun hb => hins.mp hb hc
      rw [if_pos hc, if_neg hb]; rfl
    · rw [if_neg hc, if_pos (hins.mpr hc)]
  · rw [push_a_category_flag]
    intro hf
    have hmono : distinct_count P ≤ distinct_count (P ++ [c]) := distinct_count_le_append P [c]
    rcases Bool.or_eq_true _ _ ▸ hf with h1 | h1
    · have := hflag h1; omega
    · have h2 : ds.categories.length > 14 := of_decide_eq_true h1
      omega
  · rw [push_a_category_flag]
    intro hf
    have hf1 : ds.single_colored = false := by
      cases hs : ds.single_colored
      · rfl
      · rw [hs] at hf; simp at hf
    obtain ⟨hcolor, hsplit⟩ := hcol hf1
    constructor
    · rw [push_a_category_color, distinct_count_snoc]
      by_cases hc : c ∈ P
      · have hb : ¬ (mapInsert ds.categories c ds.color).2 = true := fun hb => hins.mp hb hc
        rw [if_pos hc, if_neg (fun h => hb h.1)]
        exact hcolor
      · rw [if_neg hc, if_pos ⟨hins.mpr hc, hf⟩, hcolor]
        exact palette_succ _
    · intro p c0 s hP hc0
      rw [push_a_category_categories]
      rcases List.eq_nil_or_concat s with hs | ⟨s1, x, hs⟩
      · subst hs
        have hPc : P = p ∧ c = c0 := by
          have := List.append_inj' hP rfl
          exact ⟨this.1, by simpa using this.2⟩
        obtain ⟨hPp, hcc⟩ := hPc
        subst hPp; subst hcc
        rw [mapFind_mapInsert_self, if_pos (hins.mpr hc0), hcolor]
      · rw [hs, List.concat_eq_append, ← List.cons_append, ← List.append_assoc] at hP
        have := List.append_inj' hP rfl
        obtain ⟨hPp, hcx⟩ := this
        have hold := hsplit p c0 s1 hPp hc0
        by_cases hc : c0 = c
        · subst hc
          have hmem : c0 ∈ P := by rw [hPp]; simp
          have hb : ¬ (mapInsert ds.categories c0 ds.color).2 = true :=
            fun hb => hins.mp hb hmem
          rw [mapFind_mapInsert_self, if_neg hb]
          exact hold
        · rw [mapFind_mapInsert_ne c c0 ds.color hc]
          exact hold

theorem colour_inv_push_all (cats : List String) :
    ∀ (P : List String) (ds : Dataset), ColourInv P ds →
      ColourInv (P ++ cats) (push_all ds cats) := by
  induction cats with
  | nil => intro P ds h; simpa [push_all] using h
  | cons c rest ih =>
      intro P ds h
      have h1 := ih (P ++ [c]) (push_a_category ds c) (colour_inv_push P ds c h)
      simpa [push_all, List.append_assoc] using h1

/-- The colour state after any list of pushes on a fresh dataset. -/
theorem colour_inv_run (cats : List String) : ColourInv cats (push_all Dataset.new cats) := by
  simpa using colour_inv_push_all cats [] Dataset.new colour_inv_new

theorem push_a_category_sorted (ds : Dataset) (d : String) (hs : KeysSorted ds.categories) :
    KeysSorted (push_a_category ds d).categories := by
  rw [push_a_category_categories]
  exact mapInsert_sorted d ds.color ds.categories hs

/-- A push never changes the colour of a category that is already in the map. -/
theorem push_a_category_keeps (ds : Dataset) (c d : String) (v : Int)
    (hs : KeysSorted ds.categories) (h : mapFind ds.categories c = some v) :
    mapFind (push_a_category ds d).categories c = some v := by
  rw [push_a_category_categories]
  by_cases hc : c = d
  · subst hc
    have hb : ¬ (mapInsert ds.categories c ds.color).2 = true := by
      intro hb
      have := (mapInsert_inserted_iff c ds.color ds.categories hs).mp hb
      rw [this] at h
      exact Option.noConfusion h
    rw [mapFind_mapInsert_self, if_neg hb]
    exact h
  · rw [mapFind_mapInsert_ne d c ds.color hc]
    exact h

theorem push_all_keeps (s : List String) :
    ∀ (ds : Dataset) (c : String) (v : Int), KeysSorted ds.categories →
      mapFind ds.categories c = some v → mapFind (push_all ds s).categories c = some v := by
  induction s with
  | nil => intro ds c v _ h; exact h
  | cons d rest ih =>
      intro ds c v hs h
      exact ih (push_a_category ds d) c v (push_a_category_sorted ds d hs)
        (push_a_category_keeps ds c d v hs h)

theorem push_all_append (ds : Dataset) (p s : List String) :
    push_all ds (p ++ s) = push_all (push_all ds p) s := by
  unfold push_all
  rw [List.foldl_append]

/-- The number of distinct categories before the first occurrence of `a` is smaller than
the number of distinct categories of the whole list. -/
theorem distinct_count_before_lt (pa sa : List String) (a : String) (ha : a ∉ pa) :
    distinct_count pa < distinct_count (pa ++ a :: sa) := by
  have h1 : distinct_count (pa ++ [a]) = distinct_count pa + 1 := by
    rw [distinct_count_snoc, if_neg ha]
  have h2 : distinct_count (pa ++ [a]) ≤ distinct_count ((pa ++ [a]) ++ sa) :=
    distinct_count_le_append _ _
  rw [List.append_assoc] at h2
  simp only [List.singleton_append] at h2
  omega

/-- Two different categories have different numbers of distinct categories before their
first occurrences. -/
theorem distinct_count_before_ne (pa sa pb sb : List String) (a b : String)
    (h : pa ++ a :: sa = pb ++ b :: sb) (ha : a ∉ pa) (hb : b ∉ pb) (hab : a ≠ b) :
    distinct_count pa ≠ distinct_count pb := by
  rcases List.append_eq_append_iff.mp h with ⟨t, ht, hrest⟩ | ⟨t, ht, hrest⟩
  · cases t with
    | nil =>
        simp only [List.nil_append, List.cons.injEq] at hrest
        exact absurd hrest.1 hab
    | cons x t =>
        simp only [List.cons_append, List.cons.injEq] at hrest
        rw [ht, ← hrest.1]
        exact Nat.ne_of_lt (distinct_count_before_lt pa t a ha)
  · cases t with
    | nil =>
        simp only [List.nil_append, List.cons.injEq] at hrest
        exact absurd hrest.1.symm hab
    | cons x t =>
        simp only [List.cons_append, List.cons.injEq] at hrest
        rw [ht, ← hrest.1]
        exact Nat.ne_of_gt (distinct_count_before_lt pb t b hb)

/-- C11: for every sequence of `push_a_category` calls on a fresh dataset, any two different
categories among the first 14 distinct ones (both occur in a prefix `p` of the calls that
holds at most 14 distinct categories) are mapped, at the end of the whole sequence, to two
different colour indices, which are entries number `i` and `j` below 14 of the sequence
`31..37, 90..96`. -/
theorem first_fourteen_distinct_colours (p s : List String) (a b : String)
    (hp : distinct_count p ≤ 14) (ha : a ∈ p) (hb : b ∈ p) (hab : a ≠ b) :
    ∃ (i j : Nat) (ca cb : Int),
      mapFind (push_all Dataset.new (p ++ s)).categories a = some ca ∧
      mapFind (push_all Dataset.new (p ++ s)).categories b = some cb ∧
      ca ≠ cb ∧ ca = palette i ∧ cb = palette j ∧ i < 14 ∧ j < 14 := by
  obtain ⟨hsorted, _, _, hflag, hcol⟩ := colour_inv_run p
  have hf : (push_all Dataset.new p).single_colored = false := by
    cases hs : (push_all Dataset.new p).single_colored
    · rfl
    · have := hflag hs; omega
  obtain ⟨_, hsplit⟩ := hcol hf
  obtain ⟨pa, sa, hpa, hna⟩ := List.eq_append_cons_of_mem ha
  obtain ⟨pb, sb, hpb, hnb⟩ := List.eq_append_cons_of_mem hb
  have hfa := hsplit pa a sa hpa hna
  have hfb := hsplit pb b sb hpb hnb
  have hla : distinct_count pa < distinct_count p := by
    rw [hpa]; exact distinct_count_before_lt pa sa a hna
  have hlb : distinct_count pb < distinct_count p := by
    rw [hpb]; exact distinct_count_before_lt pb sb b hnb
  have hne : distinct_count pa ≠ distinct_count pb :=
    distinct_count_before_ne pa sa pb sb a b (hpa.symm.trans hpb) hna hnb hab
  refine ⟨distinct_count pa, distinct_count pb, palette (distinct_count pa),
    palette (distinct_count pb), ?_, ?_, ?_, rfl, rfl, by omega, by omega⟩
  · rw [push_all_append]
    exact push_all_keeps s _ a _ hsorted hfa
  · rw [push_all_append]
    exact push_all_keeps s _ b _ hsorted hfb
  · intro h
    exact hne (palette_injective _ _ h)

set_option maxRecDepth 100000 in
/-- Instance of `first_fourteen_distinct_colours`: fourteen distinct categories are pushed,
then three more calls follow (two new categories and a known one); the first and the
fourteenth category keep different colours. -/
theorem first_fourteen_distinct_colours_witness :
    distinct_count (fifteen_categories.take 14) ≤ 14 ∧
    ∃ (i j : Nat) (ca cb : Int),
      mapFind (push_all Dataset.new
        (fifteen_categories.take 14 ++ ["c15", "c16", "c01"])).categories "c01" = some ca ∧
      mapFind (push_all Dataset.new
        (fifteen_categories.take 14 ++ ["c15", "c16", "c01"])).categories "c14" = some cb ∧
      ca ≠ cb ∧ ca = palette i ∧ cb = palette j ∧ i < 14 ∧ j < 14 :=
  ⟨by decide,
    first_fourteen_distinct_colours (fifteen_categories.take 14) ["c15", "c16", "c01"]
      "c01" "c14" (by decide) (by decide) (by decide) (by decide)⟩

theorem get_color_flag (RED : Int) (ds : Dataset) (c : String) :
    (get_color RED ds c).2.single_colored = ds.single_colored := by
  unfold get_color
  by_cases h : ds.single_colored = true
  · rw [if_pos h]
  · rw [if_neg h]
    cases mapFind ds.categories c <;> rfl

/-- C12: overflow is permanent. From any dataset state in which `single_colored` is true,
every sequence of `push_a_category` and `get_color` calls, for known or new categories,
ends in a state in which `single_colored` is true. -/
theorem overflow_permanent (RED : Int) (calls : List ColourCall) :
    ∀ ds : Dataset, ds.single_colored = true →
      (calls.foldl (apply_call RED) ds).single_colored = true := by
  induction calls with
  | nil => intro ds h; exact h
  | cons call rest ih =>
      intro ds h
      apply ih
      cases call with
      | push c =>
          simp only [apply_call]
          rw [push_a_category_flag, h]
          rfl
      | get c =>
          simp only [apply_call]
          rw [get_color_flag]
          exact h

set_option maxRecDepth 100000 in
/-- Instance of `overflow_permanent`: after sixteen pushes the flag is set, and it stays set
through a push of a known category, a lookup of an unknown one and a push of a new one. -/
theorem overflow_permanent_witness :
    (push_all Dataset.new (fifteen_categories ++ ["c01"])).single_colored = true ∧
    ([ColourCall.push "c02", ColourCall.get "zz", ColourCall.push "new"].foldl
      (apply_call 31) (push_all Dataset.new (fifteen_categories ++ ["c01"]))).single_colored
        = true :=
  ⟨by decide,
    overflow_permanent 31 [ColourCall.push "c02", ColourCall.get "zz", ColourCall.push "new"]
      (push_all Dataset.new (fifteen_categories ++ ["c01"])) (by decide)⟩

theorem mapInsert_not_inserted {β : Type} (k : String) (v : β) :
    ∀ m : List (String × β), (mapInsert m k v).2 = false → (mapInsert m k v).1 = m
  | [], h => by simp [mapInsert] at h
  | (k1, v1) :: rest, h => by
      unfold mapInsert at h ⊢
      by_cases h1 : k.data < k1.data
      · rw [if_pos h1] at h; simp at h
      · rw [if_neg h1] at h ⊢
        by_cases h2 : k = k1
        · rw [if_pos h2]
        · rw [if_neg h2] at h ⊢
          simp only at h ⊢
          rw [mapInsert_not_inserted k v rest h]

/-- C13: colour assignment is stable and determined by insertion order. After any sequence
of `push_a_category` calls on a fresh dataset that has not set `single_colored`:
`get_color` of a pushed category returns the palette entry numbered by the distinct
categories pushed before its first push (the sequence being 31..37, 90, 91, ...) and leaves
the dataset as it is; pushing a known category again changes neither the map nor the
rotation `color`; and pushing any category leaves the colour of every registered category
as it is. -/
theorem colour_assignment_stable (RED : Int) (cats : List String)
    (hflag : (push_all Dataset.new cats).single_colored = false) :
    (List.range 15).map palette =
        [31, 32, 33, 34, 35, 36, 37, 90, 91, 92, 93, 94, 95, 96, 97] ∧
    (∀ p c s, cats = p ++ c :: s → c ∉ p →
      get_color RED (push_all Dataset.new cats) c =
        (palette (distinct_count p), push_all Dataset.new cats)) ∧
    (∀ c, c ∈ cats →
      (push_a_category (push_all Dataset.new cats) c).categories =
        (push_all Dataset.new cats).categories ∧
      (push_a_category (push_all Dataset.new cats) c).color =
        (push_all Dataset.new cats).color) ∧
    (∀ c d v, mapFind (push_all Dataset.new cats).categories c = some v →
      mapFind (push_a_category (push_all Dataset.new cats) d).categories c = some v) := by
  obtain ⟨hsorted, hkeys, _, _, hcol⟩ := colour_inv_run cats
  obtain ⟨_, hsplit⟩ := hcol hflag
  refine ⟨by decide, ?_, ?_, ?_⟩
  · intro p c s hc hn
    unfold get_color
    rw [if_neg (by rw [hflag]; exact Bool.false_ne_true), hsplit p c s hc hn]
  · intro c hc
    have hb : (mapInsert (push_all Dataset.new cats).categories c
        (push_all Dataset.new cats).color).2 = false := by
      cases hb : (mapInsert (push_all Dataset.new cats).categories c
        (push_all Dataset.new cats).color).2
      · rfl
      · have := (mapInsert_inserted_iff c _ _ hsorted).mp hb
        exact absurd this ((hkeys c).mpr hc)
    constructor
    · rw [push_a_category_categories]
      exact mapInsert_not_inserted c _ _ hb
    · rw [push_a_category_color, if_neg (by rw [hb]; simp)]
  · intro c d v h
    exact push_a_category_keeps _ c d v hsorted h

/-- Instance of `colour_assignment_stable`: after the pushes `x`, `y`, `x` the category `y`,
first pushed after one distinct category, has the palette entry number one. -/
theorem colour_assignment_stable_witness :
    (push_all Dataset.new ["x", "y", "x"]).single_colored = false ∧
    get_color 31 (push_all Dataset.new ["x", "y", "x"]) "y" =
      (palette (distinct_count ["x"]), push_all Dataset.new ["x", "y", "x"]) ∧
    palette (distinct_count ["x"]) = 32 :=
  ⟨by decide,
    (colour_assignment_stable 31 ["x", "y", "x"] (by decide)).2.1 ["x"] "y" ["x"] rfl
      (by decide),
    by decide⟩

/-! ## Rounding to binary32 -/

namespace F32

theorem roundMag_eq_rne (N D : Nat) :
    roundMag N D = rne N (D * 2 ^ gridExp (N / D)) * 2 ^ gridExp (N / D) := by
  unfold roundMag rne gridExp
  simp only
  split_ifs <;> rfl

theorem ilog2_spec (fuel : Nat) : ∀ n : Nat, n ≤ fuel → 1 ≤ n →
    2 ^ ilog2 fuel n ≤ n ∧ n < 2 ^ (ilog2 fuel n + 1) := by
  induction fuel with
  | zero => intro n h1 h2; omega
  | succ fuel ih =>
      intro n hfuel hn
      unfold ilog2
      by_cases h : n < 2
      · rw [if_pos h]
        simp only [pow_zero, zero_add, pow_one]
        omega
      · rw [if_neg h]
        have hih := ih (n / 2) (by omega) (by omega)
        constructor
        · rw [pow_succ]
          calc 2 ^ ilog2 fuel (n / 2) * 2 ≤ n / 2 * 2 := Nat.mul_le_mul_right _ hih.1
            _ ≤ n := Nat.div_mul_le_self n 2
        · rw [pow_succ]
          have := hih.2
          omega

theorem ilog2_zero : ilog2 0 0 = 0 := rfl

/-- The logarithm is below `e` when the argument is below `2^e`. -/
theorem ilog2_lt_of_lt_pow (n e : Nat) (h : n < 2 ^ e) (he : 0 < e) : ilog2 n n < e := by
  rcases Nat.eq_zero_or_pos n with h0 | h0
  · subst h0; rw [ilog2_zero]; exact he
  · have hs := ilog2_spec n n (le_refl _) h0
    by_contra hge
    have : 2 ^ e ≤ 2 ^ ilog2 n n := Nat.pow_le_pow_right (by norm_num) (by omega)
    omega

/-- The logarithm is at least `e` when the argument is at least `2^e`. -/
theorem le_ilog2_of_pow_le (n e : Nat) (h : 2 ^ e ≤ n) : e ≤ ilog2 n n := by
  have h0 : 1 ≤ n := le_trans Nat.one_le_two_pow h
  have hs := ilog2_spec n n (le_refl _) h0
  by_contra hlt
  have : 2 ^ (ilog2 n n + 1) ≤ 2 ^ e := Nat.pow_le_pow_right (by norm_num) (by omega)
  omega

theorem ilog2_mono (m n : Nat) (h : m ≤ n) : ilog2 m m ≤ ilog2 n n := by
  rcases Nat.eq_zero_or_pos m with h0 | h0
  · subst h0; rw [ilog2_zero]; exact Nat.zero_le _
  · have hs := ilog2_spec m m (le_refl _) h0
    exact le_ilog2_of_pow_le n _ (le_trans hs.1 h)

theorem gridExp_mono (m n : Nat) (h : m ≤ n) : gridExp m ≤ gridExp n := by
  unfold gridExp
  have := ilog2_mono m n h
  omega

theorem rne_le_of_le (N E m : Nat) (hE : 0 < E) (h : N ≤ m * E) : rne N E ≤ m := by
  have hk : N / E ≤ m := by
    calc N / E ≤ m * E / E := Nat.div_le_div_right h
      _ = m := Nat.mul_div_cancel m hE
  have hr : N % E < E := Nat.mod_lt N hE
  have hdm := Nat.div_add_mod N E
  unfold rne
  rcases Nat.lt_or_eq_of_le hk with hlt | heq
  · split_ifs <;> omega
  · have hN : N = m * E := by
      have h1 : E * (N / E) ≤ N := Nat.mul_div_le N E
      rw [heq, Nat.mul_comm] at h1
      omega
    have hr0 : N % E = 0 := by rw [hN]; exact Nat.mul_mod_left m E
    rw [hr0]
    simp only [Nat.mul_zero]
    rw [if_pos hE]
    exact hk

theorem le_rne_of_le (N E m : Nat) (hE : 0 < E) (h : m * E ≤ N) : m ≤ rne N E := by
  have hk : m ≤ N / E := (Nat.le_div_iff_mul_le hE).mpr h
  unfold rne
  split_ifs <;> omega

theorem div_le_div_of_cross (N1 E1 N2 E2 : Nat) (h1 : 0 < E1) (h2 : 0 < E2)
    (h : N1 * E2 ≤ N2 * E1) : N1 / E1 ≤ N2 / E2 := by
  rw [Nat.le_div_iff_mul_le h2]
  have hk : N1 / E1 * E1 ≤ N1 := Nat.div_mul_le_self N1 E1
  have : N1 / E1 * E2 * E1 ≤ N2 * E1 := by
    calc N1 / E1 * E2 * E1 = N1 / E1 * E1 * E2 := by ring
      _ ≤ N1 * E2 := Nat.mul_le_mul_right _ hk
      _ ≤ N2 * E1 := h
  exact Nat.le_of_mul_le_mul_right this h1

/-- Rounding to the nearest integer is monotone in the rational argument. -/
theorem rne_mono (N1 E1 N2 E2 : Nat) (h1 : 0 < E1) (h2 : 0 < E2)
    (h : N1 * E2 ≤ N2 * E1) : rne N1 E1 ≤ rne N2 E2 := by
  have hk := div_le_div_of_cross N1 E1 N2 E2 h1 h2 h
  have hr1 : N1 % E1 < E1 := Nat.mod_lt N1 h1
  have hr2 : N2 % E2 < E2 := Nat.mod_lt N2 h2
  have hd1 := Nat.div_add_mod N1 E1
  have hd2 := Nat.div_add_mod N2 E2
  rcases Nat.lt_or_eq_of_le hk with hlt | heq
  · have hle1 : rne N1 E1 ≤ N1 / E1 + 1 := by unfold rne; split_ifs <;> omega
    have hle2 : N2 / E2 ≤ rne N2 E2 := by unfold rne; split_ifs <;> omega
    omega
  · -- equal integer parts: compare the remainders
    have hrem : N1 % E1 * E2 ≤ N2 % E2 * E1 := by
      have e1 : N1 * E2 = E1 * E2 * (N1 / E1) + N1 % E1 * E2 := by
        conv_lhs => rw [← hd1]
        ring
      have e2 : N2 * E1 = E1 * E2 * (N1 / E1) + N2 % E2 * E1 := by
        conv_lhs => rw [← hd2, ← heq]
        ring
      omega
    unfold rne
    rw [← heq]
    by_cases c1 : 2 * (N1 % E1) < E1
    · rw [if_pos c1]; split_ifs <;> omega
    · rw [if_neg c1]
      have hge : E2 ≤ 2 * (N2 % E2) := by
        have : E1 * E2 ≤ 2 * (N2 % E2) * E1 := by
          calc E1 * E2 ≤ 2 * (N1 % E1) * E2 := Nat.mul_le_mul_right _ (by omega)
            _ = 2 * (N1 % E1 * E2) := by ring
            _ ≤ 2 * (N2 % E2 * E1) := Nat.mul_le_mul_left _ hrem
            _ = 2 * (N2 % E2) * E1 := by ring
        rw [Nat.mul_comm E1 E2] at this
        exact Nat.le_of_mul_le_mul_right this h1
      by_cases c2 : E1 < 2 * (N1 % E1)
      · rw [if_pos c2]
        have hgt : E2 < 2 * (N2 % E2) := by
          have : E1 * E2 < 2 * (N2 % E2) * E1 := by
            calc E1 * E2 < 2 * (N1 % E1) * E2 := Nat.mul_lt_mul_of_pos_right c2 h2
              _ = 2 * (N1 % E1 * E2) := by ring
              _ ≤ 2 * (N2 % E2 * E1) := Nat.mul_le_mul_left _ hrem
              _ = 2 * (N2 % E2) * E1 := by ring
          rw [Nat.mul_comm E1 E2] at this
          exact Nat.lt_of_mul_lt_mul_right this
        rw [if_neg (by omega), if_pos hgt]
      · rw [if_neg c2, if_neg (by omega)]
        split_ifs <;> omega

end F32

namespace F32

/-- Rounding to binary32 is monotone in the rational argument. -/
theorem roundMag_mono (N1 D1 N2 D2 : Nat) (h1 : 0 < D1) (h2 : 0 < D2)
    (h : N1 * D2 ≤ N2 * D1) : roundMag N1 D1 ≤ roundMag N2 D2 := by
  have hq := div_le_div_of_cross N1 D1 N2 D2 h1 h2 h
  have hs := gridExp_mono _ _ hq
  rw [roundMag_eq_rne, roundMag_eq_rne]
  rcases Nat.lt_or_eq_of_le hs with hlt | heq
  · -- the two values lie in different binades, separated by a power of two
    have hlog2 : ilog2 (N2 / D2) (N2 / D2) = gridExp (N2 / D2) + 23 := by
      unfold gridExp at hlt ⊢; omega
    have hq2pos : 1 ≤ N2 / D2 := by
      rcases Nat.eq_zero_or_pos (N2 / D2) with h0 | h0
      · rw [h0, ilog2_zero] at hlog2; omega
      · exact h0
    have hB2 : 2 ^ (gridExp (N2 / D2) + 23) ≤ N2 / D2 := by
      have := (ilog2_spec _ _ (le_refl _) hq2pos).1
      rw [hlog2] at this; exact this
    have hN2 : 2 ^ (gridExp (N2 / D2) + 23) * D2 ≤ N2 :=
      le_trans (Nat.mul_le_mul_right _ hB2) (Nat.div_mul_le_self N2 D2)
    have hupper : 2 ^ 23 ≤ rne N2 (D2 * 2 ^ gridExp (N2 / D2)) := by
      apply le_rne_of_le _ _ _ (by positivity)
      calc 2 ^ 23 * (D2 * 2 ^ gridExp (N2 / D2))
          = 2 ^ (gridExp (N2 / D2) + 23) * D2 := by rw [pow_add]; ring
        _ ≤ N2 := hN2
    have hq1 : N1 / D1 < 2 ^ (gridExp (N1 / D1) + 24) := by
      rcases Nat.eq_zero_or_pos (N1 / D1) with h0 | h0
      · rw [h0]; positivity
      · have hsp := (ilog2_spec _ _ (le_refl _) h0).2
        have hle : ilog2 (N1 / D1) (N1 / D1) + 1 ≤ gridExp (N1 / D1) + 24 := by
          unfold gridExp; omega
        exact lt_of_lt_of_le hsp (Nat.pow_le_pow_right (by norm_num) hle)
    have hq1B : N1 / D1 < 2 ^ (gridExp (N2 / D2) + 23) :=
      lt_of_lt_of_le hq1 (Nat.pow_le_pow_right (by norm_num) (by omega))
    have hN1 : N1 ≤ 2 ^ (gridExp (N2 / D2) + 23) * D1 := by
      have := (Nat.div_lt_iff_lt_mul h1).mp hq1B
      exact le_of_lt this
    have hsplit : gridExp (N2 / D2) + 23 =
        (gridExp (N2 / D2) + 23 - gridExp (N1 / D1)) + gridExp (N1 / D1) := by omega
    have hlower : rne N1 (D1 * 2 ^ gridExp (N1 / D1)) ≤
        2 ^ (gridExp (N2 / D2) + 23 - gridExp (N1 / D1)) := by
      apply rne_le_of_le _ _ _ (by positivity)
      calc N1 ≤ 2 ^ (gridExp (N2 / D2) + 23) * D1 := hN1
        _ = 2 ^ (gridExp (N2 / D2) + 23 - gridExp (N1 / D1)) *
              (D1 * 2 ^ gridExp (N1 / D1)) := by
            conv_lhs => rw [hsplit, pow_add]
            ring
    calc rne N1 (D1 * 2 ^ gridExp (N1 / D1)) * 2 ^ gridExp (N1 / D1)
        ≤ 2 ^ (gridExp (N2 / D2) + 23 - gridExp (N1 / D1)) * 2 ^ gridExp (N1 / D1) :=
          Nat.mul_le_mul_right _ hlower
      _ = 2 ^ (gridExp (N2 / D2) + 23) := by rw [← pow_add, ← hsplit]
      _ = 2 ^ 23 * 2 ^ gridExp (N2 / D2) := by rw [pow_add]; ring
      _ ≤ rne N2 (D2 * 2 ^ gridExp (N2 / D2)) * 2 ^ gridExp (N2 / D2) :=
          Nat.mul_le_mul_right _ hupper
  · rw [heq]
    apply Nat.mul_le_mul_right
    apply rne_mono _ _ _ _ (by positivity) (by positivity)
    calc N1 * (D2 * 2 ^ gridExp (N2 / D2)) = N1 * D2 * 2 ^ gridExp (N2 / D2) := by ring
      _ ≤ N2 * D1 * 2 ^ gridExp (N2 / D2) := Nat.mul_le_mul_right _ h
      _ = N2 * (D1 * 2 ^ gridExp (N2 / D2)) := by ring

/-- Rounding leaves a point of the binary32 grid as it is. -/
theorem roundMag_exact (g D : Nat) (hD : 0 < D) (hg : 2 ^ gridExp g ∣ g) :
    roundMag (g * D) D = g := by
  rw [roundMag_eq_rne, Nat.mul_div_cancel g hD]
  obtain ⟨m, hm⟩ := hg
  have hN : g * D = m * (D * 2 ^ gridExp g) := by
    conv_lhs => rw [hm]
    ring
  have hE : 0 < D * 2 ^ gridExp g := by positivity
  have hrne : rne (g * D) (D * 2 ^ gridExp g) = m := by
    unfold rne
    rw [hN, Nat.mul_mod_left, Nat.mul_div_cancel m hE]
    simp only [Nat.mul_zero]
    rw [if_pos hE]
  rw [hrne]
  conv_rhs => rw [hm]
  ring

end F32

namespace F32

set_option maxRecDepth 100000 in
theorem grid_one : 2 ^ gridExp (2 ^ 149) ∣ 2 ^ 149 := by decide

set_option maxRecDepth 100000 in
theorem grid_150 : 2 ^ gridExp (150 * 2 ^ 149) ∣ 150 * 2 ^ 149 := by decide

set_option maxRecDepth 100000 in
theorem grid_int_max : 2 ^ gridExp (2 ^ 31 * 2 ^ 149) ∣ 2 ^ 31 * 2 ^ 149 := by decide

theorem round_pos (N D : Nat) (h : roundMag N D < 2 ^ 128 * 2 ^ 149) :
    round false N D = fin (roundMag N D) := by
  unfold round
  rw [if_neg (by omega)]
  rfl

/-- The conversion of an `int` between `0` and `INT_MAX` is finite, non-negative and at
most `2^31`. -/
theorem ofInt_nonneg (v : Int) (h0 : 0 ≤ v) (hv : v ≤ INT_MAX) :
    ofInt v = fin (roundMag (v.natAbs * 2 ^ 149) 1) ∧
    roundMag (v.natAbs * 2 ^ 149) 1 ≤ 2 ^ 31 * 2 ^ 149 := by
  have hb : roundMag (v.natAbs * 2 ^ 149) 1 ≤ 2 ^ 31 * 2 ^ 149 := by
    have hmono := roundMag_mono (v.natAbs * 2 ^ 149) 1 (2 ^ 31 * 2 ^ 149 * 1) 1
      (by norm_num) (by norm_num) (by
        have : v.natAbs ≤ 2 ^ 31 := by unfold INT_MAX at hv; omega
        calc v.natAbs * 2 ^ 149 * 1 ≤ 2 ^ 31 * 2 ^ 149 * 1 :=
              Nat.mul_le_mul_right _ (Nat.mul_le_mul_right _ this)
          _ = 2 ^ 31 * 2 ^ 149 * 1 * 1 := by ring)
    rw [roundMag_exact _ 1 (by norm_num) grid_int_max] at hmono
    exact hmono
  refine ⟨?_, hb⟩
  unfold ofInt
  have hneg : decide (v < 0) = false := by simp; exact h0
  rw [hneg]
  apply round_pos
  calc roundMag (v.natAbs * 2 ^ 149) 1 ≤ 2 ^ 31 * 2 ^ 149 := hb
    _ < 2 ^ 128 * 2 ^ 149 := by norm_num

/-- The conversion of a positive `int` is at least one. -/
theorem one_le_ofInt (v : Int) (h0 : 1 ≤ v) : 2 ^ 149 ≤ roundMag (v.natAbs * 2 ^ 149) 1 := by
  have hmono := roundMag_mono (2 ^ 149 * 1) 1 (v.natAbs * 2 ^ 149) 1
    (by norm_num) (by norm_num) (by
      have : 1 ≤ v.natAbs := by omega
      calc 2 ^ 149 * 1 * 1 = 1 * 2 ^ 149 := by ring
        _ ≤ v.natAbs * 2 ^ 149 := Nat.mul_le_mul_right _ this
        _ = v.natAbs * 2 ^ 149 * 1 := by ring)
  rw [roundMag_exact _ 1 (by norm_num) grid_one] at hmono
  exact hmono

set_option maxRecDepth 100000 in
theorem ofInt_150 : ofInt 150 = fin ((150 * 2 ^ 149 : Nat) : Int) := by decide

theorem div_fin_nat (x y : Nat) (hy : 0 < y) :
    div (fin (x : Int)) (fin (y : Int)) = round false (x * 2 ^ 149) y := by
  have hy0 : ¬ ((y : Int) = 0) := by omega
  have h1 : decide ((x : Int) < 0) = false := by simp
  have h2 : decide ((y : Int) < 0) = false := by simp
  simp only [div, hy0, if_false, h1, h2, Int.natAbs_ofNat, bne_self_eq_false]

theorem mul_fin_nat (x y : Nat) :
    mul (fin (x : Int)) (fin (y : Int)) = round false (x * y) (2 ^ 149) := by
  have h1 : decide ((x : Int) < 0) = false := by simp
  have h2 : decide ((y : Int) < 0) = false := by simp
  simp only [mul, h1, h2, Int.natAbs_ofNat, bne_self_eq_false]

theorem round_neg (N D : Nat) (h : roundMag N D < 2 ^ 128 * 2 ^ 149) :
    round true N D = fin (-(roundMag N D : Int)) := by
  unfold round
  rw [if_neg (by omega)]
  rfl

theorem div_fin_neg (x y : Nat) (hx : 0 < x) (hy : 0 < y) :
    div (fin (-(x : Int))) (fin (y : Int)) = round true (x * 2 ^ 149) y := by
  have hy0 : ¬ ((y : Int) = 0) := by omega
  have h1 : decide (-(x : Int) < 0) = true := by simp; omega
  have h2 : decide ((y : Int) < 0) = false := by simp
  simp only [div, hy0, if_false, h1, h2, Int.natAbs_neg, Int.natAbs_ofNat]
  rfl

theorem mul_fin_neg (x y : Nat) (hy : 0 < y) :
    mul (fin (x : Int)) (fin (-(y : Int))) = round true (x * y) (2 ^ 149) := by
  have h1 : decide ((x : Int) < 0) = false := by simp
  have h2 : decide (-(y : Int) < 0) = true := by simp; omega
  simp only [mul, h1, h2, Int.natAbs_neg, Int.natAbs_ofNat]
  rfl

end F32

/-- The width expression on values `0 <= v <= max` with `0 < max <= INT_MAX`: the width is
a finite binary32 value between 0 and 150. -/
theorem bar_width_bounds (v max : Int) (h0 : 0 ≤ v) (hle : v ≤ max) (hpos : 0 < max)
    (hmax : max ≤ INT_MAX) :
    ∃ w : Nat, bar_width v max = F32.fin w ∧ w ≤ 150 * 2 ^ 149 := by
  obtain ⟨hv, hvb⟩ := F32.ofInt_nonneg v h0 (le_trans hle hmax)
  obtain ⟨hm, hmb⟩ := F32.ofInt_nonneg max (le_of_lt hpos) hmax
  have hm1 := F32.one_le_ofInt max (by omega)
  have hab : F32.roundMag (v.natAbs * 2 ^ 149) 1 ≤ F32.roundMag (max.natAbs * 2 ^ 149) 1 := by
    apply F32.roundMag_mono _ _ _ _ (by norm_num) (by norm_num)
    have : v.natAbs ≤ max.natAbs := by omega
    exact Nat.mul_le_mul_right _ (Nat.mul_le_mul_right _ this)
  generalize F32.roundMag (v.natAbs * 2 ^ 149) 1 = a at hv hvb hab
  generalize F32.roundMag (max.natAbs * 2 ^ 149) 1 = b at hm hmb hm1 hab
  have hbpos : 0 < b := lt_of_lt_of_le (by positivity) hm1
  -- the quotient is at most one
  have hp : F32.roundMag (a * 2 ^ 149) b ≤ 2 ^ 149 := by
    have hmono := F32.roundMag_mono (a * 2 ^ 149) b (2 ^ 149 * b) b hbpos hbpos (by
      calc a * 2 ^ 149 * b ≤ b * 2 ^ 149 * b :=
            Nat.mul_le_mul_right _ (Nat.mul_le_mul_right _ hab)
        _ = 2 ^ 149 * b * b := by ring)
    rw [F32.roundMag_exact _ b hbpos F32.grid_one] at hmono
    exact hmono
  have hdiv : F32.div (F32.fin a) (F32.fin b) = F32.fin (F32.roundMag (a * 2 ^ 149) b) := by
    rw [F32.div_fin_nat a b hbpos]
    apply F32.round_pos
    calc F32.roundMag (a * 2 ^ 149) b ≤ 2 ^ 149 := hp
      _ < 2 ^ 128 * 2 ^ 149 := by norm_num
  generalize F32.roundMag (a * 2 ^ 149) b = p at hp hdiv
  -- the product with 150 is at most 150
  have hw : F32.roundMag (150 * 2 ^ 149 * p) (2 ^ 149) ≤ 150 * 2 ^ 149 := by
    have hmono := F32.roundMag_mono (150 * 2 ^ 149 * p) (2 ^ 149)
      (150 * 2 ^ 149 * 2 ^ 149) (2 ^ 149) (by positivity) (by positivity)
      (Nat.mul_le_mul_right _ (Nat.mul_le_mul_left _ hp))
    rw [F32.roundMag_exact _ (2 ^ 149) (by positivity) F32.grid_150] at hmono
    exact hmono
  refine ⟨F32.roundMag (150 * 2 ^ 149 * p) (2 ^ 149), ?_, hw⟩
  unfold bar_width
  rw [hv, hm, hdiv, F32.ofInt_150, F32.mul_fin_nat]
  apply F32.round_pos
  calc F32.roundMag (150 * 2 ^ 149 * p) (2 ^ 149) ≤ 150 * 2 ^ 149 := hw
    _ < 2 ^ 128 * 2 ^ 149 := by norm_num

/-! ## The accuracy of binary32 rounding -/

namespace F32

/-- Rounding to the nearest integer errs by at most half a unit. -/
theorem rne_error (N E : Nat) (hE : 0 < E) :
    2 * N ≤ 2 * (rne N E * E) + E ∧ 2 * (rne N E * E) ≤ 2 * N + E := by
  have hr : N % E < E := Nat.mod_lt N hE
  have hd : E * (N / E) + N % E = N := Nat.div_add_mod N E
  have hk : N / E * E = E * (N / E) := Nat.mul_comm _ _
  unfold rne
  by_cases c1 : 2 * (N % E) < E
  · rw [if_pos c1]; omega
  · rw [if_neg c1]
    by_cases c2 : E < 2 * (N % E)
    · rw [if_pos c2]
      have : (N / E + 1) * E = E * (N / E) + E := by ring
      omega
    · rw [if_neg c2]
      rcases Nat.mod_two_eq_zero_or_one (N / E) with h0 | h1
      · rw [h0]; simp only [Nat.add_zero]; omega
      · rw [h1]
        have : (N / E + 1) * E = E * (N / E) + E := by ring
        omega

/-- Rounding a value of at least `2^23` units to binary32 has a relative error of at most
`2^-24`. -/
theorem roundMag_error (N D : Nat) (hD : 0 < D) (hq : 2 ^ 23 ≤ N / D) :
    (2 ^ 24 - 1) * N ≤ 2 ^ 24 * (roundMag N D * D) ∧
    2 ^ 24 * (roundMag N D * D) ≤ (2 ^ 24 + 1) * N := by
  have hlog : 23 ≤ ilog2 (N / D) (N / D) := le_ilog2_of_pow_le _ _ hq
  have hq1 : 1 ≤ N / D := le_trans Nat.one_le_two_pow hq
  have hsp := (ilog2_spec _ _ (le_refl _) hq1).1
  have hexp : ilog2 (N / D) (N / D) = gridExp (N / D) + 23 := by unfold gridExp; omega
  rw [hexp] at hsp
  have hE : 0 < D * 2 ^ gridExp (N / D) := by positivity
  have herr := rne_error N (D * 2 ^ gridExp (N / D)) hE
  have hND : D * 2 ^ gridExp (N / D) * 2 ^ 23 ≤ N := by
    calc D * 2 ^ gridExp (N / D) * 2 ^ 23 = 2 ^ (gridExp (N / D) + 23) * D := by
          rw [pow_add]; ring
      _ ≤ N / D * D := Nat.mul_le_mul_right _ hsp
      _ ≤ N := Nat.div_mul_le_self N D
  have hR : roundMag N D * D =
      rne N (D * 2 ^ gridExp (N / D)) * (D * 2 ^ gridExp (N / D)) := by
    rw [roundMag_eq_rne]; ring
  rw [hR]
  generalize rne N (D * 2 ^ gridExp (N / D)) * (D * 2 ^ gridExp (N / D)) = X at herr
  generalize D * 2 ^ gridExp (N / D) = E at herr hND hE
  norm_num at hND ⊢
  omega

end F32

/-- The four rounding errors of the width expression, combined: an upper bound. -/
theorem combine_upper (L M H a b p w v m U : Nat) (hU : 0 < U)
    (hw : M * w ≤ H * (150 * p)) (hp : M * (p * b) ≤ H * (a * U))
    (ha : M * a ≤ H * (v * U)) (hb : L * (m * U) ≤ M * b) :
    M * M * L * (w * m) ≤ H * H * H * (150 * v * U) := by
  have h1 : M * M * L * (w * m) * U ≤ H * H * H * (150 * v * U) * U := by
    calc M * M * L * (w * m) * U = M * (M * w) * (L * (m * U)) := by ring
      _ ≤ M * (M * w) * (M * b) := Nat.mul_le_mul_left _ hb
      _ = M * M * b * (M * w) := by ring
      _ ≤ M * M * b * (H * (150 * p)) := Nat.mul_le_mul_left _ hw
      _ = M * H * 150 * (M * (p * b)) := by ring
      _ ≤ M * H * 150 * (H * (a * U)) := Nat.mul_le_mul_left _ hp
      _ = H * H * 150 * U * (M * a) := by ring
      _ ≤ H * H * 150 * U * (H * (v * U)) := Nat.mul_le_mul_left _ ha
      _ = H * H * H * (150 * v * U) * U := by ring
  exact Nat.le_of_mul_le_mul_right h1 hU

/-- The four rounding errors of the width expression, combined: a lower bound. -/
theorem combine_lower (L M H a b p w v m U : Nat) (hU : 0 < U)
    (hw : L * (150 * p) ≤ M * w) (hp : L * (a * U) ≤ M * (p * b))
    (ha : L * (v * U) ≤ M * a) (hb : M * b ≤ H * (m * U)) :
    L * L * L * (150 * v * U) ≤ M * M * H * (w * m) := by
  have h1 : L * L * L * (150 * v * U) * U ≤ M * M * H * (w * m) * U := by
    calc L * L * L * (150 * v * U) * U = L * L * 150 * U * (L * (v * U)) := by ring
      _ ≤ L * L * 150 * U * (M * a) := Nat.mul_le_mul_left _ ha
      _ = L * M * 150 * (L * (a * U)) := by ring
      _ ≤ L * M * 150 * (M * (p * b)) := Nat.mul_le_mul_left _ hp
      _ = M * M * b * (L * (150 * p)) := by ring
      _ ≤ M * M * b * (M * w) := Nat.mul_le_mul_left _ hw
      _ = M * (M * w) * (M * b) := by ring
      _ ≤ M * (M * w) * (H * (m * U)) := Nat.mul_le_mul_left _ hb
      _ = M * M * H * (w * m) * U := by ring
  exact Nat.le_of_mul_le_mul_right h1 hU

set_option maxRecDepth 100000 in
theorem F32.grid_118 : 2 ^ F32.gridExp (2 ^ 118) ∣ 2 ^ 118 := by decide

/-- The accuracy of the width expression on magnitudes: for `1 <= n <= 2^31` and
`1 <= m <= 2^31`, the two conversions `a`, `b`, the quotient `p` and the product `w` are
finite and positive, and `w`, counted in units of `2^-149`, is within a relative error of
`2^-21` of `150 * n / m`. -/
theorem width_mag_accuracy (n m : Nat) (hn1 : 1 ≤ n) (hn2 : n ≤ 2 ^ 31) (hm1 : 1 ≤ m)
    (hm2 : m ≤ 2 ^ 31) :
    ∃ a b p w : Nat, a = F32.roundMag (n * 2 ^ 149) 1 ∧ b = F32.roundMag (m * 2 ^ 149) 1 ∧
      p = F32.roundMag (a * 2 ^ 149) b ∧ w = F32.roundMag (150 * 2 ^ 149 * p) (2 ^ 149) ∧
      (0 < a ∧ a < 2 ^ 128 * 2 ^ 149) ∧ (0 < b ∧ b < 2 ^ 128 * 2 ^ 149) ∧
      (0 < p ∧ p < 2 ^ 128 * 2 ^ 149) ∧ w < 2 ^ 128 * 2 ^ 149 ∧
      (2 ^ 21 - 1) * (150 * n * 2 ^ 149) ≤ 2 ^ 21 * (w * m) ∧
      2 ^ 21 * (w * m) ≤ (2 ^ 21 + 1) * (150 * n * 2 ^ 149) := by
  have hbound : ∀ k : Nat, k ≤ 2 ^ 31 → F32.roundMag (k * 2 ^ 149) 1 ≤ 2 ^ 31 * 2 ^ 149 := by
    intro k hk
    have hmono := F32.roundMag_mono (k * 2 ^ 149) 1 (2 ^ 31 * 2 ^ 149 * 1) 1
      (by norm_num) (by norm_num) (by
        calc k * 2 ^ 149 * 1 ≤ 2 ^ 31 * 2 ^ 149 * 1 :=
              Nat.mul_le_mul_right _ (Nat.mul_le_mul_right _ hk)
          _ = 2 ^ 31 * 2 ^ 149 * 1 * 1 := by ring)
    rw [F32.roundMag_exact _ 1 (by norm_num) F32.grid_int_max] at hmono
    exact hmono
  have hone : ∀ k : Nat, 1 ≤ k → 2 ^ 149 ≤ F32.roundMag (k * 2 ^ 149) 1 := by
    intro k hk
    have hmono := F32.roundMag_mono (2 ^ 149 * 1) 1 (k * 2 ^ 149) 1
      (by norm_num) (by norm_num) (by
        calc 2 ^ 149 * 1 * 1 = 1 * 2 ^ 149 := by ring
          _ ≤ k * 2 ^ 149 := Nat.mul_le_mul_right _ hk
          _ = k * 2 ^ 149 * 1 := by ring)
    rw [F32.roundMag_exact _ 1 (by norm_num) F32.grid_one] at hmono
    exact hmono
  have hvb := hbound n hn2
  have hmb := hbound m hm2
  have hv1 := hone n hn1
  have hm1' := hone m hm1
  -- the two conversions
  have hea := F32.roundMag_error (n * 2 ^ 149) 1 (by norm_num) (by
    rw [Nat.div_one]
    calc 2 ^ 23 ≤ 1 * 2 ^ 149 := by norm_num
      _ ≤ n * 2 ^ 149 := Nat.mul_le_mul_right _ hn1)
  have heb := F32.roundMag_error (m * 2 ^ 149) 1 (by norm_num) (by
    rw [Nat.div_one]
    calc 2 ^ 23 ≤ 1 * 2 ^ 149 := by norm_num
      _ ≤ m * 2 ^ 149 := Nat.mul_le_mul_right _ hm1)
  generalize ha : F32.roundMag (n * 2 ^ 149) 1 = a at hvb hv1 hea
  generalize hb : F32.roundMag (m * 2 ^ 149) 1 = b at hmb hm1' heb
  have hapos : 0 < a := lt_of_lt_of_le (by positivity) hv1
  have hbpos : 0 < b := lt_of_lt_of_le (by positivity) hm1'
  -- the quotient
  have hcross : 2 ^ 118 * b ≤ a * 2 ^ 149 := by
    calc 2 ^ 118 * b ≤ 2 ^ 118 * (2 ^ 31 * 2 ^ 149) := Nat.mul_le_mul_left _ hmb
      _ = 2 ^ 149 * 2 ^ 149 := by norm_num
      _ ≤ a * 2 ^ 149 := Nat.mul_le_mul_right _ hv1
  have hqp : 2 ^ 23 ≤ a * 2 ^ 149 / b := by
    rw [Nat.le_div_iff_mul_le hbpos]
    calc 2 ^ 23 * b ≤ 2 ^ 118 * b := Nat.mul_le_mul_right _ (by norm_num)
      _ ≤ a * 2 ^ 149 := hcross
  have hep := F32.roundMag_error (a * 2 ^ 149) b hbpos hqp
  have hplow : 2 ^ 118 ≤ F32.roundMag (a * 2 ^ 149) b := by
    have hmono := F32.roundMag_mono (2 ^ 118 * b) b (a * 2 ^ 149) b hbpos hbpos
      (Nat.mul_le_mul_right _ hcross)
    rw [F32.roundMag_exact _ b hbpos F32.grid_118] at hmono
    exact hmono
  have hpup : F32.roundMag (a * 2 ^ 149) b ≤ 2 ^ 31 * 2 ^ 149 := by
    have hmono := F32.roundMag_mono (a * 2 ^ 149) b (2 ^ 31 * 2 ^ 149 * b) b hbpos hbpos (by
      calc a * 2 ^ 149 * b ≤ 2 ^ 31 * 2 ^ 149 * 2 ^ 149 * b :=
            Nat.mul_le_mul_right _ (Nat.mul_le_mul_right _ hvb)
        _ ≤ 2 ^ 31 * 2 ^ 149 * b * b := by
            calc 2 ^ 31 * 2 ^ 149 * 2 ^ 149 * b = 2 ^ 31 * 2 ^ 149 * b * 2 ^ 149 := by ring
              _ ≤ 2 ^ 31 * 2 ^ 149 * b * b := Nat.mul_le_mul_left _ hm1')
    rw [F32.roundMag_exact _ b hbpos F32.grid_int_max] at hmono
    exact hmono
  generalize hp : F32.roundMag (a * 2 ^ 149) b = p at hep hplow hpup
  have hppos : 0 < p := lt_of_lt_of_le (by positivity) hplow
  -- the product
  have hqw : 2 ^ 23 ≤ 150 * 2 ^ 149 * p / 2 ^ 149 := by
    rw [Nat.le_div_iff_mul_le (by positivity)]
    calc 2 ^ 23 * 2 ^ 149 ≤ 150 * 2 ^ 149 * 2 ^ 118 := by norm_num
      _ ≤ 150 * 2 ^ 149 * p := Nat.mul_le_mul_left _ hplow
  have hew := F32.roundMag_error (150 * 2 ^ 149 * p) (2 ^ 149) (by positivity) hqw
  have hwup : F32.roundMag (150 * 2 ^ 149 * p) (2 ^ 149) < 2 ^ 128 * 2 ^ 149 := by
    have := hew.2
    have hp2 : 150 * 2 ^ 149 * p ≤ 150 * 2 ^ 149 * (2 ^ 31 * 2 ^ 149) :=
      Nat.mul_le_mul_left _ hpup
    generalize F32.roundMag (150 * 2 ^ 149 * p) (2 ^ 149) = w at this ⊢
    generalize 150 * 2 ^ 149 * p = X at this hp2
    norm_num at this hp2 ⊢
    omega
  generalize hw : F32.roundMag (150 * 2 ^ 149 * p) (2 ^ 149) = w at hew hwup
  refine ⟨a, b, p, w, rfl, rfl, hp.symm, hw.symm, ⟨hapos, ?_⟩, ⟨hbpos, ?_⟩, ⟨hppos, ?_⟩, hwup, ?_, ?_⟩
  · calc a ≤ 2 ^ 31 * 2 ^ 149 := hvb
      _ < 2 ^ 128 * 2 ^ 149 := by norm_num
  · calc b ≤ 2 ^ 31 * 2 ^ 149 := hmb
      _ < 2 ^ 128 * 2 ^ 149 := by norm_num
  · calc p ≤ 2 ^ 31 * 2 ^ 149 := hpup
      _ < 2 ^ 128 * 2 ^ 149 := by norm_num
  · have hc := combine_lower (2 ^ 24 - 1) (2 ^ 24) (2 ^ 24 + 1) a b p w n m
      (2 ^ 149) (by positivity)
      (by
        have h := hew.1
        have e1 : (2 ^ 24 - 1) * (150 * 2 ^ 149 * p) = (2 ^ 24 - 1) * (150 * p) * 2 ^ 149 := by
          ring
        have e2 : 2 ^ 24 * (w * 2 ^ 149) = 2 ^ 24 * w * 2 ^ 149 := by ring
        rw [e1, e2] at h
        exact Nat.le_of_mul_le_mul_right h (by positivity))
      (by
        have h := hep.1
        rw [Nat.mul_comm a (2 ^ 149)] at h
        rw [Nat.mul_comm a (2 ^ 149)]
        exact h)
      (by
        have h := hea.1
        simp only [Nat.mul_one] at h
        exact h)
      (by
        have h := heb.2
        simp only [Nat.mul_one] at h
        exact h)
    generalize w * m = X at hc ⊢
    generalize 150 * n * 2 ^ 149 = Y at hc ⊢
    norm_num at hc ⊢
    omega
  · have hc := combine_upper (2 ^ 24 - 1) (2 ^ 24) (2 ^ 24 + 1) a b p w n m
      (2 ^ 149) (by positivity)
      (by
        have h := hew.2
        have e1 : (2 ^ 24 + 1) * (150 * 2 ^ 149 * p) = (2 ^ 24 + 1) * (150 * p) * 2 ^ 149 := by
          ring
        have e2 : 2 ^ 24 * (w * 2 ^ 149) = 2 ^ 24 * w * 2 ^ 149 := by ring
        rw [e1, e2] at h
        exact Nat.le_of_mul_le_mul_right h (by positivity))
      (by
        have h := hep.2
        exact h)
      (by
        have h := hea.2
        simp only [Nat.mul_one] at h
        exact h)
      (by
        have h := heb.1
        simp only [Nat.mul_one] at h
        exact h)
    generalize w * m = X at hc ⊢
    generalize 150 * n * 2 ^ 149 = Y at hc ⊢
    norm_num at hc ⊢
    omega

/-- The accuracy of the width expression on values `1 <= v <= max <= INT_MAX`: the width,
counted in units of `2^-149`, is within a relative error of `2^-21` of `150 * v / max`. -/
theorem bar_width_accuracy (v max : Int) (h1 : 1 ≤ v) (hle : v ≤ max) (hmax : max ≤ INT_MAX) :
    ∃ w : Nat, bar_width v max = F32.fin w ∧
      (2 ^ 21 - 1) * (150 * v.natAbs * 2 ^ 149) ≤ 2 ^ 21 * (w * max.natAbs) ∧
      2 ^ 21 * (w * max.natAbs) ≤ (2 ^ 21 + 1) * (150 * v.natAbs * 2 ^ 149) := by
  have hI : INT_MAX = 2147483647 := rfl
  obtain ⟨a, b, p, w, ha, hb, hp, hw, ⟨_, ha2⟩, ⟨hb1, hb2⟩, ⟨_, hp2⟩, hw2, hlo, hhi⟩ :=
    width_mag_accuracy v.natAbs max.natAbs (by omega) (by omega) (by omega) (by omega)
  refine ⟨w, ?_, hlo, hhi⟩
  have hvn : decide (v < 0) = false := by simp; omega
  have hmn : decide (max < 0) = false := by simp; omega
  have ev : F32.ofInt v = F32.fin a := by
    unfold F32.ofInt
    rw [hvn, F32.round_pos _ _ (by rw [← ha]; exact ha2), ← ha]
  have em : F32.ofInt max = F32.fin b := by
    unfold F32.ofInt
    rw [hmn, F32.round_pos _ _ (by rw [← hb]; exact hb2), ← hb]
  unfold bar_width
  rw [ev, em, F32.div_fin_nat a b hb1, F32.round_pos _ _ (by rw [← hp]; exact hp2), ← hp,
    F32.ofInt_150, F32.mul_fin_nat, F32.round_pos _ _ (by rw [← hw]; exact hw2), ← hw]

/-- The accuracy of the width expression on a negative value `-2^31 <= v < 0` against
`0 < max <= INT_MAX`: the width is the negative of a magnitude `w` that, counted in units of
`2^-149`, is within a relative error of `2^-21` of `150 * |v| / max`. -/
theorem bar_width_accuracy_neg (v max : Int) (hneg : v < 0) (hlo : -2147483648 ≤ v)
    (hpos : 0 < max) (hmax : max ≤ INT_MAX) :
    ∃ w : Nat, bar_width v max = F32.fin (-(w : Int)) ∧
      (2 ^ 21 - 1) * (150 * v.natAbs * 2 ^ 149) ≤ 2 ^ 21 * (w * max.natAbs) ∧
      2 ^ 21 * (w * max.natAbs) ≤ (2 ^ 21 + 1) * (150 * v.natAbs * 2 ^ 149) := by
  have hI : INT_MAX = 2147483647 := rfl
  obtain ⟨a, b, p, w, ha, hb, hp, hw, ⟨ha1, ha2⟩, ⟨hb1, hb2⟩, ⟨hp1, hp2⟩, hw2, hlow, hhi⟩ :=
    width_mag_accuracy v.natAbs max.natAbs (by omega) (by omega) (by omega) (by omega)
  refine ⟨w, ?_, hlow, hhi⟩
  have hvn : decide (v < 0) = true := by simp; exact hneg
  have hmn : decide (max < 0) = false := by simp; omega
  have ev : F32.ofInt v = F32.fin (-(a : Int)) := by
    unfold F32.ofInt
    rw [hvn, F32.round_neg _ _ (by rw [← ha]; exact ha2), ← ha]
  have em : F32.ofInt max = F32.fin b := by
    unfold F32.ofInt
    rw [hmn, F32.round_pos _ _ (by rw [← hb]; exact hb2), ← hb]
  unfold bar_width
  rw [ev, em, F32.div_fin_neg a b ha1 hb1, F32.round_neg _ _ (by rw [← hp]; exact hp2), ← hp,
    F32.ofInt_150, F32.mul_fin_neg _ p hp1, F32.round_neg _ _ (by rw [← hw]; exact hw2), ← hw]

set_option maxRecDepth 100000 in
/-- The accuracy of the width expression, as rational numbers: for `1 <= v <= max <= INT_MAX`
the width is a finite value `w * 2^-149` that differs from `150 * v / max` by at most
`2^-21` of it. -/
theorem bar_width_near (v max : Int) (h1 : 1 ≤ v) (hle : v ≤ max) (hmax : max ≤ INT_MAX) :
    ∃ w : Nat, bar_width v max = F32.fin w ∧
      |(w : ℚ) / 2 ^ 149 - 150 * (v : ℚ) / (max : ℚ)| ≤ 150 * (v : ℚ) / (max : ℚ) / 2 ^ 21 := by
  obtain ⟨w, hw, hlo, hhi⟩ := bar_width_accuracy v max h1 hle hmax
  refine ⟨w, hw, ?_⟩
  have hvq : ((v.natAbs : ℕ) : ℚ) = (v : ℚ) := by
    rw [Nat.cast_natAbs, abs_of_nonneg (by omega)]
  have hmq : ((max.natAbs : ℕ) : ℚ) = (max : ℚ) := by
    rw [Nat.cast_natAbs, abs_of_nonneg (by omega)]
  have hmpos : (0 : ℚ) < (max : ℚ) := by
    have : (0 : Int) < max := by omega
    exact_mod_cast this
  have hlo2 : ((2 : ℚ) ^ 21 - 1) * (150 * (v : ℚ) * 2 ^ 149) ≤ 2 ^ 21 * ((w : ℚ) * (max : ℚ)) := by
    have := (Nat.cast_le (α := ℚ)).mpr hlo
    push_cast at this
    rw [hvq, hmq] at this
    norm_num
    exact this
  have hhi2 : (2 : ℚ) ^ 21 * ((w : ℚ) * (max : ℚ)) ≤ (2 ^ 21 + 1) * (150 * (v : ℚ) * 2 ^ 149) := by
    have := (Nat.cast_le (α := ℚ)).mpr hhi
    push_cast at this
    rw [hvq, hmq] at this
    norm_num
    exact this
  have hU : (0 : ℚ) < 2 ^ 149 := by positivity
  have key : (w : ℚ) / 2 ^ 149 - 150 * (v : ℚ) / (max : ℚ) =
      ((w : ℚ) * (max : ℚ) - 150 * (v : ℚ) * 2 ^ 149) / (2 ^ 149 * (max : ℚ)) := by
    field_simp
    ring
  have key2 : 150 * (v : ℚ) / (max : ℚ) / 2 ^ 21 =
      (150 * (v : ℚ) * 2 ^ 149 / 2 ^ 21) / (2 ^ 149 * (max : ℚ)) := by
    field_simp
    ring
  rw [key, key2, abs_div, abs_of_pos (mul_pos hU hmpos)]
  apply div_le_div_of_nonneg_right _ (le_of_lt (mul_pos hU hmpos))
  have h21 : (0 : ℚ) < 2 ^ 21 := by positivity
  have hd : 150 * (v : ℚ) * 2 ^ 149 / 2 ^ 21 * 2 ^ 21 = 150 * (v : ℚ) * 2 ^ 149 :=
    div_mul_cancel₀ _ (ne_of_gt h21)
  rw [abs_le]
  generalize 150 * (v : ℚ) * 2 ^ 149 / 2 ^ 21 = d at hd ⊢
  constructor <;> linarith

theorem F32.roundMag_zero (D : Nat) (hD : 0 < D) : F32.roundMag 0 D = 0 := by
  unfold F32.roundMag
  simp only [Nat.zero_div, F32.ilog2, Nat.zero_sub, pow_zero, Nat.mul_one, Nat.zero_mod,
    Nat.mul_zero, Nat.zero_mul]
  rw [if_pos hD]

/-- The width of a bar of value 0 against a positive maximum is 0. -/
theorem bar_width_zero (max : Int) (hpos : 0 < max) (hmax : max ≤ INT_MAX) :
    bar_width 0 max = F32.fin 0 := by
  obtain ⟨hm, _⟩ := F32.ofInt_nonneg max (le_of_lt hpos) hmax
  have hm1 := F32.one_le_ofInt max (by omega)
  generalize F32.roundMag (max.natAbs * 2 ^ 149) 1 = b at hm hm1
  have hbpos : 0 < b := lt_of_lt_of_le (by positivity) hm1
  have h0 : F32.ofInt 0 = F32.fin ((0 : Nat) : Int) := by decide
  unfold bar_width
  rw [h0, hm, F32.div_fin_nat 0 b hbpos, Nat.zero_mul,
    F32.round_pos _ _ (by rw [F32.roundMag_zero b hbpos]; positivity),
    F32.roundMag_zero b hbpos, F32.ofInt_150, F32.mul_fin_nat, Nat.mul_zero,
    F32.round_pos _ _ (by rw [F32.roundMag_zero _ (by positivity)]; positivity),
    F32.roundMag_zero _ (by positivity)]
  rfl

set_option maxRecDepth 100000 in
/-- The accuracy of the width expression for every `int` value up to the maximum, as rational
numbers: the width is a finite value `z * 2^-149` that differs from `150 * v / max` by at
most `2^-21` of its magnitude. -/
theorem bar_width_close (v max : Int) (hlo : -2147483648 ≤ v) (hle : v ≤ max) (hpos : 0 < max)
    (hmax : max ≤ INT_MAX) :
    ∃ z : Int, bar_width v max = F32.fin z ∧
      |(z : ℚ) / 2 ^ 149 - 150 * (v : ℚ) / (max : ℚ)| ≤
        |150 * (v : ℚ) / (max : ℚ)| / 2 ^ 21 := by
  have hmpos : (0 : ℚ) < (max : ℚ) := by exact_mod_cast hpos
  rcases lt_trichotomy v 0 with hneg | hzero | hvpos
  · obtain ⟨w, hw, hlow, hhi⟩ := bar_width_accuracy_neg v max hneg hlo hpos hmax
    refine ⟨-(w : Int), hw, ?_⟩
    have hvq : ((v.natAbs : ℕ) : ℚ) = -(v : ℚ) := by
      rw [Nat.cast_natAbs, abs_of_neg hneg]; push_cast; rfl
    have hmq : ((max.natAbs : ℕ) : ℚ) = (max : ℚ) := by
      rw [Nat.cast_natAbs, abs_of_nonneg (by omega)]
    have hlo2 : ((2 : ℚ) ^ 21 - 1) * (150 * (-(v : ℚ)) * 2 ^ 149) ≤
        2 ^ 21 * ((w : ℚ) * (max : ℚ)) := by
      have := (Nat.cast_le (α := ℚ)).mpr hlow
      push_cast at this
      rw [hvq, hmq] at this
      norm_num
      norm_num at this
      exact this
    have hhi2 : (2 : ℚ) ^ 21 * ((w : ℚ) * (max : ℚ)) ≤
        (2 ^ 21 + 1) * (150 * (-(v : ℚ)) * 2 ^ 149) := by
      have := (Nat.cast_le (α := ℚ)).mpr hhi
      push_cast at this
      rw [hvq, hmq] at this
      norm_num
      norm_num at this
      exact this
    have hvneg : (v : ℚ) < 0 := by exact_mod_cast hneg
    have hU : (0 : ℚ) < 2 ^ 149 := by positivity
    have hx : 150 * (v : ℚ) / (max : ℚ) < 0 :=
      div_neg_of_neg_of_pos (by linarith) hmpos
    rw [abs_of_neg hx]
    have key : ((-(w : Int) : Int) : ℚ) / 2 ^ 149 - 150 * (v : ℚ) / (max : ℚ) =
        (150 * (-(v : ℚ)) * 2 ^ 149 - (w : ℚ) * (max : ℚ)) / (2 ^ 149 * (max : ℚ)) := by
      push_cast
      field_simp
      ring
    have key2 : -(150 * (v : ℚ) / (max : ℚ)) / 2 ^ 21 =
        (150 * (-(v : ℚ)) * 2 ^ 149 / 2 ^ 21) / (2 ^ 149 * (max : ℚ)) := by
      field_simp
      ring
    rw [key, key2, abs_div, abs_of_pos (mul_pos hU hmpos)]
    apply div_le_div_of_nonneg_right _ (le_of_lt (mul_pos hU hmpos))
    have h21 : (0 : ℚ) < 2 ^ 21 := by positivity
    have hd : 150 * (-(v : ℚ)) * 2 ^ 149 / 2 ^ 21 * 2 ^ 21 = 150 * (-(v : ℚ)) * 2 ^ 149 :=
      div_mul_cancel₀ _ (ne_of_gt h21)
    rw [abs_le]
    generalize 150 * (-(v : ℚ)) * 2 ^ 149 / 2 ^ 21 = d at hd ⊢
    constructor <;> linarith
  · subst hzero
    refine ⟨0, bar_width_zero max hpos hmax, ?_⟩
    simp
  · obtain ⟨w, hw, hnear⟩ := bar_width_near v max (by omega) hle hmax
    refine ⟨(w : Int), hw, ?_⟩
    have hvq : (0 : ℚ) < (v : ℚ) := by exact_mod_cast hvpos
    have hx : 0 ≤ 150 * (v : ℚ) / (max : ℚ) := by positivity
    rw [abs_of_nonneg hx, Int.cast_natCast]
    exact hnear

/-- The width expression of a positive value against itself is exactly 150. -/
theorem bar_width_self (max : Int) (hpos : 0 < max) (hmax : max ≤ INT_MAX) :
    bar_width max max = F32.ofInt 150 := by
  obtain ⟨hm, hmb⟩ := F32.ofInt_nonneg max (le_of_lt hpos) hmax
  have hm1 := F32.one_le_ofInt max (by omega)
  generalize F32.roundMag (max.natAbs * 2 ^ 149) 1 = b at hm hmb hm1
  have hbpos : 0 < b := lt_of_lt_of_le (by positivity) hm1
  have hq : F32.roundMag (b * 2 ^ 149) b = 2 ^ 149 := by
    rw [Nat.mul_comm]
    exact F32.roundMag_exact _ b hbpos F32.grid_one
  have hw : F32.roundMag (150 * 2 ^ 149 * 2 ^ 149) (2 ^ 149) = 150 * 2 ^ 149 :=
    F32.roundMag_exact _ (2 ^ 149) (by positivity) F32.grid_150
  unfold bar_width
  rw [hm, F32.div_fin_nat b b hbpos, F32.round_pos _ _ (by rw [hq]; norm_num), hq,
    F32.ofInt_150, F32.mul_fin_nat, F32.round_pos _ _ (by rw [hw]; norm_num), hw]

/-- Every bar of a ranked chart comes from the chart that was ranked, with its label,
category and value, and its value is at most that of the first bar. -/
theorem ranked_bar_origin (stdSort : List Bar → List Bar) (hs : SortsByCmpBar stdSort)
    (ds ds1 : Dataset) (chart ranked : BarChart)
    (h : push_a_chart stdSort ds chart = some (ds1, ranked))
    (first : Bar) (hfirst : ranked.bars.head? = some first) :
    (∀ b ∈ ranked.bars, b.width = bar_width b.value first.value ∧ b.value ≤ first.value ∧
      ∃ b0 ∈ chart.bars, b0.value = b.value ∧ b0.label = b.label ∧
        b0.category = b.category) ∧
    (∀ b0 ∈ chart.bars, b0.value ≤ first.value) := by
  obtain ⟨hle, x, rest, htk, hr⟩ := push_a_chart_some stdSort ds ds1 chart ranked h
  have hsorted : (stdSort chart.bars).Pairwise (fun a b => b.value ≤ a.value) :=
    (hs chart.bars).2.imp (fun {a b} hab => (cmp_bar_false_iff a b).mp hab)
  have hfx : first.value = x.value := by
    rw [hr] at hfirst
    simp only [List.map_cons, List.head?_cons, Option.some.injEq] at hfirst
    rw [← hfirst]
  have hmem_take : ∀ b ∈ x :: rest, b ∈ stdSort chart.bars := by
    intro b hb; rw [← htk] at hb; exact List.mem_of_mem_take hb
  have hxhead : ∀ b ∈ stdSort chart.bars, b.value ≤ x.value := by
    intro b hb
    cases hsb : stdSort chart.bars with
    | nil => rw [hsb] at hb; simp at hb
    | cons y ys =>
        rw [hsb] at htk hb hsorted
        cases hn : chart.n_bars with
        | zero => rw [hn] at htk; simp at htk
        | succ n =>
            rw [hn] at htk
            simp only [List.take_succ_cons, List.cons.injEq] at htk
            rw [← htk.1]
            rcases List.mem_cons.mp hb with hby | hby
            · rw [hby]
            · exact (List.pairwise_cons.mp hsorted).1 b hby
  constructor
  · intro b hb
    rw [hr] at hb
    simp only [List.mem_map] at hb
    obtain ⟨b0, hb0, rfl⟩ := hb
    have hb0s := hmem_take b0 hb0
    refine ⟨by rw [hfx], by rw [hfx]; exact hxhead b0 hb0s, b0, ?_, rfl, rfl, rfl⟩
    exact (hs chart.bars).1.subset hb0s
  · intro b0 hb0
    rw [hfx]
    exact hxhead b0 ((hs chart.bars).1.symm.subset hb0)

/-- C14 (amended): for every ranked chart (at least one bar) whose first bar has a positive
value, that value is the maximum of the values of the chart, and every bar's width is the
binary32 value of `150 * ( ( float ) value / ( float ) maxValue )` with
`maxValue = bars[0].value`: a finite number, not always equal to the rational number
`150 * value / maxValue` but within a relative error of `2^-21` of it (so exactly 0 for the
value 0), and the width of `bars[0]` is exactly 150. -/
theorem ranked_widths (stdSort : List Bar → List Bar) (hs : SortsByCmpBar stdSort)
    (ds ds1 : Dataset) (chart ranked : BarChart)
    (h : push_a_chart stdSort ds chart = some (ds1, ranked))
    (first : Bar) (hfirst : ranked.bars.head? = some first)
    (hpos : 0 < first.value) (hint : first.value ≤ INT_MAX)
    (hmin : ∀ b0 ∈ chart.bars, -2147483648 ≤ b0.value) :
    (∀ b0 ∈ chart.bars, b0.value ≤ first.value) ∧
    (∀ b ∈ ranked.bars, b.width = bar_width b.value first.value) ∧
    (∀ b ∈ ranked.bars, ∃ z : Int, b.width = F32.fin z ∧
      |(z : ℚ) / 2 ^ 149 - 150 * (b.value : ℚ) / (first.value : ℚ)| ≤
        |150 * (b.value : ℚ) / (first.value : ℚ)| / 2 ^ 21) ∧
    first.width = F32.ofInt 150 ∧
    F32.ofInt 150 = F32.fin (150 * 2 ^ 149) := by
  obtain ⟨hbars, hmax⟩ := ranked_bar_origin stdSort hs ds ds1 chart ranked h first hfirst
  have hmem : first ∈ ranked.bars := by
    cases hb : ranked.bars with
    | nil => rw [hb] at hfirst; simp at hfirst
    | cons y ys =>
        rw [hb] at hfirst
        simp only [List.head?_cons, Option.some.injEq] at hfirst
        rw [hfirst]; exact List.mem_cons_self _ _
  refine ⟨hmax, fun b hb => (hbars b hb).1, ?_, ?_, ?_⟩
  · intro b hb
    obtain ⟨hw, hle, b0, hb0, hv, _, _⟩ := hbars b hb
    rw [hw]
    exact bar_width_close b.value first.value (by rw [← hv]; exact hmin b0 hb0) hle hpos hint
  · rw [(hbars first hmem).1]
    exact bar_width_self first.value hpos hint
  · rw [F32.ofInt_150]; norm_num

set_option maxRecDepth 100000 in
/-- Instance of `ranked_widths` at `demoChart`: the first ranked bar, of value 9, has width
150. -/
theorem ranked_widths_witness :
    (∀ b0 ∈ demoChart.bars, -2147483648 ≤ b0.value) ∧
    (∀ b0 ∈ demoChart.bars, b0.value ≤ (9 : Int)) ∧
    (∀ b ∈ demoRanked.bars, b.width = bar_width b.value 9) ∧
    (∀ b ∈ demoRanked.bars, ∃ z : Int, b.width = F32.fin z ∧
      |(z : ℚ) / 2 ^ 149 - 150 * (b.value : ℚ) / ((9 : Int) : ℚ)| ≤
        |150 * (b.value : ℚ) / ((9 : Int) : ℚ)| / 2 ^ 21) ∧
    bar_width 9 9 = F32.ofInt 150 ∧
    F32.ofInt 150 = F32.fin (150 * 2 ^ 149) :=
  ⟨by decide,
    ranked_widths insertion_sort insertion_sort_contract Dataset.new _ demoChart demoRanked
      push_demoChart ⟨"b", "y", 9, bar_width 9 9⟩ rfl (by decide) (by decide) (by decide)⟩

set_option maxRecDepth 100000 in
/-- C14 (counterexample): in the ranked chart with values 25 and 21 the second bar has the
width `126 - 2^-17` (about 125.99999), while `150 * 21 / 25` is exactly 126: the quotient
`21 / 25` is not a binary32 value and is rounded before the product is taken. -/
theorem width_not_exact :
    push_a_chart insertion_sort Dataset.new (raw_chart [25, 21]) =
      some ({ Dataset.new with charts := [("t", ranked_chart [25, 21])] },
            ranked_chart [25, 21]) ∧
    (ranked_chart [25, 21]).bars.map Bar.width =
      [F32.fin (150 * 2 ^ 149), F32.fin ((126 * 2 ^ 17 - 1) * 2 ^ 132)] ∧
    (((126 * 2 ^ 17 - 1) * 2 ^ 132 : Int) : ℚ) / 2 ^ 149 = 126 - 1 / 2 ^ 17 ∧
    150 * (21 : ℚ) / 25 = 126 ∧
    bar_width 21 25 ≠ F32.ofInt 126 :=
  ⟨by rfl, by decide, by norm_num, by norm_num, by decide⟩

set_option maxRecDepth 100000 in
theorem ofInt_zero : F32.ofInt 0 = F32.fin 0 := by decide

/-- C15 (amended): for every ranked chart whose records carry only non-negative values and
whose first (maximum) value is positive, every bar's width `w` satisfies `0 <= w <= 150`. -/
theorem ranked_widths_bounded (stdSort : List Bar → List Bar) (hs : SortsByCmpBar stdSort)
    (ds ds1 : Dataset) (chart ranked : BarChart)
    (h : push_a_chart stdSort ds chart = some (ds1, ranked))
    (first : Bar) (hfirst : ranked.bars.head? = some first)
    (hnonneg : ∀ b0 ∈ chart.bars, 0 ≤ b0.value)
    (hpos : 0 < first.value) (hint : first.value ≤ INT_MAX) :
    ∀ b ∈ ranked.bars,
      F32.le (F32.ofInt 0) b.width = true ∧ F32.le b.width (F32.ofInt 150) = true := by
  obtain ⟨hbars, _⟩ := ranked_bar_origin stdSort hs ds ds1 chart ranked h first hfirst
  intro b hb
  obtain ⟨hw, hle, b0, hb0, hv, _, _⟩ := hbars b hb
  have h0 : 0 ≤ b.value := by rw [← hv]; exact hnonneg b0 hb0
  obtain ⟨w, hwe, hwb⟩ := bar_width_bounds b.value first.value h0 hle hpos hint
  rw [hw, hwe, ofInt_zero, F32.ofInt_150]
  constructor
  · simp only [F32.le, decide_eq_true_eq]
    exact Int.ofNat_nonneg w
  · simp only [F32.le, decide_eq_true_eq]
    exact Int.ofNat_le.mpr hwb

set_option maxRecDepth 100000 in
/-- Instance of `ranked_widths_bounded` at `demoChart`. -/
theorem ranked_widths_bounded_witness :
    (∀ b0 ∈ demoChart.bars, 0 ≤ b0.value) ∧
    ∀ b ∈ demoRanked.bars,
      F32.le (F32.ofInt 0) b.width = true ∧ F32.le b.width (F32.ofInt 150) = true :=
  ⟨by decide,
    ranked_widths_bounded insertion_sort insertion_sort_contract Dataset.new _ demoChart
      demoRanked push_demoChart ⟨"b", "y", 9, bar_width 9 9⟩ rfl (by decide) (by decide)
      (by decide)⟩

set_option maxRecDepth 100000 in
/-- C15 (counterexample): in the ranked chart with values 5 and -3 the second bar has width
-90, below 0; in the ranked chart with values -3 and -5 the second bar has width 250, above
150. -/
theorem widths_out_of_range :
    push_a_chart insertion_sort Dataset.new (raw_chart [5, -3]) =
      some ({ Dataset.new with charts := [("t", ranked_chart [5, -3])] },
            ranked_chart [5, -3]) ∧
    (ranked_chart [5, -3]).bars.map Bar.width =
      [F32.fin (150 * 2 ^ 149), F32.fin (-(90 * 2 ^ 149))] ∧
    F32.le (F32.ofInt 0) (F32.fin (-(90 * 2 ^ 149))) = false ∧
    push_a_chart insertion_sort Dataset.new (raw_chart [-3, -5]) =
      some ({ Dataset.new with charts := [("t", ranked_chart [-3, -5])] },
            ranked_chart [-3, -5]) ∧
    (ranked_chart [-3, -5]).bars.map Bar.width =
      [F32.fin (150 * 2 ^ 149), F32.fin (250 * 2 ^ 149)] ∧
    F32.le (F32.fin (250 * 2 ^ 149)) (F32.ofInt 150) = false :=
  ⟨by rfl, by decide, by decide, by rfl, by decide, by decide⟩

set_option maxRecDepth 100000 in
/-- C16 (failing input): in the ranked chart with values 0 and 0 the maximum is 0 and
`set_widths` evaluates `0 / 0`: both widths are NaN, not 0. With values 0 and -1 the
widths are NaN and minus infinity. -/
theorem zero_maximum_gives_nan :
    push_a_chart insertion_sort Dataset.new (raw_chart [0, 0]) =
      some ({ Dataset.new with charts := [("t", ranked_chart [0, 0])] },
            ranked_chart [0, 0]) ∧
    (ranked_chart [0, 0]).bars.map Bar.width = [F32.nan, F32.nan] ∧
    F32.nan ≠ F32.ofInt 0 ∧
    push_a_chart insertion_sort Dataset.new (raw_chart [0, -1]) =
      some ({ Dataset.new with charts := [("t", ranked_chart [0, -1])] },
            ranked_chart [0, -1]) ∧
    (ranked_chart [0, -1]).bars.map Bar.width = [F32.nan, F32.inf true] :=
  ⟨by rfl, by decide, by decide, by rfl, by decide⟩

/-! ## The insertion sort of `std::sort` -/

theorem cmp_bar_true_iff (a b : Bar) : cmp_bar a b = true ↔ b.value < a.value := by
  unfold cmp_bar
  simp only [gt_iff_lt, decide_eq_true_eq]

theorem std_linear_insert_loop_perm (val : Bar) :
    ∀ r : List Bar, (std_linear_insert_loop val r).Perm (val :: r)
  | [] => List.Perm.refl _
  | next :: before => by
      unfold std_linear_insert_loop
      by_cases h : cmp_bar val next = true
      · rw [if_pos h]
        exact ((std_linear_insert_loop_perm val before).cons next).trans
          (List.Perm.swap val next before)
      · rw [if_neg h]

/-- The loop of `std::__unguarded_linear_insert` keeps a range ordered (read backwards:
non-decreasing values). -/
theorem std_linear_insert_loop_sorted (val : Bar) :
    ∀ r : List Bar, r.Pairwise (fun a b => a.value ≤ b.value) →
      (std_linear_insert_loop val r).Pairwise (fun a b => a.value ≤ b.value)
  | [], _ => List.pairwise_singleton _ _
  | next :: before, h => by
      unfold std_linear_insert_loop
      obtain ⟨h1, h2⟩ := List.pairwise_cons.mp h
      by_cases hc : cmp_bar val next = true
      · rw [if_pos hc]
        have hlt := (cmp_bar_true_iff val next).mp hc
        refine List.pairwise_cons.mpr ⟨?_, std_linear_insert_loop_sorted val before h2⟩
        intro b hb
        rcases List.mem_cons.mp ((std_linear_insert_loop_perm val before).subset hb) with e | hb2
        · rw [e]; omega
        · exact h1 b hb2
      · rw [if_neg hc]
        have hle : val.value ≤ next.value := by
          rw [cmp_bar_true_iff] at hc; omega
        refine List.pairwise_cons.mpr ⟨?_, h⟩
        intro b hb
        rcases List.mem_cons.mp hb with e | hb2
        · rw [e]; exact hle
        · exact le_trans hle (h1 b hb2)

/-- The loop of `std::__unguarded_linear_insert` moves the value only past bars of another
value: the bars of any one value keep their order. -/
theorem std_linear_insert_loop_filter (val : Bar) (v : Int) :
    ∀ r : List Bar, (std_linear_insert_loop val r).filter (fun b => decide (b.value = v)) =
      (val :: r).filter (fun b => decide (b.value = v))
  | [] => rfl
  | next :: before => by
      unfold std_linear_insert_loop
      by_cases hc : cmp_bar val next = true
      · rw [if_pos hc]
        have hlt := (cmp_bar_true_iff val next).mp hc
        have ih := std_linear_insert_loop_filter val v before
        by_cases hv : val.value = v
        · have hn : ¬ next.value = v := by omega
          simp only [List.filter_cons, hv, hn, decide_True, decide_False, if_true] at ih ⊢
          simpa using ih
        · simp only [List.filter_cons, hv, decide_False] at ih ⊢
          simp only [ih]
          simp
      · rw [if_neg hc]

/-- The order of a range: no bar is ordered by `cmp_bar` before a bar that precedes it. -/
theorem ordered_iff (l : List Bar) :
    l.Pairwise (fun a b => cmp_bar b a = false) ↔ l.Pairwise (fun a b => b.value ≤ a.value) :=
  ⟨fun h => h.imp (fun {a b} hab => (cmp_bar_false_iff a b).mp hab),
   fun h => h.imp (fun {a b} hab => (cmp_bar_false_iff a b).mpr hab)⟩

theorem std_insertion_step_perm (sorted : List Bar) (val : Bar) :
    (std_insertion_step sorted val).Perm (sorted ++ [val]) := by
  have hswap : (val :: sorted).Perm (sorted ++ [val]) := by
    rw [← List.singleton_append]
    exact List.perm_append_comm
  cases sorted with
  | nil => exact List.Perm.refl _
  | cons first rest =>
      unfold std_insertion_step
      simp only
      by_cases hc : cmp_bar val first = true
      · rw [if_pos hc]; exact hswap
      · rw [if_neg hc]
        unfold std_unguarded_linear_insert
        refine ((List.reverse_perm _).trans (std_linear_insert_loop_perm val _)).trans ?_
        exact ((List.reverse_perm _).cons val).trans hswap

theorem std_insertion_step_sorted (sorted : List Bar) (val : Bar)
    (h : sorted.Pairwise (fun a b => b.value ≤ a.value)) :
    (std_insertion_step sorted val).Pairwise (fun a b => b.value ≤ a.value) := by
  cases sorted with
  | nil => exact List.pairwise_singleton _ _
  | cons first rest =>
      unfold std_insertion_step
      simp only
      by_cases hc : cmp_bar val first = true
      · rw [if_pos hc]
        have hlt := (cmp_bar_true_iff val first).mp hc
        refine List.pairwise_cons.mpr ⟨?_, h⟩
        intro b hb
        rcases List.mem_cons.mp hb with e | hb2
        · rw [e]; omega
        · have := (List.pairwise_cons.mp h).1 b hb2
          omega
      · rw [if_neg hc]
        unfold std_unguarded_linear_insert
        rw [List.pairwise_reverse]
        apply std_linear_insert_loop_sorted
        rw [List.pairwise_reverse]
        exact h

theorem std_insertion_step_filter (sorted : List Bar) (val : Bar) (v : Int)
    (h : sorted.Pairwise (fun a b => b.value ≤ a.value)) :
    (std_insertion_step sorted val).filter (fun b => decide (b.value = v)) =
      (sorted ++ [val]).filter (fun b => decide (b.value = v)) := by
  cases sorted with
  | nil => rfl
  | cons first rest =>
      unfold std_insertion_step
      simp only
      by_cases hc : cmp_bar val first = true
      · rw [if_pos hc]
        have hlt := (cmp_bar_true_iff val first).mp hc
        by_cases hv : val.value = v
        · have hnone : (first :: rest).filter (fun b => decide (b.value = v)) = [] := by
            rw [List.filter_eq_nil_iff]
            intro b hb
            have hle : b.value ≤ first.value := by
              rcases List.mem_cons.mp hb with e | hb2
              · rw [e]
              · exact (List.pairwise_cons.mp h).1 b hb2
            simp only [decide_eq_true_eq]
            omega
          rw [List.filter_append, hnone, List.filter_cons, hnone]
          simp [hv]
        · rw [List.filter_append, List.filter_cons]
          simp [hv]
      · rw [if_neg hc]
        unfold std_unguarded_linear_insert
        rw [List.filter_reverse, std_linear_insert_loop_filter, ← List.filter_reverse]
        simp

/-- The state of `std::__insertion_sort` after any number of iterations. -/
theorem std_insertion_fold (l : List Bar) :
    ∀ acc : List Bar, acc.Pairwise (fun a b => b.value ≤ a.value) →
      (l.foldl std_insertion_step acc).Perm (acc ++ l) ∧
      (l.foldl std_insertion_step acc).Pairwise (fun a b => b.value ≤ a.value) ∧
      (∀ v : Int, (l.foldl std_insertion_step acc).filter (fun b => decide (b.value = v)) =
        (acc ++ l).filter (fun b => decide (b.value = v))) ∧
      ((acc ++ l).Pairwise (fun a b => b.value ≤ a.value) →
        l.foldl std_insertion_step acc = acc ++ l) := by
  induction l with
  | nil =>
      intro acc h
      rw [List.foldl_nil, List.append_nil]
      exact ⟨List.Perm.refl _, h, fun _ => rfl, fun _ => rfl⟩
  | cons x xs ih =>
      intro acc h
      simp only [List.foldl_cons]
      have hs := std_insertion_step_sorted acc x h
      obtain ⟨ip, is, ifl, ifix⟩ := ih (std_insertion_step acc x) hs
      have hax : acc ++ x :: xs = (acc ++ [x]) ++ xs := by simp
      refine ⟨?_, is, ?_, ?_⟩
      · rw [hax]
        exact ip.trans ((std_insertion_step_perm acc x).append_right xs)
      · intro v
        rw [ifl v, hax, List.filter_append, List.filter_append,
          std_insertion_step_filter acc x v h]
      · intro hord
        rw [hax] at hord
        have hstep : std_insertion_step acc x = acc ++ [x] := by
          have hpre : (acc ++ [x]).Pairwise (fun a b => b.value ≤ a.value) :=
            (List.pairwise_append.mp hord).1
          cases acc with
          | nil => rfl
          | cons first rest =>
              have hxle : ∀ b ∈ first :: rest, x.value ≤ b.value := by
                intro b hb
                exact (List.pairwise_append.mp hpre).2.2 b hb x (List.mem_singleton_self x)
              unfold std_insertion_step
              simp only
              have hc : ¬ cmp_bar x first = true := by
                rw [cmp_bar_true_iff]
                have := hxle first (List.mem_cons_self _ _)
                omega
              rw [if_neg hc]
              unfold std_unguarded_linear_insert
              cases hr : (first :: rest).reverse with
              | nil => simp at hr
              | cons p ps =>
                  have hp : p ∈ first :: rest := by
                    rw [← List.mem_reverse, hr]; exact List.mem_cons_self _ _
                  have hcp : ¬ cmp_bar x p = true := by
                    rw [cmp_bar_true_iff]
                    have := hxle p hp
                    omega
                  unfold std_linear_insert_loop
                  rw [if_neg hcp, ← hr]
                  simp
        rw [hstep] at ifix ⊢
        rw [hax]
        exact ifix hord

/-- The function `std::__insertion_sort` meets the contract of `std::sort`. -/
theorem std_insertion_sort_contract : SortsByCmpBar std_insertion_sort := by
  intro l
  obtain ⟨hp, hs, _, _⟩ := std_insertion_fold l [] List.Pairwise.nil
  exact ⟨by simpa using hp, (ordered_iff _).mpr hs⟩

/-- The function `std::__insertion_sort` is stable: the bars of any one value keep their
order. -/
theorem std_insertion_sort_stable (l : List Bar) (v : Int) :
    (std_insertion_sort l).filter (fun b => decide (b.value = v)) =
      l.filter (fun b => decide (b.value = v)) := by
  obtain ⟨_, _, hf, _⟩ := std_insertion_fold l [] List.Pairwise.nil
  simpa using hf v

/-- The function `std::__insertion_sort` leaves an ordered range as it is. -/
theorem std_insertion_sort_ordered (l : List Bar)
    (h : l.Pairwise (fun a b => b.value ≤ a.value)) : std_insertion_sort l = l := by
  obtain ⟨_, _, _, hfix⟩ := std_insertion_fold l [] List.Pairwise.nil
  simpa using hfix (by simpa using h)

/-- On a range of at most 16 elements `std::sort` is `std::__insertion_sort`. -/
theorem std_sort_small (l : List Bar) (h : l.length ≤ 16) : std_sort l = std_insertion_sort l := by
  unfold std_sort
  cases l with
  | nil => rfl
  | cons x xs =>
      simp only [List.isEmpty_cons, Bool.false_eq_true, if_false]
      have hloop : std_introsort_loop (std_lg (x :: xs).length * 2) (x :: xs) 0
          (x :: xs).length = x :: xs := by
        cases std_lg (x :: xs).length * 2 with
        | zero => unfold std_introsort_loop; rw [if_neg (by omega)]
        | succ d => unfold std_introsort_loop; rw [if_neg (by omega)]
      rw [hloop]
      unfold std_final_insertion_sort
      rw [if_neg (by omega)]

/-! ## Bars of equal value -/

/-- Two orderings of the same bars by non-increasing value carry the same sequence of
values. -/
theorem sorted_values_unique (l1 l2 : List Bar) (hp : l1.Perm l2)
    (h1 : l1.Pairwise (fun a b => b.value ≤ a.value))
    (h2 : l2.Pairwise (fun a b => b.value ≤ a.value)) :
    l1.map Bar.value = l2.map Bar.value := by
  have hs1 : (l1.map Bar.value).Sorted (· ≥ ·) :=
    List.pairwise_map.mpr (h1.imp (fun {a b} h => h))
  have hs2 : (l2.map Bar.value).Sorted (· ≥ ·) :=
    List.pairwise_map.mpr (h2.imp (fun {a b} h => h))
  exact List.eq_of_perm_of_sorted (hp.map Bar.value) hs1 hs2

/-- Two orderings of the same bars by non-increasing value are equal when the values are
pairwise distinct. -/
theorem sorted_unique_of_nodup (l1 l2 : List Bar) (hp : l1.Perm l2)
    (h1 : l1.Pairwise (fun a b => b.value ≤ a.value))
    (h2 : l2.Pairwise (fun a b => b.value ≤ a.value))
    (hn : (l1.map Bar.value).Nodup) : l1 = l2 := by
  haveI : IsAntisymm Bar (fun a b => b.value < a.value) :=
    ⟨fun a b hab hba => absurd hab (not_lt.mpr (le_of_lt hba))⟩
  have hn2 : (l2.map Bar.value).Nodup := (hp.map Bar.value).nodup_iff.mp hn
  have hd1 : l1.Pairwise (fun a b => a.value ≠ b.value) := List.pairwise_map.mp hn
  have hd2 : l2.Pairwise (fun a b => a.value ≠ b.value) := List.pairwise_map.mp hn2
  have hs1 : l1.Sorted (fun a b => b.value < a.value) :=
    (h1.and hd1).imp (fun {a b} h => lt_of_le_of_ne h.1 (Ne.symm h.2))
  have hs2 : l2.Sorted (fun a b => b.value < a.value) :=
    (h2.and hd2).imp (fun {a b} h => lt_of_le_of_ne h.1 (Ne.symm h.2))
  exact List.eq_of_perm_of_sorted hp hs1 hs2

/-- C17 (amended): `sort_bars` keeps every bar (the sorted vector is a permutation of the
pushed one, timestamp and limit untouched) and puts any two bars of different value in the
order of their values, the greater first. When `std::sort` is the one of libstdc++, which
runs `std::__insertion_sort` on a range of at most 16 elements, a chart of at most 16 bars is
sorted stably: for every value, the bars of that value keep the order in which they were
pushed. When all values are pairwise distinct the result does not depend on the
implementation of `std::sort`. -/
theorem sort_bars_orders_by_value (stdSort : List Bar → List Bar) (hs : SortsByCmpBar stdSort)
    (c : BarChart) :
    (sort_bars stdSort c).bars.Perm c.bars ∧
    (sort_bars stdSort c).timestamp = c.timestamp ∧
    (sort_bars stdSort c).n_bars = c.n_bars ∧
    (∀ (i j : Nat) (a b : Bar), i < j → (sort_bars stdSort c).bars[i]? = some a →
      (sort_bars stdSort c).bars[j]? = some b → a.value ≥ b.value) ∧
    ((∀ l : List Bar, l.length ≤ 16 → stdSort l = std_sort l) → c.bars.length ≤ 16 →
      ∀ v : Int, (sort_bars stdSort c).bars.filter (fun b => decide (b.value = v)) =
        c.bars.filter (fun b => decide (b.value = v))) ∧
    (∀ stdSort2 : List Bar → List Bar, SortsByCmpBar stdSort2 →
      (c.bars.map Bar.value).Nodup → sort_bars stdSort2 c = sort_bars stdSort c) := by
  have hsorted : ∀ s : List Bar → List Bar, SortsByCmpBar s →
      (s c.bars).Pairwise (fun a b => b.value ≤ a.value) :=
    fun s h => (h c.bars).2.imp (fun {a b} hab => (cmp_bar_false_iff a b).mp hab)
  refine ⟨(hs c.bars).1, rfl, rfl, ?_, ?_, ?_⟩
  · intro i j a b hij ha hb
    obtain ⟨hi, rfl⟩ := List.getElem?_eq_some_iff.mp ha
    obtain ⟨hj, rfl⟩ := List.getElem?_eq_some_iff.mp hb
    exact List.pairwise_iff_getElem.mp (hsorted stdSort hs) i j hi hj hij
  · intro hlib hlen v
    unfold sort_bars
    simp only
    rw [hlib c.bars hlen, std_sort_small c.bars hlen]
    exact std_insertion_sort_stable c.bars v
  · intro s2 hs2 hn
    unfold sort_bars
    have hp : (s2 c.bars).Perm (stdSort c.bars) := (hs2 c.bars).1.trans (hs c.bars).1.symm
    have hn2 : ((s2 c.bars).map Bar.value).Nodup :=
      (((hs2 c.bars).1).map Bar.value).nodup_iff.mpr hn
    rw [sorted_unique_of_nodup _ _ hp (hsorted s2 hs2) (hsorted stdSort hs) hn2]

/-- Instance of `sort_bars_orders_by_value` at `demoChart` (bars `a`, `b`, `c` of values 5,
9, 5) with `std::__insertion_sort`: the sorted bars are `b`, `a`, `c`. -/
theorem sort_bars_orders_by_value_witness :
    (SortsByCmpBar std_insertion_sort ∧
     (∀ l : List Bar, l.length ≤ 16 → std_insertion_sort l = std_sort l) ∧
     demoChart.bars.length ≤ 16) ∧
    (sort_bars std_insertion_sort demoChart).bars.map Bar.label = ["b", "a", "c"] ∧
    (sort_bars std_insertion_sort demoChart).bars.Perm demoChart.bars ∧
    (sort_bars std_insertion_sort demoChart).timestamp = demoChart.timestamp ∧
    (sort_bars std_insertion_sort demoChart).n_bars = demoChart.n_bars ∧
    (∀ (i j : Nat) (a b : Bar), i < j →
      (sort_bars std_insertion_sort demoChart).bars[i]? = some a →
      (sort_bars std_insertion_sort demoChart).bars[j]? = some b → a.value ≥ b.value) ∧
    ((∀ l : List Bar, l.length ≤ 16 → std_insertion_sort l = std_sort l) →
      demoChart.bars.length ≤ 16 →
      ∀ v : Int,
        (sort_bars std_insertion_sort demoChart).bars.filter (fun b => decide (b.value = v)) =
          demoChart.bars.filter (fun b => decide (b.value = v))) ∧
    (∀ stdSort2 : List Bar → List Bar, SortsByCmpBar stdSort2 →
      (demoChart.bars.map Bar.value).Nodup →
        sort_bars stdSort2 demoChart = sort_bars std_insertion_sort demoChart) :=
  ⟨⟨std_insertion_sort_contract, fun l h => (std_sort_small l h).symm, by decide⟩, by decide,
    sort_bars_orders_by_value std_insertion_sort std_insertion_sort_contract demoChart⟩

set_option maxRecDepth 100000 in
/-- C17 (counterexample): a group of 17 bars of equal value 5, pushed in the order `a` to
`q`. With the `std::sort` of libstdc++ the sorted bars are `i q p o n m l k j a h g f e d c
b`: the bar `i` comes before the bar `a`, which was pushed first. Loaded by `get_data` with
the limit 15, the chart stored keeps the first 15 of them and drops `c` and `b`. -/
theorem sort_bars_not_stable :
    seventeen_equal.bars.map Bar.label =
      ["a", "b", "c", "d", "e", "f", "g", "h", "i", "j", "k", "l", "m", "n", "o", "p", "q"] ∧
    seventeen_equal.bars.map Bar.value = List.replicate 17 5 ∧
    (sort_bars std_sort seventeen_equal).bars.map Bar.label =
      ["i", "q", "p", "o", "n", "m", "l", "k", "j", "a", "h", "g", "f", "e", "d", "c", "b"] ∧
    (get_data std_sort (0, F32.nan) Dataset.new 15
      (header_lines ++ ["17"] ++ seventeen_lines ++ [""])).handed = [seventeen_equal] ∧
    (get_data std_sort (0, F32.nan) Dataset.new 15
      (header_lines ++ ["17"] ++ seventeen_lines ++ [""])).outcome = some true ∧
    (get_data std_sort (0, F32.nan) Dataset.new 15
      (header_lines ++ ["17"] ++ seventeen_lines ++ [""])).ds.charts.map
        (fun e => (e.1, e.2.bars.map Bar.label)) =
      [("2000", ["i", "q", "p", "o", "n", "m", "l", "k", "j", "a", "h", "g", "f", "e", "d"])] :=
  ⟨by decide, by decide, by decide, by decide, by decide, by decide⟩

/-! ## Ranking a ranked chart again -/

/-- What the contract of `std::sort` alone gives for a second ranking: applying
`push_a_chart` to an already ranked chart completes and leaves its length, its sequence of
values and its sequence of widths unchanged; the bars are the same bars, reordered at most
among bars of equal value; and the chart is left exactly as it is when its values are
pairwise distinct or when `std::sort` leaves the already ordered vector as it is. -/
theorem rerank_ranked (stdSort : List Bar → List Bar) (hs : SortsByCmpBar stdSort)
    (ds ds1 ds2 : Dataset) (chart ranked : BarChart)
    (h : push_a_chart stdSort ds chart = some (ds1, ranked)) :
    ∃ ranked2 ds3, push_a_chart stdSort ds2 ranked = some (ds3, ranked2) ∧
      ranked2.bars.length = ranked.bars.length ∧
      ranked2.bars.map Bar.value = ranked.bars.map Bar.value ∧
      ranked2.bars.map Bar.width = ranked.bars.map Bar.width ∧
      ranked2.bars.Perm ranked.bars ∧
      ranked2.timestamp = ranked.timestamp ∧ ranked2.n_bars = ranked.n_bars ∧
      ((ranked.bars.map Bar.value).Nodup ∨ stdSort ranked.bars = ranked.bars →
        ranked2 = ranked) := by
  obtain ⟨hle, x, rest, htk, hr⟩ := push_a_chart_some stdSort ds ds1 chart ranked h
  have hRsorted := ranked_pairwise stdSort hs ds ds1 chart ranked h
  have hlen : ranked.bars.length = ranked.n_bars := by
    rw [hr]
    simp only [List.length_map]
    rw [← htk, List.length_take]
    omega
  have hwidth : ∀ b ∈ ranked.bars, b.width = bar_width b.value x.value := by
    intro b hb
    rw [hr] at hb
    simp only [List.mem_map] at hb
    obtain ⟨b0, _, rfl⟩ := hb
    simp only
  have hhead : ranked.bars.head? = some { x with width := bar_width x.value x.value } := by
    rw [hr]; rfl
  -- the second sort
  have hSperm := (hs ranked.bars).1
  have hSsorted : (stdSort ranked.bars).Pairwise (fun a b => b.value ≤ a.value) :=
    (hs ranked.bars).2.imp (fun {a b} hab => (cmp_bar_false_iff a b).mp hab)
  have hSlen : (stdSort ranked.bars).length = ranked.n_bars := by
    rw [hSperm.length_eq]; exact hlen
  have hvals := sorted_values_unique _ _ hSperm hSsorted hRsorted
  have h0 : 0 < ranked.n_bars := by
    rw [← hlen, hr]; simp
  obtain ⟨⟨ds3, ranked2⟩, h2⟩ := push_a_chart_total stdSort hs ds2 ranked h0 (by omega)
  obtain ⟨_, y, rest2, htk2, hr2⟩ := push_a_chart_some stdSort ds2 ds3 ranked ranked2 h2
  have htakeall : (stdSort ranked.bars).take ranked.n_bars = stdSort ranked.bars := by
    rw [← hSlen, List.take_length]
  rw [htakeall] at htk2
  -- the first value is the same
  have hyx : y.value = x.value := by
    have := congrArg List.head? hvals
    rw [htk2, hr] at this
    simpa using this
  -- the second `set_widths` writes the widths that are already there
  have hfix : (y :: rest2).map
      (fun bar => ({ bar with width := bar_width bar.value y.value } : Bar)) = y :: rest2 := by
    have hmap : ∀ b ∈ y :: rest2,
        ({ b with width := bar_width b.value y.value } : Bar) = b := by
      intro b hb
      have hbR : b ∈ ranked.bars := hSperm.subset (by rw [htk2]; exact hb)
      have := hwidth b hbR
      rw [hyx, ← this]
    calc (y :: rest2).map (fun bar => ({ bar with width := bar_width bar.value y.value } : Bar))
        = (y :: rest2).map id := List.map_congr_left (fun b hb => hmap b hb)
      _ = y :: rest2 := List.map_id _
  have hbars2 : ranked2.bars = stdSort ranked.bars := by
    rw [hr2]
    simp only
    rw [hfix, htk2]
  refine ⟨ranked2, ds3, h2, ?_, ?_, ?_, ?_, ?_, ?_, ?_⟩
  · rw [hbars2, hSperm.length_eq]
  · rw [hbars2]; exact hvals
  · rw [hbars2]
    have e1 : (stdSort ranked.bars).map Bar.width =
        ((stdSort ranked.bars).map Bar.value).map (fun v => bar_width v x.value) := by
      rw [List.map_map]
      apply List.map_congr_left
      intro b hb
      simp only [Function.comp_apply]
      exact hwidth b (hSperm.subset hb)
    have e2 : ranked.bars.map Bar.width =
        (ranked.bars.map Bar.value).map (fun v => bar_width v x.value) := by
      rw [List.map_map]
      apply List.map_congr_left
      intro b hb
      simp only [Function.comp_apply]
      exact hwidth b hb
    rw [e1, e2, hvals]
  · rw [hbars2]; exact hSperm
  · rw [hr2]
  · rw [hr2]
  · intro hcase
    have hSR : stdSort ranked.bars = ranked.bars := by
      rcases hcase with hn | hfixed
      · apply sorted_unique_of_nodup _ _ hSperm hSsorted hRsorted
        rw [hvals]; exact hn
      · exact hfixed
    have hb := hbars2
    rw [hSR] at hb
    have e3 : ranked2.timestamp = ranked.timestamp := by rw [hr2]
    have e4 : ranked2.n_bars = ranked.n_bars := by rw [hr2]
    cases ranked2
    cases ranked
    simp only at hb e3 e4
    rw [hb, e3, e4]

/-- The limit that `tune_options` leaves is at most 15. -/
theorem tune_max_bar_le (max_bar : Nat) : tune_max_bar max_bar ≤ 15 := by
  unfold tune_max_bar
  by_cases h : max_bar > 15
  · rw [if_pos h]
  · rw [if_neg h]; omega

/-- C18: ranking is idempotent. For a chart whose limit is at most 16 (the program's limit
is at most 15 after `tune_options`), with a `std::sort` that meets its contract and that on
a range of at most 16 elements is the one of libstdc++ (`std::__insertion_sort`): applying
`push_a_chart` to the ranked chart completes and gives back the same chart, bar for bar in
order, length and widths, with its timestamp and limit; whatever is computed from the chart,
such as the text rendered, is therefore the same. -/
theorem rerank_unchanged (stdSort : List Bar → List Bar) (hs : SortsByCmpBar stdSort)
    (hlib : ∀ l : List Bar, l.length ≤ 16 → stdSort l = std_sort l)
    (ds ds1 ds2 : Dataset) (chart ranked : BarChart)
    (h : push_a_chart stdSort ds chart = some (ds1, ranked)) (hn : chart.n_bars ≤ 16) :
    push_a_chart stdSort ds2 ranked =
      some ({ ds2 with charts := (mapInsert ds2.charts ranked.timestamp ranked).1 }, ranked) := by
  obtain ⟨hle, x, rest, htk, hr⟩ := push_a_chart_some stdSort ds ds1 chart ranked h
  have hRsorted := ranked_pairwise stdSort hs ds ds1 chart ranked h
  have hlen : ranked.bars.length ≤ 16 := by
    rw [hr]
    simp only [List.length_map]
    rw [← htk, List.length_take]
    omega
  have hfixed : stdSort ranked.bars = ranked.bars := by
    rw [hlib ranked.bars hlen, std_sort_small ranked.bars hlen]
    exact std_insertion_sort_ordered ranked.bars hRsorted
  obtain ⟨ranked2, ds3, h2, _, _, _, _, _, _, hsame⟩ :=
    rerank_ranked stdSort hs ds ds1 ds2 chart ranked h
  have he : ranked2 = ranked := hsame (Or.inr hfixed)
  subst he
  rw [h2]
  unfold push_a_chart at h2
  cases hp : purge_bars (sort_bars stdSort ranked2) with
  | none => rw [hp] at h2; simp at h2
  | some purged =>
      rw [hp] at h2
      simp only at h2
      cases hw : set_widths purged with
      | none => rw [hw] at h2; simp at h2
      | some r =>
          rw [hw] at h2
          simp only [Option.some.injEq, Prod.mk.injEq] at h2
          rw [← h2.1, h2.2]

set_option maxRecDepth 100000 in
/-- The ranking of `demoChart` with `std::__insertion_sort`. -/
theorem push_demoChart_std :
    push_a_chart std_insertion_sort Dataset.new demoChart =
      some ({ Dataset.new with charts := [("t", demoRanked)] }, demoRanked) := by
  rfl

set_option maxRecDepth 100000 in
/-- Instance of `rerank_unchanged`: ranking `demoRanked` again gives `demoRanked`. -/
theorem rerank_unchanged_witness :
    (SortsByCmpBar std_insertion_sort ∧
     (∀ l : List Bar, l.length ≤ 16 → std_insertion_sort l = std_sort l) ∧
     push_a_chart std_insertion_sort Dataset.new demoChart =
       some ({ Dataset.new with charts := [("t", demoRanked)] }, demoRanked) ∧
     demoChart.n_bars ≤ 16) ∧
    push_a_chart std_insertion_sort Dataset.new demoRanked =
      some ({ Dataset.new with
              charts := (mapInsert Dataset.new.charts demoRanked.timestamp demoRanked).1 },
            demoRanked) :=
  ⟨⟨std_insertion_sort_contract, fun l h => (std_sort_small l h).symm, push_demoChart_std,
    by decide⟩,
    rerank_unchanged std_insertion_sort std_insertion_sort_contract
      (fun l h => (std_sort_small l h).symm) Dataset.new _ Dataset.new demoChart demoRanked
      push_demoChart_std (by decide)⟩

/-! ## The limit of the charts that `get_data` builds -/

theorem read_field_n_bars (pos : Nat) (str : String) (st r : Dataset × BarChart × Bar)
    (h : read_field pos str st = some r) : r.2.1.n_bars = st.2.1.n_bars := by
  unfold read_field at h
  by_cases h0 : pos = 0
  · rw [if_pos h0] at h; simp only [Option.some.injEq] at h; rw [← h]
  · rw [if_neg h0] at h
    by_cases h1 : pos = 1
    · rw [if_pos h1] at h; simp only [Option.some.injEq] at h; rw [← h]
    · rw [if_neg h1] at h
      by_cases h3 : pos = 3
      · rw [if_pos h3] at h
        cases hs : stoi str with
        | none => rw [hs] at h; simp at h
        | some v => rw [hs] at h; simp only [Option.map_some', Option.some.injEq] at h; rw [← h]
      · rw [if_neg h3] at h
        by_cases h4 : pos = 4
        · rw [if_pos h4] at h; simp only [Option.some.injEq] at h; rw [← h]
        · rw [if_neg h4] at h; simp only [Option.some.injEq] at h; rw [← h]

theorem read_fields_n_bars : ∀ (toks : List String) (pos : Nat) (st r : Dataset × BarChart × Bar),
    read_fields toks pos st = some r → r.2.1.n_bars = st.2.1.n_bars
  | [], _, st, r, h => by
      unfold read_fields at h
      simp only [Option.some.injEq] at h
      rw [h]
  | str :: rest, pos, st, r, h => by
      unfold read_fields at h
      cases hf : read_field pos str st with
      | none => rw [hf] at h; simp at h
      | some st1 =>
          rw [hf] at h
          simp only [Option.some_bind] at h
          rw [read_fields_n_bars rest (pos + 1) st1 r h, read_field_n_bars pos str st st1 hf]

theorem push_a_chart_n_bars (stdSort : List Bar → List Bar) (ds ds1 : Dataset)
    (chart ranked : BarChart) (h : push_a_chart stdSort ds chart = some (ds1, ranked)) :
    ranked.n_bars = chart.n_bars := by
  obtain ⟨_, _, _, _, hr⟩ := push_a_chart_some stdSort ds ds1 chart ranked h
  rw [hr]

/-- Every chart that the loop of `get_data` hands to `push_a_chart` has a limit of at most
`max_bar`. -/
theorem get_data_loop_limit (stdSort : List Bar → List Bar) (junk : Int × F32)
    (max_bar : Nat) :
    ∀ (lines : List String) (ds : Dataset) (chart : Option BarChart) (stored : Bool)
      (n_bars : Int) (handed : List BarChart),
      (∀ c, chart = some c → c.n_bars ≤ max_bar) → (∀ c ∈ handed, c.n_bars ≤ max_bar) →
      ∀ c ∈ (get_data_loop stdSort junk max_bar lines ds chart stored n_bars handed).handed,
        c.n_bars ≤ max_bar := by
  intro lines
  induction lines with
  | nil =>
      intro ds chart stored n_bars handed _ hh c hc
      unfold get_data_loop at hc
      exact hh c hc
  | cons line rest ih =>
      intro ds chart stored n_bars handed hchart hh c hc
      have hnew : ∀ (n : Int) (c : BarChart),
          some ({ bars := [], timestamp := "",
                  n_bars := if max_bar > to_unsigned n then to_unsigned n else max_bar } :
                BarChart) = some c → c.n_bars ≤ max_bar := by
        intro n c hc
        simp only [Option.some.injEq] at hc
        rw [← hc]
        simp only
        split <;> omega
      have hsnoc : ∀ x : BarChart, x.n_bars ≤ max_bar →
          ∀ c ∈ handed ++ [x], c.n_bars ≤ max_bar := by
        intro x hx c hc
        rcases List.mem_append.mp hc with h1 | h1
        · exact hh c h1
        · rw [List.mem_singleton.mp h1]; exact hx
      cases chart with
      | none =>
          unfold get_data_loop at hc
          by_cases h1 : line = "" ∧ n_bars > 0
          · rw [if_pos h1] at hc; exact hh c hc
          · rw [if_neg h1] at hc
            by_cases h2 : line = "" ∧ (none : Option BarChart) = none
            · rw [if_pos h2] at hc; exact ih _ _ _ _ _ hchart hh c hc
            · rw [if_neg h2] at hc
              by_cases h3 : n_bars = 0
              · rw [if_pos h3] at hc
                simp only at hc
                by_cases h4 : line = ""
                · rw [if_pos h4] at hc; exact ih _ _ _ _ _ hchart hh c hc
                · rw [if_neg h4] at hc
                  cases hs : stoi line with
                  | none => rw [hs] at hc; exact hh c hc
                  | some n => rw [hs] at hc; exact ih _ _ _ _ _ (hnew n) hh c hc
              · rw [if_neg h3] at hc; exact hh c hc
      | some c0 =>
          have hc0 : c0.n_bars ≤ max_bar := hchart c0 rfl
          unfold get_data_loop at hc
          by_cases h1 : line = "" ∧ n_bars > 0
          · rw [if_pos h1] at hc; exact hh c hc
          · rw [if_neg h1] at hc
            have h2 : ¬ (line = "" ∧ some c0 = none) := by
              intro h; exact Option.some_ne_none c0 h.2
            rw [if_neg h2] at hc
            by_cases h3 : n_bars = 0
            · rw [if_pos h3] at hc
              simp only at hc
              cases hpush : push_a_chart stdSort ds c0 with
              | none => rw [hpush] at hc; exact hsnoc c0 hc0 c hc
              | some r =>
                  obtain ⟨ds1, ranked⟩ := r
                  rw [hpush] at hc
                  simp only at hc
                  have hr : ranked.n_bars ≤ max_bar := by
                    rw [push_a_chart_n_bars stdSort ds ds1 c0 ranked hpush]; exact hc0
                  by_cases h4 : line = ""
                  · rw [if_pos h4] at hc
                    refine ih _ _ _ _ _ ?_ (hsnoc c0 hc0) c hc
                    intro c1 h5
                    simp only [Option.some.injEq] at h5
                    rw [← h5]; exact hr
                  · rw [if_neg h4] at hc
                    cases hs : stoi line with
                    | none => rw [hs] at hc; exact hsnoc c0 hc0 c hc
                    | some n =>
                        rw [hs] at hc
                        exact ih _ _ _ _ _ (hnew n) (hsnoc c0 hc0) c hc
            · rw [if_neg h3] at hc
              simp only at hc
              cases hread : read_fields (split_fields line.data []) 0
                  (ds, c0, { label := "", category := "", value := junk.1, width := junk.2 }) with
              | none => rw [hread] at hc; exact hh c hc
              | some r =>
                  obtain ⟨ds1, c1, bar⟩ := r
                  rw [hread] at hc
                  simp only at hc
                  by_cases h6 : n_bars - 1 < -2147483648
                  · rw [if_pos h6] at hc; exact hh c hc
                  · rw [if_neg h6] at hc
                    refine ih _ _ _ _ _ ?_ hh c hc
                    intro c2 h7
                    simp only [Option.some.injEq] at h7
                    rw [← h7]
                    have := read_fields_n_bars _ _ _ _ hread
                    simp only at this
                    unfold push_a_bar
                    simp only
                    omega

/-- Every chart that `get_data` hands to `push_a_chart` has a limit of at most `max_bar`,
hence of at most 15 when `max_bar` comes from `tune_options`. -/
theorem get_data_limit (stdSort : List Bar → List Bar) (junk : Int × F32) (ds : Dataset)
    (max_bar : Nat) (lines : List String) :
    ∀ c ∈ (get_data stdSort junk ds max_bar lines).handed, c.n_bars ≤ max_bar := by
  unfold get_data
  exact get_data_loop_limit stdSort junk max_bar _ _ _ _ _ _
    (by intro c h; simp at h) (by intro c h; simp at h)

/-! ## The loader -/

set_option maxRecDepth 100000 in
/-- C19 (failing input): with the option `-b 0` the limit survives `tune_options` as 0.
For a file with one group of one bar, `get_data` hands to `push_a_chart` a chart with one
bar and `n_bars == 0`; `purge_bars` removes the bar, `set_widths` reads `bars[0]` of an
empty vector, and `get_data` does not return. The same happens, for any limit, with a
count line `0`: the chart handed over has no bar and `n_bars == 0`. -/
theorem zero_limit_reaches_set_widths (junk : Int × F32) :
    tune_max_bar 0 = 0 ∧
    (get_data insertion_sort junk Dataset.new (tune_max_bar 0)
      (header_lines ++ ["1", "2000,A,x,10,cat", ""])).handed =
      [{ bars := [⟨"A", "cat", 10, junk.2⟩], timestamp := "2000", n_bars := 0 }] ∧
    (get_data insertion_sort junk Dataset.new (tune_max_bar 0)
      (header_lines ++ ["1", "2000,A,x,10,cat", ""])).outcome = none ∧
    purge_bars (sort_bars insertion_sort
      { bars := [⟨"A", "cat", 10, junk.2⟩], timestamp := "2000", n_bars := 0 }) =
      some { bars := [], timestamp := "2000", n_bars := 0 } ∧
    set_widths { bars := [], timestamp := "2000", n_bars := 0 } = none ∧
    (get_data insertion_sort junk Dataset.new (tune_max_bar 5)
      (header_lines ++ ["0", ""])).handed =
      [{ bars := [], timestamp := "", n_bars := 0 }] ∧
    (get_data insertion_sort junk Dataset.new (tune_max_bar 5)
      (header_lines ++ ["0", ""])).outcome = none :=
  ⟨rfl, rfl, rfl, rfl, rfl, rfl, rfl⟩

set_option maxRecDepth 100000 in
/-- C20 (failing input): a count line `2` followed by one bar line and the end of the file:
`get_data` returns true, and the chart is neither ranked nor stored. When the group is cut
short by the next count line (count 3, two bar lines, then the count line `2` and its two
bar lines), the count line is read as a bar, the chart is ranked and stored with that bar,
and `get_data` returns true. When a later group is cut short by a blank line, `get_data`
returns false after the first chart has been ranked and stored. -/
theorem short_group_not_detected :
    (get_data insertion_sort (0, F32.nan) Dataset.new 5
      (header_lines ++ ["2", "2000,A,x,10,cat"])).outcome = some true ∧
    (get_data insertion_sort (0, F32.nan) Dataset.new 5
      (header_lines ++ ["2", "2000,A,x,10,cat"])).ds.charts = [] ∧
    (get_data insertion_sort (0, F32.nan) Dataset.new 5
      (header_lines ++ ["3", "2000,A,x,10,c1", "2000,B,x,20,c2",
                        "2", "2001,A,x,30,c1", "2001,B,x,40,c2"])).outcome = some true ∧
    (get_data insertion_sort (0, F32.nan) Dataset.new 5
      (header_lines ++ ["3", "2000,A,x,10,c1", "2000,B,x,20,c2",
                        "2", "2001,A,x,30,c1", "2001,B,x,40,c2"])).ds.charts.map
        (fun e => (e.1, e.2.bars.map Bar.label)) = [("2", ["B", "A", ""])] ∧
    (get_data insertion_sort (0, F32.nan) Dataset.new 5
      (header_lines ++ ["1", "2000,A,x,10,c1", "",
                        "2", "2001,A,x,30,c1", ""])).outcome = some false ∧
    (get_data insertion_sort (0, F32.nan) Dataset.new 5
      (header_lines ++ ["1", "2000,A,x,10,c1", "",
                        "2", "2001,A,x,30,c1", ""])).ds.charts.map
        (fun e => (e.1, e.2.bars.map Bar.label)) = [("2000", ["A"])] :=
  ⟨by decide, by decide, by decide, by decide, by decide, by decide⟩

/-! ## The rounding granularities -/

theorem ilog10_small (n : Nat) (h : n < 10) : ilog10 n n = 0 := by
  cases n with
  | zero => rfl
  | succ m => unfold ilog10; rw [if_pos h]

/-- The two granularities of `print_footer` for a value `v` between 1 and `INT_MAX`, read
as the minimum (`minpow`) and as the maximum (`maxpow`): `minpow` is `10^(digits - 1)`;
`maxpow` is `10^(digits - 2)` when `v >= 10`, and 0 when `v <= 9`. -/
theorem granularities (v : Int) (h1 : 1 ≤ v) (hint : v ≤ INT_MAX) :
    log10_int v = some ((ilog10 v.toNat v.toNat : Nat) : Int) ∧
    pow10_int (((ilog10 v.toNat v.toNat : Nat) : Int) + 1 - 1) =
      some (10 ^ ilog10 v.toNat v.toNat) ∧
    (10 ≤ v → pow10_int (((ilog10 v.toNat v.toNat : Nat) : Int) + 1 - 2) =
      some (10 ^ (ilog10 v.toNat v.toNat - 1))) ∧
    (v ≤ 9 → pow10_int (((ilog10 v.toNat v.toNat : Nat) : Int) + 1 - 2) = some 0) := by
  have hp := pow_ilog10_le v h1
  refine ⟨log10_int_pos v h1, ?_, ?_, ?_⟩
  · have hk : ((ilog10 v.toNat v.toNat : Nat) : Int) + 1 - 1 =
        ((ilog10 v.toNat v.toNat : Nat) : Int) := by omega
    rw [hk]
    exact pow10_int_nat _ (by omega)
  · intro h10
    have hL : 1 ≤ ilog10 v.toNat v.toNat := ilog10_pos _ (by omega)
    have hk : ((ilog10 v.toNat v.toNat : Nat) : Int) + 1 - 2 =
        ((ilog10 v.toNat v.toNat - 1 : Nat) : Int) := by omega
    have hle : (10 : Int) ^ (ilog10 v.toNat v.toNat - 1) ≤ (10 : Int) ^ ilog10 v.toNat v.toNat :=
      pow_le_pow_right₀ (by norm_num) (Nat.sub_le _ _)
    rw [hk]
    exact pow10_int_nat _ (by omega)
  · intro h9
    have hL : ilog10 v.toNat v.toNat = 0 := ilog10_small _ (by omega)
    rw [hL]
    decide

/-- With a first value between 1 and 9 the first part of `print_footer` has no defined
result: `maxpow` is 0 and `max % maxpow` divides by zero. -/
theorem axis_params_single_digit (c : BarChart) (first last : Bar)
    (hf : c.bars.head? = some first) (hl : c.bars.getLast? = some last)
    (h1 : 1 ≤ first.value) (h9 : first.value ≤ 9) : axis_params c = none := by
  have hg := granularities first.value h1 (by unfold INT_MAX; omega)
  unfold axis_params
  rw [hf, hl]
  simp only
  rw [hg.1]
  cases hlast : log10_int last.value with
  | none => rfl
  | some lmin =>
      simp only
      rw [hg.2.2.2 h9]
      cases hpow : pow10_int (lmin + 1 - 1) with
      | none => rfl
      | some minpow => simp

set_option maxRecDepth 100000 in
/-- C21 (failing input): for the ranked chart with the single bar of value 5 (one digit),
`maxpow` is `( int ) ( 10^-1 + 0.5 ) == 0`, not 1, and the modulo `max % maxpow` divides by
zero: the footer has no defined result. -/
theorem single_digit_maximum_divides_by_zero :
    push_a_chart insertion_sort Dataset.new (raw_chart [5]) =
      some ({ Dataset.new with charts := [("t", ranked_chart [5])] }, ranked_chart [5]) ∧
    log10_int 5 = some 0 ∧
    pow10_int (0 + 1 - 2) = some 0 ∧
    pow10_int (0 + 1 - 1) = some 1 ∧
    axis_params (ranked_chart [5]) = none ∧
    print_footer (ranked_chart [5]) = none :=
  ⟨by rfl, by decide, by decide, by decide, by decide, by decide⟩

/-- The rounded maximum is the next multiple of the granularity strictly above the value. -/
theorem rounded_max_eq (v : Int) :
    rounded_max v =
      (v / 10 ^ (ilog10 v.toNat v.toNat - 1) + 1) * 10 ^ (ilog10 v.toNat v.toNat - 1) := by
  unfold rounded_max
  have h := Int.emod_add_ediv v (10 ^ (ilog10 v.toNat v.toNat - 1))
  generalize (10 : Int) ^ (ilog10 v.toNat v.toNat - 1) = P at h ⊢
  have e : (v / P + 1) * P = P * (v / P) + P := by ring
  rw [e]
  omega

set_option maxRecDepth 100000 in
/-- C22 (failing input): for the ranked chart with values 980 and 120 the granularity of the
maximum is 10 and 980 is a multiple of it, yet the rounded maximum is 990, not 980. -/
theorem multiple_is_rounded_past :
    push_a_chart insertion_sort Dataset.new (raw_chart [980, 120]) =
      some ({ Dataset.new with charts := [("t", ranked_chart [980, 120])] },
            ranked_chart [980, 120]) ∧
    log10_int 980 = some 2 ∧
    pow10_int (2 + 1 - 2) = some 10 ∧
    (980 : Int).tmod 10 = 0 ∧
    axis_params (ranked_chart [980, 120]) = some (100, 990, 178) :=
  ⟨by rfl, by decide, by decide, by decide, by decide⟩

/-! ## The rounded minimum -/

/-- Whenever the first part of `print_footer` has a result, its rounded minimum is the one
the rounding lines give for the value of the last bar. -/
theorem axis_params_min (c : BarChart) (last : Bar) (mn mx step : Int)
    (hl : c.bars.getLast? = some last) (h : axis_params c = some (mn, mx, step)) :
    round_down_min last.value = some mn := by
  unfold axis_params at h
  rw [hl] at h
  unfold round_down_min
  cases hf : c.bars.head? with
  | none => rw [hf] at h; simp at h
  | some first =>
      rw [hf] at h
      simp only at h
      cases hmax : log10_int first.value with
      | none => rw [hmax] at h; simp at h
      | some lmax =>
          cases hmin : log10_int last.value with
          | none => rw [hmax, hmin] at h; simp at h
          | some lmin =>
              rw [hmax, hmin] at h
              simp only at h
              cases hp : pow10_int (lmax + 1 - 2) with
              | none => rw [hp] at h; simp at h
              | some maxpow =>
                  cases hq : pow10_int (lmin + 1 - 1) with
                  | none => rw [hp, hq] at h; simp at h
                  | some minpow =>
                      rw [hp, hq] at h
                      simp only at h
                      by_cases hz : minpow = 0 ∨ maxpow = 0
                      · rw [if_pos hz] at h; simp at h
                      · rw [if_neg hz] at h
                        by_cases ho : INT_MAX < first.value +
                            (maxpow - first.value.tmod maxpow)
                        · rw [if_pos ho] at h; simp at h
                        · rw [if_neg ho] at h
                          simp only [Option.some.injEq, Prod.mk.injEq] at h
                          simp only [Option.some_bind]
                          rw [hq]
                          simp only [Option.some_bind]
                          rw [if_neg (fun e => hz (Or.inl e)), h.1]

theorem round_down_min_eq (v : Int) (h1 : 1 ≤ v) (hint : v ≤ INT_MAX) :
    round_down_min v =
      some (v / 10 ^ ilog10 v.toNat v.toNat * 10 ^ ilog10 v.toNat v.toNat) := by
  have hg := granularities v h1 hint
  have hp := pow_ilog10_le v h1
  have hpos : (0 : Int) < 10 ^ ilog10 v.toNat v.toNat := by positivity
  unfold round_down_min
  rw [hg.1]
  simp only [Option.some_bind]
  rw [hg.2.1]
  simp only [Option.some_bind]
  rw [if_neg (by omega), Int.tmod_eq_emod (by omega) (by omega)]
  have h := Int.emod_add_ediv v (10 ^ ilog10 v.toNat v.toNat)
  rw [mul_comm] at h
  congr 1
  omega

/-- C23: for every minimum `v` between 1 and `INT_MAX`, with `L + 1` decimal digits
(`10^L <= v < 10^(L+1)`), the rounding lines of `print_footer` give a result, namely
`d * 10^L` where `d = v / 10^L` is the leading digit (between 1 and 9); this rounded
minimum is positive, at most `v`, and no multiple of `10^L` that is at most `v` exceeds it;
and it is the rounded minimum of every chart whose last value is `v` and for which the first
part of `print_footer` has a result. -/
theorem rounded_min_is_leading_digit (v : Int) (h1 : 1 ≤ v) (hint : v ≤ INT_MAX) :
    (10 : Int) ^ ilog10 v.toNat v.toNat ≤ v ∧
    v < (10 : Int) ^ (ilog10 v.toNat v.toNat + 1) ∧
    round_down_min v =
      some (v / 10 ^ ilog10 v.toNat v.toNat * 10 ^ ilog10 v.toNat v.toNat) ∧
    1 ≤ v / 10 ^ ilog10 v.toNat v.toNat ∧
    v / 10 ^ ilog10 v.toNat v.toNat ≤ 9 ∧
    0 < v / 10 ^ ilog10 v.toNat v.toNat * 10 ^ ilog10 v.toNat v.toNat ∧
    v / 10 ^ ilog10 v.toNat v.toNat * 10 ^ ilog10 v.toNat v.toNat ≤ v ∧
    (∀ m : Int, (10 : Int) ^ ilog10 v.toNat v.toNat ∣ m → m ≤ v →
      m ≤ v / 10 ^ ilog10 v.toNat v.toNat * 10 ^ ilog10 v.toNat v.toNat) ∧
    ∀ (c : BarChart) (last : Bar) (mn mx step : Int),
      c.bars.getLast? = some last → last.value = v →
      axis_params c = some (mn, mx, step) →
      mn = v / 10 ^ ilog10 v.toNat v.toNat * 10 ^ ilog10 v.toNat v.toNat := by
  have hp := pow_ilog10_le v h1
  have heq := round_down_min_eq v h1 hint
  have hpos : (0 : Int) < 10 ^ ilog10 v.toNat v.toNat := by positivity
  have hsucc : (10 : Int) ^ (ilog10 v.toNat v.toNat + 1) =
      10 * 10 ^ ilog10 v.toNat v.toNat := by rw [pow_succ]; ring
  have hd1 : 1 ≤ v / 10 ^ ilog10 v.toNat v.toNat := by
    have := (Int.le_ediv_iff_mul_le hpos).2 (show 1 * 10 ^ ilog10 v.toNat v.toNat ≤ v by
      rw [one_mul]; exact hp.1)
    exact this
  have hd9 : v / 10 ^ ilog10 v.toNat v.toNat ≤ 9 := by
    have : v / 10 ^ ilog10 v.toNat v.toNat < 10 := by
      apply (Int.ediv_lt_iff_lt_mul hpos).2
      rw [← hsucc]; exact hp.2
    omega
  have hle : v / 10 ^ ilog10 v.toNat v.toNat * 10 ^ ilog10 v.toNat v.toNat ≤ v :=
    Int.ediv_mul_le v (ne_of_gt hpos)
  refine ⟨hp.1, hp.2, heq, hd1, hd9, ?_, hle, ?_, ?_⟩
  · exact Int.mul_pos (by omega) hpos
  · intro m hm hmv
    obtain ⟨q, rfl⟩ := hm
    have hq : q ≤ v / 10 ^ ilog10 v.toNat v.toNat := by
      apply (Int.le_ediv_iff_mul_le hpos).2
      rw [mul_comm]; exact hmv
    rw [mul_comm]
    exact Int.mul_le_mul_of_nonneg_right hq (le_of_lt hpos)
  · intro c last mn mx step hl hv h
    have hm := axis_params_min c last mn mx step hl h
    rw [hv, heq] at hm
    exact (Option.some.inj hm).symm

set_option maxRecDepth 100000 in
/-- Witness for C23 at the minimum 361 (three digits), the example of the source comment:
the rounded minimum is 300, also as the first part of `print_footer` computes it for the
ranked chart with values 980 and 361. -/
theorem rounded_min_is_leading_digit_witness :
    ((1 : Int) ≤ 361 ∧ (361 : Int) ≤ INT_MAX) ∧
    round_down_min 361 = some 300 ∧
    axis_params (ranked_chart [980, 361]) = some (300, 990, 138) ∧
    (300 : Int) = 361 / 10 ^ ilog10 (361 : Int).toNat (361 : Int).toNat *
      10 ^ ilog10 (361 : Int).toNat (361 : Int).toNat :=
  ⟨⟨by decide, by decide⟩, by decide, by decide,
    (rounded_min_is_leading_digit 361 (by decide) (by decide)).2.2.2.2.2.2.2.2
      (ranked_chart [980, 361]) ⟨"bar", "cat", 361, bar_width 361 980⟩ 300 990 138
      (by rfl) (by rfl) (by decide)⟩

/-! ## The columns of the ticks -/

/-- Every tick that the loop of `print_footer` appends lies between the start value and
`max`, when the step is not negative. -/
theorem tick_loop_range (max step : Int) (hstep : 0 ≤ step) (fuel : Nat) :
    ∀ (i : Int) (acc r : List Int × List Int), tick_loop max step fuel i acc = some r →
      ∃ s w, r = (acc.1 ++ s, acc.2 ++ w) ∧ ∀ t ∈ s, i ≤ t ∧ t ≤ max := by
  induction fuel with
  | zero => intro i acc r h; simp [tick_loop] at h
  | succ fuel ih =>
      rintro i ⟨sq, wd⟩ r h
      unfold tick_loop at h
      by_cases hi : i ≤ max
      · rw [if_pos hi] at h
        cases hw : tick_width i max with
        | none => rw [hw] at h; simp at h
        | some width =>
            rw [hw] at h
            simp only [Option.some_bind] at h
            by_cases hov : INT_MAX < i + step
            · rw [if_pos hov] at h; simp at h
            · rw [if_neg hov] at h
              obtain ⟨s, w, hr, hrange⟩ := ih _ _ _ h
              refine ⟨i :: s, width :: w, ?_, ?_⟩
              · rw [hr]; simp
              · intro t ht
                rcases List.mem_cons.1 ht with rfl | ht
                · exact ⟨le_refl _, hi⟩
                · have := hrange t ht
                  exact ⟨by omega, this.2⟩
      · rw [if_neg hi] at h
        simp only [Option.some.injEq] at h
        exact ⟨[], [], by rw [← h]; simp, by intro t ht; simp at ht⟩

/-- The conversion to `int` of a non-negative `float` below `2^31`: the integer part. -/
theorem F32.toInt_fin_nat (w : Nat) (h : w ≤ 150 * 2 ^ 149) :
    F32.toInt (F32.fin (w : Int)) = some (((w / 2 ^ 149 : Nat) : Nat) : Int) := by
  have hq : w / 2 ^ 149 ≤ 150 := by
    apply Nat.div_le_of_le_mul
    rw [mul_comm]; exact h
  have ht : (w : Int).tdiv (2 ^ 149) = ((w / 2 ^ 149 : Nat) : Int) := by
    rw [Int.tdiv_eq_ediv (by omega) (by positivity)]
    norm_cast
  unfold F32.toInt
  simp only
  rw [ht, if_pos ⟨by omega, by omega⟩]

/-- The column of a tick `t` between 1 and `max`: the integer part of the `float` value of
`150 * ( ( float ) t / ( float ) max )`, which is within one part in `2^21` of
`150 * t / max`. -/
theorem tick_width_near (t max : Int) (h1 : 1 ≤ t) (hle : t ≤ max) (hmax : max ≤ INT_MAX) :
    ∃ w : Nat, bar_width t max = F32.fin w ∧
      tick_width t max = some (((w / 2 ^ 149 : Nat) : Nat) : Int) ∧
      (((w / 2 ^ 149 : Nat) : Nat) : ℚ) ≤
        150 * (t : ℚ) / (max : ℚ) + 150 * (t : ℚ) / (max : ℚ) / 2 ^ 21 ∧
      150 * (t : ℚ) / (max : ℚ) - 150 * (t : ℚ) / (max : ℚ) / 2 ^ 21 <
        (((w / 2 ^ 149 : Nat) : Nat) : ℚ) + 1 := by
  obtain ⟨w, hw, hnear⟩ := bar_width_near t max h1 hle hmax
  obtain ⟨w2, hw2, hb⟩ := bar_width_bounds t max (by omega) hle (by omega) hmax
  have hww : w2 = w := by
    rw [hw] at hw2
    have := F32.fin.inj hw2
    omega
  subst hww
  refine ⟨w2, hw, ?_, ?_, ?_⟩
  · have := F32.toInt_fin_nat w2 hb
    unfold tick_width
    unfold bar_width at hw
    rw [hw]
    exact this
  · have h1 : (((w2 / 2 ^ 149 : Nat) : Nat) : ℚ) ≤ (w2 : ℚ) / 2 ^ 149 := by
      have := @Nat.cast_div_le ℚ _ w2 (2 ^ 149)
      rw [Nat.cast_pow] at this
      exact this
    have h2 := (abs_le.1 hnear).2
    linarith
  · have h1 : (w2 : ℚ) / 2 ^ 149 < (((w2 / 2 ^ 149 : Nat) : Nat) : ℚ) + 1 := by
      have hlt : w2 < (w2 / 2 ^ 149 + 1) * 2 ^ 149 := by
        have := Nat.div_add_mod w2 (2 ^ 149)
        have hm : w2 % 2 ^ 149 < 2 ^ 149 := Nat.mod_lt _ (by positivity)
        rw [add_mul, one_mul, mul_comm]
        omega
      have hq : (w2 : ℚ) < ((w2 / 2 ^ 149 : Nat) + 1 : ℚ) * 2 ^ 149 := by
        have := (Nat.cast_lt (α := ℚ)).mpr hlt
        rw [Nat.cast_mul, Nat.cast_add, Nat.cast_pow] at this
        exact this
      rw [div_lt_iff₀ (by positivity)]
      exact hq
    have h2 := (abs_le.1 hnear).1
    linarith

/-- C24 (amended): for a chart whose first value is at least 10 and at most `INT_MAX` and
whose last value is between 1 and the first value, every tick `t` of the footer is stored
with the column `int width = 150 * ( ( float ) t / ( float ) roundedMax )`: the `float`
product truncated toward zero, not rounded to the nearest integer. The column `col`
satisfies `x - x / 2^21 - 1 < col <= x + x / 2^21` for `x = 150 * t / roundedMax`. -/
theorem tick_columns_truncate (c : BarChart) (first last : Bar) (f : Footer)
    (hf : c.bars.head? = some first) (hl : c.bars.getLast? = some last)
    (hmin : 1 ≤ last.value) (hle : last.value ≤ first.value) (h10 : 10 ≤ first.value)
    (hint : first.value ≤ INT_MAX) (hpf : print_footer c = some f) :
    ∃ mn mx step, axis_params c = some (mn, mx, step) ∧
      ∀ (k : Nat) (t : Int), f.sequence[k]? = some t →
        ∃ (col : Int) (w : Nat), f.widths[k]? = some col ∧
          tick_width t mx = some col ∧
          bar_width t mx = F32.fin w ∧ col = ((w / 2 ^ 149 : Nat) : Int) ∧
          (col : ℚ) ≤ 150 * (t : ℚ) / (mx : ℚ) + 150 * (t : ℚ) / (mx : ℚ) / 2 ^ 21 ∧
          150 * (t : ℚ) / (mx : ℚ) - 150 * (t : ℚ) / (mx : ℚ) / 2 ^ 21 < (col : ℚ) + 1 := by
  have hp := axis_params_eq c first last hf hl hmin hle h10 hint
  by_cases hov : INT_MAX < rounded_max first.value
  · rw [if_pos hov] at hp
    unfold print_footer at hpf
    rw [hp] at hpf
    simp at hpf
  · rw [if_neg hov] at hp
    refine ⟨_, _, _, hp, ?_⟩
    by_cases hstep : (rounded_max first.value - rounded_min last.value) / 5 = 0
    · rw [hstep] at hp
      have := print_footer_flat c _ _ hp
      rw [this] at hpf
      simp only [Option.some.injEq] at hpf
      subst hpf
      intro k t hk
      simp [flat_footer] at hk
    · have ht := print_footer_ticks c _ _ _ f hp hstep hpf
      have hmn : 1 ≤ rounded_min last.value ∧ rounded_min last.value ≤ last.value := by
        have hpow := pow_ilog10_le last.value hmin
        have hpos : (0 : Int) < 10 ^ ilog10 last.value.toNat last.value.toNat := by positivity
        have h1 := Int.emod_add_ediv last.value (10 ^ ilog10 last.value.toNat last.value.toNat)
        have h2 := Int.emod_nonneg last.value (ne_of_gt hpos)
        have h3 : 1 ≤ last.value / 10 ^ ilog10 last.value.toNat last.value.toNat :=
          (Int.le_ediv_iff_mul_le hpos).2 (by rw [one_mul]; exact hpow.1)
        have h4 : 10 ^ ilog10 last.value.toNat last.value.toNat * 1 ≤
            10 ^ ilog10 last.value.toNat last.value.toNat *
              (last.value / 10 ^ ilog10 last.value.toNat last.value.toNat) :=
          Int.mul_le_mul_of_nonneg_left h3 (le_of_lt hpos)
        unfold rounded_min
        constructor <;> omega
      have hmx := lt_rounded_max first.value
      have hstep0 : 0 ≤ (rounded_max first.value - rounded_min last.value) / 5 :=
        Int.ediv_nonneg (by omega) (by norm_num)
      obtain ⟨s, w, hr, _, _, hcol⟩ := tick_loop_spec _ _ _ _ _ _ ht
      obtain ⟨s2, w2, hr2, hrange⟩ := tick_loop_range _ _ hstep0 _ _ _ _ ht
      simp only [List.nil_append, Prod.mk.injEq] at hr hr2
      intro k t hk
      have hts : t ∈ f.sequence := List.mem_iff_getElem?.2 ⟨k, hk⟩
      rw [hr2.1] at hts
      obtain ⟨hlo, hhi⟩ := hrange t hts
      rw [hr.1] at hk
      obtain ⟨col, hwk, htw⟩ := hcol k t hk
      obtain ⟨wf, hbw, htw2, hub, hlb⟩ :=
        tick_width_near t (rounded_max first.value) (by omega) hhi (by omega)
      have hce : col = ((wf / 2 ^ 149 : Nat) : Int) := by
        rw [htw] at htw2
        exact Option.some.inj htw2
      refine ⟨col, wf, by rw [hr.2]; exact hwk, htw, hbw, hce, ?_, ?_⟩
      · rw [hce]; exact_mod_cast hub
      · rw [hce]; exact_mod_cast hlb

set_option maxRecDepth 100000 in
/-- Witness for C24 (amended) at the ranked chart with values 980 and 120, whose ticks
100, 278, 456, 634, 812, 990 stand at the columns 15, 42, 69, 96, 123, 150. -/
theorem tick_columns_truncate_witness :
    ∃ mn mx step, axis_params (ranked_chart [980, 120]) = some (mn, mx, step) ∧
      ∀ (k : Nat) (t : Int), ([100, 278, 456, 634, 812, 990] : List Int)[k]? = some t →
        ∃ (col : Int) (w : Nat), ([15, 42, 69, 96, 123, 150] : List Int)[k]? = some col ∧
          tick_width t mx = some col ∧
          bar_width t mx = F32.fin w ∧ col = ((w / 2 ^ 149 : Nat) : Int) ∧
          (col : ℚ) ≤ 150 * (t : ℚ) / (mx : ℚ) + 150 * (t : ℚ) / (mx : ℚ) / 2 ^ 21 ∧
          150 * (t : ℚ) / (mx : ℚ) - 150 * (t : ℚ) / (mx : ℚ) / 2 ^ 21 < (col : ℚ) + 1 :=
  tick_columns_truncate (ranked_chart [980, 120]) ⟨"bar", "cat", 980, bar_width 980 980⟩
    ⟨"bar", "cat", 120, bar_width 120 980⟩ _ rfl rfl (by decide) (by decide) (by decide)
    (by decide) footer_980_120

set_option maxRecDepth 100000 in
/-- C24 (counterexample): in the ranked chart with values 57 and 12 the tick 10 of the axis
that ends at 58 is stored at column 25, while `150 * 10 / 58` (about 25.86) is nearer to 26;
and in the ranked chart with values 24 and 1 the tick 21 of the axis that ends at 25 is
stored at column 125, while `150 * 21 / 25` is exactly 126. -/
theorem tick_column_not_nearest :
    push_a_chart insertion_sort Dataset.new (raw_chart [57, 12]) =
      some ({ Dataset.new with charts := [("t", ranked_chart [57, 12])] },
            ranked_chart [57, 12]) ∧
    (print_footer (ranked_chart [57, 12])).map (fun f => (f.sequence, f.widths)) =
      some ([10, 19, 28, 37, 46, 55], [25, 49, 72, 95, 118, 142]) ∧
    axis_params (ranked_chart [57, 12]) = some (10, 58, 9) ∧
    |150 * (10 : ℚ) / 58 - 26| < 1 / 2 ∧
    push_a_chart insertion_sort Dataset.new (raw_chart [24, 1]) =
      some ({ Dataset.new with charts := [("t", ranked_chart [24, 1])] },
            ranked_chart [24, 1]) ∧
    (print_footer (ranked_chart [24, 1])).map (fun f => (f.sequence, f.widths)) =
      some ([1, 5, 9, 13, 17, 21, 25], [6, 30, 54, 78, 102, 125, 150]) ∧
    axis_params (ranked_chart [24, 1]) = some (1, 25, 4) ∧
    150 * (21 : ℚ) / 25 = 126 :=
  ⟨by rfl, by decide, by decide, by rw [abs_lt]; constructor <;> norm_num,
   by rfl, by decide, by decide, by norm_num⟩

set_option maxRecDepth 100000 in
/-- C25 (failing input): a well-formed file with two groups (timestamps 2000 and 2001) that
ends right after the last bar line: `get_data` returns true, only the chart of the first
group was handed to `push_a_chart`, and the dataset holds the chart of timestamp 2000 alone;
the group 2001 is missing. The same file followed by a blank line leaves both charts in the
dataset. A well-formed file with a single group and no blank line at its end leaves the
dataset without any chart. -/
theorem last_group_not_stored :
    (get_data insertion_sort (0, F32.nan) Dataset.new 5
      (header_lines ++ ["2", "2000,A,x,10,c1", "2000,B,x,20,c2", "",
                        "1", "2001,A,x,30,c1"])).outcome = some true ∧
    (get_data insertion_sort (0, F32.nan) Dataset.new 5
      (header_lines ++ ["2", "2000,A,x,10,c1", "2000,B,x,20,c2", "",
                        "1", "2001,A,x,30,c1"])).handed.map BarChart.timestamp =
        ["2000", "2000"] ∧
    (get_data insertion_sort (0, F32.nan) Dataset.new 5
      (header_lines ++ ["2", "2000,A,x,10,c1", "2000,B,x,20,c2", "",
                        "1", "2001,A,x,30,c1"])).ds.charts.map
        (fun e => (e.1, e.2.bars.map (fun b => (b.label, b.value)))) =
        [("2000", [("B", 20), ("A", 10)])] ∧
    (get_data insertion_sort (0, F32.nan) Dataset.new 5
      (header_lines ++ ["2", "2000,A,x,10,c1", "2000,B,x,20,c2", "",
                        "1", "2001,A,x,30,c1", ""])).outcome = some true ∧
    (get_data insertion_sort (0, F32.nan) Dataset.new 5
      (header_lines ++ ["2", "2000,A,x,10,c1", "2000,B,x,20,c2", "",
                        "1", "2001,A,x,30,c1", ""])).ds.charts.map
        (fun e => (e.1, e.2.bars.map (fun b => (b.label, b.value)))) =
        [("2000", [("B", 20), ("A", 10)]), ("2001", [("A", 30)])] ∧
    (get_data insertion_sort (0, F32.nan) Dataset.new 5
      (header_lines ++ ["1", "2000,A,x,10,c1"])).outcome = some true ∧
    (get_data insertion_sort (0, F32.nan) Dataset.new 5
      (header_lines ++ ["1", "2000,A,x,10,c1"])).ds.charts = [] :=
  ⟨by decide, by decide, by decide, by decide, by decide, by decide, by decide⟩

end BarChartRace
